import Mathlib

/-!
# faas-flow, package sdk: the DAG definition exporter (sdk/exporter.go)

A shallow embedding of `exportOperation`, `exportNode`, `exportDag` and
`Pipeline.GetDagDefinition`, followed by the properties of the exported
snapshot tree.

Conventions of the embedding.

* A Go `string` is a byte sequence (`GoString`); `len` counts bytes and a slice
  expression cuts bytes.
* A Go value that is only ever compared with `nil` (a function value, a hook)
  is an `Option FuncRef`.
* A Go `map[string]V` is an association list in iteration order (`GoMap V`);
  a map field that may still be `nil` is an `Option (GoMap V)`.
* The exporters mutate a record that the caller passes by pointer; here every
  exporter takes the record and returns the updated one.
* A run time panic is a `Fault` returned through `Except`.
-/

namespace Sdk

/-! ## Go values -/

/-- A Go string: a sequence of bytes. -/
abbrev GoString := List (Fin 256)

/-- The UTF-8 bytes of a string literal. -/
def go (s : String) : GoString :=
  s.toList.flatMap (fun c => (String.utf8EncodeChar c).map (fun b => b.val))

/-- A non-nil Go function value. Only its presence is ever observed. -/
structure FuncRef where
  addr : Nat
deriving DecidableEq, Repr

/-- The run time panics that the exporter can raise. -/
inductive Fault where
  | sliceBoundsOutOfRange
  | nilPointerDereference
  | assignmentToNilMap
deriving DecidableEq, Repr

/-- The Go slice expression `s[lo:]` on a string; `lo` is a Go `int`, and a bound
outside `0 ..= len(s)` panics. -/
def sliceFrom (s : GoString) (lo : Int) : Except Fault GoString :=
  if lo < 0 ∨ (s.length : Int) < lo then .error .sliceBoundsOutOfRange
  else .ok (s.drop lo.toNat)

/-- A Go `map[string]V`, its entries listed in iteration order. A Go map holds each
key at most once. -/
abbrev GoMap (V : Type) := List (GoString × V)

namespace GoMap

/-- The value stored under `k`, if the key is present (`v, ok := m[k]`). -/
def get {V : Type} : GoMap V → GoString → Option V
  | [], _ => none
  | (k', v) :: r, k => if k' = k then some v else get r k

/-- The assignment `m[k] = v`: overwrites the value of a present key, adds the key
otherwise. -/
def set {V : Type} : GoMap V → GoString → V → GoMap V
  | [], k, v => [(k, v)]
  | (k', v') :: r, k, v => if k' = k then (k', v) :: r else (k', v') :: set r k v

/-- The keys of a map, in iteration order. -/
def keys {V : Type} (m : GoMap V) : List GoString := m.map Prod.fst

/-- The index expression `m[k]` on a map whose values can be `nil`: the stored value,
and `nil` (the zero value) when the key is absent. -/
def index {F : Type} (m : GoMap (Option F)) (k : GoString) : Option F :=
  match get m k with
  | some v => v
  | none => none

end GoMap

/-- The builtin `len` on a map field that may be `nil`. -/
def mapLen {V : Type} : Option (GoMap V) → Nat
  | none => 0
  | some m => m.length

/-- Reading `m[k]` from a map field that may be `nil`. -/
def mapGet {V : Type} : Option (GoMap V) → GoString → Option V
  | none, _ => none
  | some m, k => m.get k

/-- The assignment `m[k] = v` on a map field; it panics while the field is `nil`. -/
def mapSet {V : Type} : Option (GoMap V) → GoString → V → Except Fault (Option (GoMap V))
  | none, _, _ => .error .assignmentToNilMap
  | some m, k, v => .ok (some (m.set k v))

/-- The literal key "dynamic" of a forwarding table. -/
def dynamicKey : GoString := go "dynamic"

/-! ## The source graph (declared outside `exporter.go`) -/

/-- Modelled from the spec: the `Operation` declaration is not part of `exporter.go`.
The fields are the ones `exportOperation` reads: a modifier hook, a function name,
a callback address and the two handlers. -/
structure Operation where
  Mod : Option FuncRef
  Function : GoString
  CallbackUrl : GoString
  FailureHandler : Option FuncRef
  OnResphandler : Option FuncRef
deriving DecidableEq, Repr

/-- Modelled from the spec: the `Node` declaration is not part of `exporter.go`.
The fields are the ones `exportNode` reads, together with the in-degree and
out-degree counts that the data model says a node supplies. `D` is the type of a
nested workflow. A child is a pointer to a sibling node of which the exporter
reads the identifier only, so `children` lists the identifiers of the children in
edge order. The forwarding table is compared with `nil` entry by entry, so its
values are hooks that can be `nil`. Pointers stored in collections are non-nil. -/
structure NodeF (D : Type) where
  Id : GoString
  index : Int
  uniqueId : GoString
  subDag : Option D
  conditionalDags : List (GoString × D)
  operations : List Operation
  dynamic : Bool
  aggregator : Option FuncRef
  foreach : Option FuncRef
  condition : Option FuncRef
  subAggregator : Option FuncRef
  forwarder : GoMap (Option FuncRef)
  indegree : Int
  outdegree : Int
  children : List GoString

/-- Modelled from the spec: the `Dag` declaration is not part of `exporter.go`.
The fields are the ones `exportDag` reads. `initialNode` and `endNode` point to a
node of which the exporter reads the identifier only; they carry that identifier,
`none` standing for a `nil` pointer. -/
structure Dag where
  Id : GoString
  nodes : List (GoString × NodeF Dag)
  initialNode : Option GoString
  endNode : Option GoString
  hasBranch : Bool
  hasEdge : Bool
  executionFlow : Bool

/-- A node of a workflow. -/
abbrev Node := NodeF Dag

/-- Modelled from the spec: `Node.GetCondition` is declared outside `exporter.go`;
it exposes the branch-condition construct of the node. -/
def NodeF.GetCondition {D : Type} (node : NodeF D) : Option FuncRef := node.condition

/-- Modelled from the spec: `Node.GetForEach` is declared outside `exporter.go`;
it exposes the loop construct of the node. -/
def NodeF.GetForEach {D : Type} (node : NodeF D) : Option FuncRef := node.foreach

/-- Modelled from the spec: the pipeline is declared outside `exporter.go`; the
exporter reads its top-level workflow. -/
structure Pipeline where
  Dag : Dag

/-! ## The snapshot records -/

/-- The record `OperationExporter`. -/
structure OperationExporter where
  IsMod : Bool
  IsFunction : Bool
  IsCallback : Bool
  Name : GoString
  HasResponseHandler : Bool
  HasFailureHandler : Bool
deriving DecidableEq, Repr

/-- The record `NodeExporter`; `D` is the type of a nested workflow snapshot. -/
structure NodeExporterF (D : Type) where
  Id : GoString
  Index : Int
  UniqueId : GoString
  IsDynamic : Bool
  IsCondition : Bool
  IsForeach : Bool
  HasAgregator : Bool
  HasSubAggregator : Bool
  HasSubDag : Bool
  InDegree : Int
  OutDegree : Int
  SubDag : Option D
  ForeachDag : Option D
  ConditionalDags : Option (List (GoString × D))
  DynamicExecOnly : Bool
  Operations : List OperationExporter
  Childrens : List GoString
  ChildrenExecOnly : Option (GoMap Bool)

/-- The record `DagExporter`. -/
structure DagExporter where
  Id : GoString
  StartNode : GoString
  EndNode : GoString
  HasBranch : Bool
  HasEdge : Bool
  ExecutionOnlyDag : Bool
  Nodes : Option (List (GoString × NodeExporterF DagExporter))
  IsValid : Bool
  ValidationError : GoString

/-- A node snapshot. -/
abbrev NodeExporter := NodeExporterF DagExporter

/-- The zero value `OperationExporter{}`. -/
def OperationExporter.zero : OperationExporter :=
  { IsMod := false, IsFunction := false, IsCallback := false, Name := [],
    HasResponseHandler := false, HasFailureHandler := false }

/-- The zero value `NodeExporter{}`. -/
def NodeExporterF.zero {D : Type} : NodeExporterF D :=
  { Id := [], Index := 0, UniqueId := [], IsDynamic := false, IsCondition := false,
    IsForeach := false, HasAgregator := false, HasSubAggregator := false,
    HasSubDag := false, InDegree := 0, OutDegree := 0, SubDag := none,
    ForeachDag := none, ConditionalDags := none, DynamicExecOnly := false,
    Operations := [], Childrens := [], ChildrenExecOnly := none }

/-- The zero value `DagExporter{}`. -/
def DagExporter.zero : DagExporter :=
  { Id := [], StartNode := [], EndNode := [], HasBranch := false, HasEdge := false,
    ExecutionOnlyDag := false, Nodes := none, IsValid := false, ValidationError := [] }

/-! ## The exporters -/

/-- The function `exportOperation` (exporter.go, lines 53 to 71). -/
def exportOperation (exportOperation : OperationExporter) (operation : Operation) :
    Except Fault OperationExporter := do
  let e := exportOperation
  let e := if operation.Mod ≠ none then { e with IsMod := true } else e
  let e := if operation.Function ≠ [] then
      { e with IsFunction := true, Name := operation.Function } else e
  let e ← if operation.CallbackUrl ≠ [] then
      (sliceFrom operation.CallbackUrl ((operation.CallbackUrl.length : Int) - 8)).map
        (fun name => { e with IsCallback := true, Name := name })
    else pure e
  let e := if operation.FailureHandler ≠ none then { e with HasFailureHandler := true } else e
  let e := if operation.OnResphandler ≠ none then { e with HasResponseHandler := true } else e
  pure e

/-- The loop over `node.operations` (lines 112 to 116): each operation is exported into
a fresh record, which is appended to `Operations`. -/
def exportOperations (e : NodeExporter) : List Operation → Except Fault NodeExporter
  | [] => pure e
  | operation :: rest => do
    let exportedOperation ← exportOperation OperationExporter.zero operation
    exportOperations { e with Operations := e.Operations ++ [exportedOperation] } rest

/-- The loop over `node.children` (lines 119 to 126); `forwarder` is the forwarding
table of the node and the list holds the identifier of each child. -/
def exportChildren (forwarder : GoMap (Option FuncRef)) (e : NodeExporter) :
    List GoString → Except Fault NodeExporter
  | [] => pure e
  | snodeId :: rest => do
    let e := { e with Childrens := e.Childrens ++ [snodeId] }
    let m ← if forwarder.index snodeId = none then mapSet e.ChildrenExecOnly snodeId true
      else mapSet e.ChildrenExecOnly snodeId false
    exportChildren forwarder { e with ChildrenExecOnly := m } rest

/-- The assignments of lines 74 to 78 of `exportNode`. -/
def copyNodeFields (e : NodeExporter) (node : Node) : NodeExporter :=
  { e with Id := node.Id, Index := node.index, UniqueId := node.uniqueId,
           IsDynamic := node.dynamic }

/-- The flag `DynamicExecOnly` is raised when `node.forwarder["dynamic"] == nil`
(lines 81 to 83 and 96 to 98). -/
def markDynamicExecOnly (e : NodeExporter) (node : Node) : NodeExporter :=
  if node.forwarder.index dynamicKey = none then { e with DynamicExecOnly := true } else e

/-- The assignments of lines 80 to 83, inside `if node.GetCondition() != nil`. -/
def markCondition (e : NodeExporter) (node : Node) : NodeExporter :=
  markDynamicExecOnly { e with IsCondition := true } node

/-- The assignments of lines 93 to 98, inside `if node.GetForEach() != nil`;
`foreachDag` is the record filled by `exportDag(exportNode.ForeachDag, node.subDag)`. -/
def markForeach (e : NodeExporter) (node : Node) (foreachDag : DagExporter) :
    NodeExporter :=
  markDynamicExecOnly { e with IsForeach := true, ForeachDag := some foreachDag } node

/-- The two presence flags of lines 100 to 105. -/
def markAggregators (e : NodeExporter) (node : Node) : NodeExporter :=
  let e := if node.aggregator ≠ none then { e with HasAgregator := true } else e
  if node.subAggregator ≠ none then { e with HasSubAggregator := true } else e

/-- The assignments of lines 107 and 108; `subDag` is the record filled by
`exportDag(exportNode.SubDag, node.subDag)`. -/
def markSubDag (e : NodeExporter) (subDag : DagExporter) : NodeExporter :=
  { e with HasSubDag := true, SubDag := some subDag }

/-- The statement `exportNode.ChildrenExecOnly = make(map[string]bool)` of line 118. -/
def makeChildrenExecOnly (e : NodeExporter) : NodeExporter :=
  { e with ChildrenExecOnly := some [] }

/-- The guard `if m == nil { m = make(...) }` on the field `ConditionalDags`
(lines 85 to 87). -/
def makeConditionalDags (e : NodeExporter) : NodeExporter :=
  match e.ConditionalDags with
  | none => { e with ConditionalDags := some [] }
  | some _ => e

/-- The guard `if m == nil { m = make(...) }` on the field `Nodes` (lines 142 to 144). -/
def makeNodes (e : DagExporter) : DagExporter :=
  match e.Nodes with
  | none => { e with Nodes := some [] }
  | some _ => e

/-- The assignments of lines 130 to 139 of `exportDag`. -/
def copyDagFields (e : DagExporter) (dag : Dag) : DagExporter :=
  let e := { e with Id := dag.Id }
  let e := match dag.initialNode with
    | some initialNodeId => { e with StartNode := initialNodeId }
    | none => e
  let e := match dag.endNode with
    | some endNodeId => { e with EndNode := endNodeId }
    | none => e
  { e with HasBranch := dag.hasBranch, HasEdge := dag.hasEdge,
           ExecutionOnlyDag := dag.executionFlow }

mutual

/-- The function `exportNode` (lines 73 to 127). -/
def exportNode (e : NodeExporter) : Node → Except Fault NodeExporter
  | node@⟨_, _, _, subDag, conditionalDags, _, _, _, _, _, _, _, _, _, _⟩ => do
    let e := copyNodeFields e node
    let e ← if node.GetCondition ≠ none then
        exportConditionalDags (markCondition e node) conditionalDags
      else pure e
    let e ← if node.GetForEach ≠ none then
        match subDag with
        | none => throw Fault.nilPointerDereference
        | some subDag => do
          let foreachDag ← exportDag DagExporter.zero subDag
          pure (markForeach e node foreachDag)
      else pure e
    let e := markAggregators e node
    let e ← match subDag with
      | some subDag =>
        if node.dynamic = false then do
          let sub ← exportDag DagExporter.zero subDag
          pure (markSubDag e sub)
        else pure e
      | none => pure e
    let e ← exportOperations e node.operations
    exportChildren node.forwarder (makeChildrenExecOnly e) node.children

/-- The loop over `node.conditionalDags` (lines 84 to 90). -/
def exportConditionalDags (e : NodeExporter) :
    List (GoString × Dag) → Except Fault NodeExporter
  | [] => pure e
  | (condition, sdag) :: rest => do
    let e := makeConditionalDags e
    let exported ← exportDag DagExporter.zero sdag
    let m ← mapSet e.ConditionalDags condition exported
    exportConditionalDags { e with ConditionalDags := m } rest

/-- The function `exportDag` (lines 129 to 149). -/
def exportDag (e : DagExporter) : Dag → Except Fault DagExporter
  | dag@⟨_, nodes, _, _, _, _, _⟩ => exportNodes (copyDagFields e dag) nodes

/-- The loop over `dag.nodes` (lines 141 to 148). -/
def exportNodes (e : DagExporter) : List (GoString × Node) → Except Fault DagExporter
  | [] => pure e
  | (nodeId, node) :: rest => do
    let e := makeNodes e
    let exportedNode ← exportNode NodeExporterF.zero node
    let m ← mapSet e.Nodes nodeId exportedNode
    exportNodes { e with Nodes := m } rest

end

/-- The method `Pipeline.GetDagDefinition` (lines 152 to 166), up to the root record that
it builds; the JSON encoding of that record is left out. `validate` stands for
`Dag.Validate`, declared outside `exporter.go`: it gives the text of the error, and
`none` when the validator returns no error. -/
def GetDagDefinition (validate : Dag → Option GoString) (pipeline : Pipeline) :
    Except Fault DagExporter :=
  let root := DagExporter.zero
  let root := { root with IsValid := true }
  let err := validate pipeline.Dag
  let root := match err with
    | some text => { root with IsValid := false, ValidationError := text }
    | none => root
  exportDag root pipeline.Dag

/-! ## Auxiliary definitions for the statements -/

/-- The map that the loop over the children leaves in `ChildrenExecOnly`, started on
the map `m`. -/
def childFlags (forwarder : GoMap (Option FuncRef)) (m : GoMap Bool)
    (children : List GoString) : GoMap Bool :=
  children.foldl (fun m c => m.set c (decide (forwarder.index c = none))) m

/-- The map field left by a loop that first makes the map when it is `nil` and then
assigns `m[k] = v` for every pair of `xs`, in order. -/
def assignAll {V : Type} : Option (GoMap V) → GoMap V → Option (GoMap V)
  | om, [] => om
  | om, (k, v) :: r => assignAll (some ((om.getD []).set k v)) r

/-! ## Sample inputs -/

/-- A node with every field at its zero value. -/
def emptyNode : Node :=
  { Id := []
    index := 0
    uniqueId := []
    subDag := none
    conditionalDags := []
    operations := []
    dynamic := false
    aggregator := none
    foreach := none
    condition := none
    subAggregator := none
    forwarder := []
    indegree := 0
    outdegree := 0
    children := [] }

/-- A workflow with every field at its zero value. -/
def emptyDag : Dag :=
  { Id := []
    nodes := []
    initialNode := none
    endNode := none
    hasBranch := false
    hasEdge := false
    executionFlow := false }

/-- A conditional node whose forwarding table maps "dynamic" to a nil forwarder. -/
def nilDynamicNode : Node :=
  { emptyNode with
    Id := go "n"
    condition := some ⟨1⟩
    forwarder := [(dynamicKey, none)] }

/-- A node with the children A and B; its forwarding table holds a forwarder for A and
a nil forwarder for B. -/
def nilChildEntryNode : Node :=
  { emptyNode with
    Id := go "n"
    forwarder := [(go "A", some ⟨1⟩), (go "B", none)]
    children := [go "A", go "B"] }

/-- An operation with the function name "resize" and the callback address
"http://x/12345678". -/
def functionAndCallback : Operation :=
  { Mod := none
    Function := go "resize"
    CallbackUrl := go "http://x/12345678"
    FailureHandler := none
    OnResphandler := none }

/-- An operation whose callback address "abc" has fewer than 8 bytes. -/
def shortCallback : Operation :=
  { Mod := none
    Function := []
    CallbackUrl := go "abc"
    FailureHandler := none
    OnResphandler := none }

/-- A workflow with one node, whose only operation has the callback address "abc". -/
def shortCallbackDag : Dag :=
  { emptyDag with
    Id := go "d"
    nodes := [(go "n", { emptyNode with Id := go "n", operations := [shortCallback] })] }

/-- A workflow with one node, which exposes a loop construct and has no loop body. -/
def loopWithoutBodyDag : Dag :=
  { emptyDag with
    Id := go "d"
    nodes := [(go "n", { emptyNode with
                         Id := go "n"
                         foreach := some ⟨1⟩ })] }

/-- A callback address of 10 characters and 18 bytes. -/
def cyrillicCallback : String := "x/абвгдежз"

/-- The last `n` characters of a string. -/
def lastCharacters (n : Nat) (s : String) : String :=
  String.mk (s.toList.drop (s.length - n))

/-- An operation with no modifier, no function name and the given callback address. -/
def callbackOnly (url : GoString) : Operation :=
  { Mod := none
    Function := []
    CallbackUrl := url
    FailureHandler := none
    OnResphandler := none }

/-- A workflow with the two nodes a and b, each stored under its identifier. -/
def twoNodeDag : Dag :=
  { emptyDag with
    Id := go "d"
    nodes := [(go "a", { emptyNode with Id := go "a" }),
              (go "b", { emptyNode with Id := go "b" })] }

/-- A pipeline around the workflow with two nodes. -/
def twoNodePipeline : Pipeline :=
  { Dag := twoNodeDag }

/-- A validator that rejects every workflow with the text "no end node". -/
def rejectAll : Dag → Option GoString :=
  fun _ => some (go "no end node")

/-- A node with in-degree 2 and out-degree 1. -/
def degreeNode : Node :=
  { emptyNode with
    Id := go "n"
    indegree := 2
    outdegree := 1 }

/-- A workflow with the single node x. -/
def oneNodeDag : Dag :=
  { emptyDag with
    Id := go "body"
    nodes := [(go "x", { emptyNode with Id := go "x" })] }

/-- A loop node whose loop body is the workflow with one node. -/
def loopNode : Node :=
  { emptyNode with
    Id := go "loop"
    foreach := some ⟨1⟩
    subDag := some oneNodeDag }

/-- A dynamic node to which the workflow with one node is attached. -/
def dynamicNode : Node :=
  { emptyNode with
    Id := go "dyn"
    dynamic := true
    subDag := some oneNodeDag }

/-- The snapshot of the workflow with one node. -/
def oneNodeDagSnapshot : DagExporter :=
  { DagExporter.zero with
    Id := go "body"
    Nodes := some [(go "x", { (NodeExporterF.zero : NodeExporter) with
                              Id := go "x"
                              ChildrenExecOnly := some [] })] }

/-- The snapshot of the workflow with two nodes, exported into a fresh record. -/
def twoNodeSnapshot : DagExporter :=
  { DagExporter.zero with
    Id := go "d"
    Nodes := some [(go "a", { (NodeExporterF.zero : NodeExporter) with
                              Id := go "a"
                              ChildrenExecOnly := some [] }),
                   (go "b", { (NodeExporterF.zero : NodeExporter) with
                              Id := go "b"
                              ChildrenExecOnly := some [] })] }

/-- The root record of the rejected workflow with two nodes. -/
def twoNodeRejected : DagExporter :=
  { twoNodeSnapshot with
    IsValid := false
    ValidationError := go "no end node" }

/-- The snapshot of the loop node: the loop body fills both `ForeachDag` and `SubDag`. -/
def loopNodeSnapshot : NodeExporter :=
  { (NodeExporterF.zero : NodeExporter) with
    Id := go "loop"
    IsForeach := true
    ForeachDag := some oneNodeDagSnapshot
    DynamicExecOnly := true
    HasSubDag := true
    SubDag := some oneNodeDagSnapshot
    ChildrenExecOnly := some [] }

/-- The snapshot of the dynamic node. -/
def dynamicNodeSnapshot : NodeExporter :=
  { (NodeExporterF.zero : NodeExporter) with
    Id := go "dyn"
    IsDynamic := true
    ChildrenExecOnly := some [] }

/-- An operation with a modifier, the function name "resize" and the callback address
"http://x/12345678". -/
def modifierFunctionCallback : Operation :=
  { Mod := some ⟨1⟩
    Function := go "resize"
    CallbackUrl := go "http://x/12345678"
    FailureHandler := none
    OnResphandler := some ⟨2⟩ }

/-- A node with three operations. -/
def threeOperationNode : Node :=
  { emptyNode with
    Id := go "n"
    operations := [modifierFunctionCallback, functionAndCallback,
                   callbackOnly (go "12345678")] }

/-- The snapshot of the node with three operations. -/
def threeOperationSnapshot : NodeExporter :=
  { (NodeExporterF.zero : NodeExporter) with
    Id := go "n"
    Operations :=
      [{ IsMod := true, IsFunction := true, IsCallback := true, Name := go "12345678",
         HasResponseHandler := true, HasFailureHandler := false },
       { IsMod := false, IsFunction := true, IsCallback := true, Name := go "12345678",
         HasResponseHandler := false, HasFailureHandler := false },
       { IsMod := false, IsFunction := false, IsCallback := true, Name := go "12345678",
         HasResponseHandler := false, HasFailureHandler := false }]
    ChildrenExecOnly := some [] }

/-- The snapshot of the node with the children A and B. -/
def nilChildEntrySnapshot : NodeExporter :=
  { (NodeExporterF.zero : NodeExporter) with
    Id := go "n"
    Childrens := [go "A", go "B"]
    ChildrenExecOnly := some [(go "A", false), (go "B", true)] }

/-- A workflow without nodes, with a start node, an end node and the three classifiers
set. -/
def startEndDag : Dag :=
  { Id := go "d"
    nodes := []
    initialNode := some (go "first")
    endNode := some (go "last")
    hasBranch := true
    hasEdge := true
    executionFlow := true }

/-- The snapshot of the workflow with a start node and an end node. -/
def startEndSnapshot : DagExporter :=
  { Id := go "d"
    StartNode := go "first"
    EndNode := go "last"
    HasBranch := true
    HasEdge := true
    ExecutionOnlyDag := true
    Nodes := none
    IsValid := false
    ValidationError := [] }

/-- A conditional node with the two branches yes and no; the branch yes holds the
workflow with one node, the branch no an empty workflow. -/
def branchNode : Node :=
  { emptyNode with
    Id := go "if"
    condition := some ⟨1⟩
    conditionalDags := [(go "yes", oneNodeDag), (go "no", emptyDag)] }

/-- The snapshot of the conditional node with two branches. -/
def branchNodeSnapshot : NodeExporter :=
  { (NodeExporterF.zero : NodeExporter) with
    Id := go "if"
    IsCondition := true
    DynamicExecOnly := true
    ConditionalDags := some [(go "yes", oneNodeDagSnapshot), (go "no", DagExporter.zero)]
    ChildrenExecOnly := some [] }

/-! ## The tail of `exportNode` -/

/-- The statements of `exportNode` after the branch-condition block (lines 92 to 126),
run on the record `e1` that the block leaves. -/
def exportNodeTail (node : Node) (e1 : NodeExporter) : Except Fault NodeExporter :=
  (if node.GetForEach ≠ none then
      match node.subDag with
      | none => throw Fault.nilPointerDereference
      | some subDag =>
        exportDag DagExporter.zero subDag >>= fun foreachDag =>
          pure (markForeach e1 node foreachDag)
    else pure e1) >>= fun e2 =>
  (match node.subDag with
    | some subDag =>
      if node.dynamic = false then
        exportDag DagExporter.zero subDag >>= fun sub =>
          pure (markSubDag (markAggregators e2 node) sub)
      else pure (markAggregators e2 node)
    | none => pure (markAggregators e2 node)) >>= fun e3 =>
  exportOperations e3 node.operations >>= fun e4 =>
  exportChildren node.forwarder (makeChildrenExecOnly e4) node.children

/-! ## Sample inputs in another iteration order -/

/-- The workflow with the two nodes a and b, iterated in the other order. -/
def twoNodeDagSwapped : Dag :=
  { twoNodeDag with
    nodes := [(go "b", { emptyNode with Id := go "b" }),
              (go "a", { emptyNode with Id := go "a" })] }

/-- The snapshot of the workflow with the two nodes a and b iterated in the other order. -/
def twoNodeSnapshotSwapped : DagExporter :=
  { DagExporter.zero with
    Id := go "d"
    Nodes := some [(go "b", { (NodeExporterF.zero : NodeExporter) with
                              Id := go "b"
                              ChildrenExecOnly := some [] }),
                   (go "a", { (NodeExporterF.zero : NodeExporter) with
                              Id := go "a"
                              ChildrenExecOnly := some [] })] }

/-- A conditional node whose branch yes holds the workflow with two nodes and whose branch
no holds an empty workflow. -/
def deepBranchNode : Node :=
  { emptyNode with
    Id := go "if"
    condition := some ⟨1⟩
    conditionalDags := [(go "yes", twoNodeDag), (go "no", emptyDag)] }

/-- The same conditional node, its branches iterated in the other order and the nodes of
the branch yes iterated in the other order. -/
def deepBranchNodeReordered : Node :=
  { deepBranchNode with
    conditionalDags := [(go "no", emptyDag), (go "yes", twoNodeDagSwapped)] }

/-- A workflow with the conditional node and a plain node z. -/
def deepDag : Dag :=
  { emptyDag with
    Id := go "root"
    nodes := [(go "if", deepBranchNode),
              (go "z", { emptyNode with Id := go "z" })] }

/-- The same workflow iterated in another order at each of its three levels. -/
def deepDagReordered : Dag :=
  { deepDag with
    nodes := [(go "z", { emptyNode with Id := go "z" }),
              (go "if", deepBranchNodeReordered)] }

/-- The snapshot of the conditional node of `deepDag`. -/
def deepBranchSnapshot : NodeExporter :=
  { (NodeExporterF.zero : NodeExporter) with
    Id := go "if"
    IsCondition := true
    DynamicExecOnly := true
    ConditionalDags := some [(go "yes", twoNodeSnapshot), (go "no", DagExporter.zero)]
    ChildrenExecOnly := some [] }

/-- The snapshot of the conditional node of `deepDagReordered`. -/
def deepBranchSnapshotReordered : NodeExporter :=
  { deepBranchSnapshot with
    ConditionalDags := some [(go "no", DagExporter.zero), (go "yes", twoNodeSnapshotSwapped)] }

/-- The snapshot of `deepDag`. -/
def deepSnapshot : DagExporter :=
  { DagExporter.zero with
    Id := go "root"
    Nodes := some [(go "if", deepBranchSnapshot),
                   (go "z", { (NodeExporterF.zero : NodeExporter) with
                              Id := go "z"
                              ChildrenExecOnly := some [] })] }

/-- The snapshot of `deepDagReordered`. -/
def deepSnapshotReordered : DagExporter :=
  { DagExporter.zero with
    Id := go "root"
    Nodes := some [(go "z", { (NodeExporterF.zero : NodeExporter) with
                              Id := go "z"
                              ChildrenExecOnly := some [] }),
                   (go "if", deepBranchSnapshotReordered)] }

/-! ## Nested workflow snapshots and the size of a containment tree -/

mutual

/-- The workflow snapshots nested in a workflow snapshot at any depth: for every node
snapshot of `Nodes`, its `SubDag`, its `ForeachDag` and the values of its
`ConditionalDags`, each followed by the workflow snapshots nested in it. -/
def nestedDags : DagExporter → List DagExporter
  | ⟨_, _, _, _, _, _, nodes, _, _⟩ =>
    match nodes with
    | none => []
    | some m => nestedDagsOfNodes m

/-- The workflow snapshots nested in the node snapshots of a `Nodes` mapping. -/
def nestedDagsOfNodes : List (GoString × NodeExporter) → List DagExporter
  | [] => []
  | (_, n) :: r => nestedDagsOfNode n ++ nestedDagsOfNodes r

/-- The workflow snapshots nested in a node snapshot. -/
def nestedDagsOfNode : NodeExporter → List DagExporter
  | ⟨_, _, _, _, _, _, _, _, _, _, _, subDag, foreachDag, conditionalDags, _, _, _, _⟩ =>
    (match subDag with
      | none => []
      | some d => d :: nestedDags d) ++
    (match foreachDag with
      | none => []
      | some d => d :: nestedDags d) ++
    (match conditionalDags with
      | none => []
      | some m => nestedDagsOfDags m)

/-- The values of a `ConditionalDags` mapping, each followed by the workflow snapshots
nested in it. -/
def nestedDagsOfDags : List (GoString × DagExporter) → List DagExporter
  | [] => []
  | (_, d) :: r => (d :: nestedDags d) ++ nestedDagsOfDags r

end

mutual

/-- The number of workflows in the containment tree of a workflow, itself included. -/
def dagWeight : Dag → Nat
  | ⟨_, nodes, _, _, _, _, _⟩ => 1 + nodesWeight nodes

/-- The number of workflows nested in the nodes of a node collection. -/
def nodesWeight : List (GoString × Node) → Nat
  | [] => 0
  | (_, n) :: r => nodeWeight n + nodesWeight r

/-- The number of workflows nested in a node. -/
def nodeWeight : Node → Nat
  | ⟨_, _, _, subDag, conditionalDags, _, _, _, _, _, _, _, _, _, _⟩ =>
    (match subDag with
      | none => 0
      | some d => dagWeight d) + dagsWeight conditionalDags

/-- The number of workflows in the containment trees of the values of a
conditional-workflow map. -/
def dagsWeight : List (GoString × Dag) → Nat
  | [] => 0
  | (_, d) :: r => dagWeight d + dagsWeight r

end

/-! ## The same workflow in another iteration order -/

mutual

/-- The workflow `d2` is the workflow `d1` enumerated in another order: all fields but
`nodes` are equal, the keys of `d1.nodes` are distinct, and `d2.nodes` is a permutation
of a list that holds, key by key in the order of `d1.nodes`, a node that is the node of
`d1` enumerated in another order. -/
def sameDag : Dag → Dag → Prop
  | ⟨id, nodes, initialNode, endNode, hasBranch, hasEdge, executionFlow⟩, d2 =>
    d2 = ⟨id, d2.nodes, initialNode, endNode, hasBranch, hasEdge, executionFlow⟩ ∧
    (GoMap.keys nodes).Nodup ∧
    ∃ l, d2.nodes.Perm l ∧ sameNodes nodes l
termination_by structural d => d

/-- Two node collections that hold, key by key and in the same order, the same nodes up to
the iteration order of the maps nested in them. -/
def sameNodes : List (GoString × Node) → List (GoString × Node) → Prop
  | [], l => l = []
  | (k, n) :: r, l => ∃ n2 r2, l = (k, n2) :: r2 ∧ sameNode n n2 ∧ sameNodes r r2
termination_by structural l => l

/-- The node `n2` is the node `n1` enumerated in another order: all fields but `subDag`
and `conditionalDags` are equal, the sub-workflows are the same up to the iteration
order, the labels of `n1.conditionalDags` are distinct, and `n2.conditionalDags` is a
permutation of a list that holds, label by label, the same workflows up to the
iteration order. -/
def sameNode : Node → Node → Prop
  | ⟨a1, a2, a3, subDag, conditionalDags, a6, a7, a8, a9, a10, a11, a12, a13, a14, a15⟩,
    n2 =>
    n2 = ⟨a1, a2, a3, n2.subDag, n2.conditionalDags, a6, a7, a8, a9, a10, a11, a12, a13,
          a14, a15⟩ ∧
    (match subDag with
      | none => n2.subDag = none
      | some w => ∃ w2, n2.subDag = some w2 ∧ sameDag w w2) ∧
    (GoMap.keys conditionalDags).Nodup ∧
    ∃ l, n2.conditionalDags.Perm l ∧ sameDags conditionalDags l
termination_by structural n => n

/-- Two conditional-workflow maps that hold, label by label and in the same order, the
same workflows up to the iteration order of the maps nested in them. -/
def sameDags : List (GoString × Dag) → List (GoString × Dag) → Prop
  | [], l => l = []
  | (k, d) :: r, l => ∃ d2 r2, l = (k, d2) :: r2 ∧ sameDag d d2 ∧ sameDags r r2
termination_by structural l => l

end

mutual

/-- The workflow snapshots `s1` and `s2` are equal as Go values: all fields but `Nodes`
are equal, and the two `Nodes` are both nil or are maps with distinct keys that hold
equal node snapshots under the same keys, whatever the order of their entries. -/
def sameSnapshot : DagExporter → DagExporter → Prop
  | ⟨a1, a2, a3, a4, a5, a6, nodes, a8, a9⟩, s2 =>
    s2 = ⟨a1, a2, a3, a4, a5, a6, s2.Nodes, a8, a9⟩ ∧
    (match nodes with
      | none => s2.Nodes = none
      | some m => (GoMap.keys m).Nodup ∧
        ∃ m2 l, s2.Nodes = some m2 ∧ m2.Perm l ∧ sameNodeSnapshots m l)
termination_by structural s => s

/-- Two lists of node snapshots that hold, key by key and in the same order, equal node
snapshots. -/
def sameNodeSnapshots :
    List (GoString × NodeExporter) → List (GoString × NodeExporter) → Prop
  | [], l => l = []
  | (k, x) :: r, l =>
    ∃ x2 r2, l = (k, x2) :: r2 ∧ sameNodeSnapshot x x2 ∧ sameNodeSnapshots r r2
termination_by structural l => l

/-- The node snapshots `x1` and `x2` are equal as Go values: all fields but `SubDag`,
`ForeachDag` and `ConditionalDags` are equal, the two `SubDag` are both absent or equal
as Go values, so are the two `ForeachDag`, and the two `ConditionalDags` are both nil
or are maps with distinct keys that hold equal workflow snapshots under the same keys,
whatever the order of their entries. -/
def sameNodeSnapshot : NodeExporter → NodeExporter → Prop
  | ⟨a1, a2, a3, a4, a5, a6, a7, a8, a9, a10, a11, subDag, foreachDag, conditionalDags,
     a15, a16, a17, a18⟩, x2 =>
    x2 = ⟨a1, a2, a3, a4, a5, a6, a7, a8, a9, a10, a11, x2.SubDag, x2.ForeachDag,
          x2.ConditionalDags, a15, a16, a17, a18⟩ ∧
    (match subDag with
      | none => x2.SubDag = none
      | some d => ∃ d2, x2.SubDag = some d2 ∧ sameSnapshot d d2) ∧
    (match foreachDag with
      | none => x2.ForeachDag = none
      | some d => ∃ d2, x2.ForeachDag = some d2 ∧ sameSnapshot d d2) ∧
    (match conditionalDags with
      | none => x2.ConditionalDags = none
      | some m => (GoMap.keys m).Nodup ∧
        ∃ m2 l, x2.ConditionalDags = some m2 ∧ m2.Perm l ∧ sameSnapshots m l)
termination_by structural x => x

/-- Two lists of workflow snapshots that hold, key by key and in the same order, equal
workflow snapshots. -/
def sameSnapshots :
    List (GoString × DagExporter) → List (GoString × DagExporter) → Prop
  | [], l => l = []
  | (k, d) :: r, l =>
    ∃ d2 r2, l = (k, d2) :: r2 ∧ sameSnapshot d d2 ∧ sameSnapshots r r2
termination_by structural l => l

end

/-! ## The exporter with a bound on the depth of its recursion -/

/-- What stops a run of the exporter with fuel: a panic of the program, or a call of
`exportDag` for which no fuel is left. -/
inductive Stop where
  | fault (f : Fault)
  | outOfFuel
deriving DecidableEq, Repr

/-- A result of the exporter, read as a result of a run with fuel. -/
def liftFault {α : Type} : Except Fault α → Except Stop α
  | .ok a => .ok a
  | .error f => .error (Stop.fault f)

/-- The loop over `node.conditionalDags` (lines 84 to 90), with the calls of `exportDag`
made through `recDag`. -/
def exportConditionalDagsWith (recDag : DagExporter → Dag → Except Stop DagExporter)
    (e : NodeExporter) : List (GoString × Dag) → Except Stop NodeExporter
  | [] => pure e
  | (condition, sdag) :: rest => do
    let e := makeConditionalDags e
    let exported ← recDag DagExporter.zero sdag
    let m ← liftFault (mapSet e.ConditionalDags condition exported)
    exportConditionalDagsWith recDag { e with ConditionalDags := m } rest

/-- The function `exportNode` (lines 73 to 127), with the calls of `exportDag` made
through `recDag`. -/
def exportNodeWith (recDag : DagExporter → Dag → Except Stop DagExporter)
    (e : NodeExporter) (node : Node) : Except Stop NodeExporter := do
  let e := copyNodeFields e node
  let e ← (if node.GetCondition ≠ none then
      exportConditionalDagsWith recDag (markCondition e node) node.conditionalDags
    else pure e)
  let e ← (if node.GetForEach ≠ none then
      match node.subDag with
      | none => throw (Stop.fault Fault.nilPointerDereference)
      | some subDag => do
        let foreachDag ← recDag DagExporter.zero subDag
        pure (markForeach e node foreachDag)
    else pure e)
  let e := markAggregators e node
  let e ← (match node.subDag with
    | some subDag =>
      if node.dynamic = false then do
        let sub ← recDag DagExporter.zero subDag
        pure (markSubDag e sub)
      else pure e
    | none => pure e)
  let e ← liftFault (exportOperations e node.operations)
  liftFault (exportChildren node.forwarder (makeChildrenExecOnly e) node.children)

/-- The loop over `dag.nodes` (lines 141 to 148), with the calls of `exportDag` made
through `recDag`. -/
def exportNodesWith (recDag : DagExporter → Dag → Except Stop DagExporter)
    (e : DagExporter) : List (GoString × Node) → Except Stop DagExporter
  | [] => pure e
  | (nodeId, node) :: rest => do
    let e := makeNodes e
    let exportedNode ← exportNodeWith recDag NodeExporterF.zero node
    let m ← liftFault (mapSet e.Nodes nodeId exportedNode)
    exportNodesWith recDag { e with Nodes := m } rest

/-- The function `exportDag` (lines 129 to 149) run with fuel: every call of `exportDag`
takes one unit of fuel, the calls that `exportNode` makes run with what is left, and a
call for which no fuel is left stops the run. -/
def exportDagFuel : Nat → DagExporter → Dag → Except Stop DagExporter
  | 0, _, _ => .error Stop.outOfFuel
  | fuel + 1, e, dag => exportNodesWith (exportDagFuel fuel) (copyDagFields e dag) dag.nodes

/-- The workflow `d` is nested directly in the workflow `dag`: it is the sub-workflow
(the loop body) of one of the nodes of `dag`, or one of its conditional workflows. -/
def directlyNested (d dag : Dag) : Prop :=
  ∃ k node, (k, node) ∈ dag.nodes ∧
    (node.subDag = some d ∨ ∃ condition, (condition, d) ∈ node.conditionalDags)

/-! ## Sample workflows with nested workflows -/

/-- A workflow whose only node is the loop node. -/
def loopDag : Dag :=
  { emptyDag with
    Id := go "d"
    nodes := [(go "loop", loopNode)] }

/-- A workflow whose only node is the conditional node with two branches. -/
def branchDag : Dag :=
  { emptyDag with
    Id := go "root"
    nodes := [(go "if", branchNode)] }

/-- A validator that accepts every workflow. -/
def acceptAll : Dag → Option GoString :=
  fun _ => none

/-- The root record of the accepted workflow around the conditional node. -/
def branchDagAccepted : DagExporter :=
  { DagExporter.zero with
    Id := go "root"
    IsValid := true
    Nodes := some [(go "if", branchNodeSnapshot)] }

/-! ## Lemmas on the Go values -/

theorem bind_eq_ok {α β : Type} {x : Except Fault α} {f : α → Except Fault β} {b : β} :
    (x >>= f) = .ok b ↔ ∃ a, x = .ok a ∧ f a = .ok b := by
  cases x with
  | error err => simp [bind, Except.bind]
  | ok a => simp [bind, Except.bind]

theorem sliceFrom_last8 (s : GoString) (h : 8 ≤ s.length) :
    sliceFrom s ((s.length : Int) - 8) = .ok (s.drop (s.length - 8)) := by
  have h1 : ¬ ((s.length : Int) - 8 < 0 ∨ (s.length : Int) < (s.length : Int) - 8) := by omega
  have h2 : ((s.length : Int) - 8).toNat = s.length - 8 := by omega
  unfold sliceFrom
  rw [if_neg h1, h2]

theorem sliceFrom_short (s : GoString) (h : s.length < 8) :
    sliceFrom s ((s.length : Int) - 8) = .error .sliceBoundsOutOfRange := by
  have h1 : ((s.length : Int) - 8 < 0 ∨ (s.length : Int) < (s.length : Int) - 8) := by omega
  unfold sliceFrom
  rw [if_pos h1]

/-- The three kind flags and the name that `exportOperation` leaves in a fresh record, for
an operation whose callback address is empty or has at least 8 bytes. -/
theorem exportOperation_zero_ok (op : Operation)
    (h : op.CallbackUrl = [] ∨ 8 ≤ op.CallbackUrl.length) :
    exportOperation OperationExporter.zero op = .ok
      { IsMod := decide (op.Mod ≠ none),
        IsFunction := decide (op.Function ≠ []),
        IsCallback := decide (op.CallbackUrl ≠ []),
        Name := if op.CallbackUrl ≠ [] then op.CallbackUrl.drop (op.CallbackUrl.length - 8)
                else op.Function,
        HasResponseHandler := decide (op.OnResphandler ≠ none),
        HasFailureHandler := decide (op.FailureHandler ≠ none) } := by
  by_cases hc : op.CallbackUrl = []
  · by_cases h1 : op.Mod = none <;> by_cases h2 : op.Function = [] <;>
      by_cases h3 : op.FailureHandler = none <;> by_cases h4 : op.OnResphandler = none <;>
      simp [exportOperation, OperationExporter.zero, hc, h1, h2, h3, h4, pure, Except.pure,
        bind, Except.bind]
  · have h8 : 8 ≤ op.CallbackUrl.length := by
      rcases h with h | h
      · exact absurd h hc
      · exact h
    by_cases h1 : op.Mod = none <;> by_cases h2 : op.Function = [] <;>
      by_cases h3 : op.FailureHandler = none <;> by_cases h4 : op.OnResphandler = none <;>
      simp [exportOperation, OperationExporter.zero, hc, h1, h2, h3, h4, pure, Except.pure,
        bind, Except.bind, sliceFrom_last8 _ h8, Except.map]

theorem exportOperation_short_callback (e : OperationExporter) (op : Operation)
    (h0 : op.CallbackUrl ≠ []) (h : op.CallbackUrl.length < 8) :
    exportOperation e op = .error .sliceBoundsOutOfRange := by
  simp [exportOperation, h0, sliceFrom_short _ h, Except.map, bind, Except.bind]

/-! ## Lemmas on Go maps -/

theorem GoMap.get_set_self {V : Type} (m : GoMap V) (k : GoString) (v : V) :
    (m.set k v).get k = some v := by
  induction m with
  | nil => simp [GoMap.set, GoMap.get]
  | cons p r ih =>
    obtain ⟨k', v'⟩ := p
    by_cases hk : k' = k
    · simp [GoMap.set, GoMap.get, hk]
    · simp [GoMap.set, GoMap.get, hk, ih]

theorem GoMap.get_set_ne {V : Type} (m : GoMap V) (k k2 : GoString) (v : V) (h : k ≠ k2) :
    (m.set k v).get k2 = m.get k2 := by
  induction m with
  | nil => simp [GoMap.set, GoMap.get, h]
  | cons p r ih =>
    obtain ⟨k', v'⟩ := p
    by_cases hk : k' = k
    · subst hk
      simp [GoMap.set, GoMap.get, h]
    · by_cases hk2 : k' = k2
      · subst hk2
        simp [GoMap.set, GoMap.get, hk]
      · simp [GoMap.set, GoMap.get, hk, hk2, ih]

theorem GoMap.get_eq_none_iff {V : Type} (m : GoMap V) (k : GoString) :
    m.get k = none ↔ k ∉ m.keys := by
  induction m with
  | nil => simp [GoMap.get, GoMap.keys]
  | cons p r ih =>
    obtain ⟨k', v'⟩ := p
    by_cases hk : k' = k
    · simp [GoMap.get, GoMap.keys, hk]
    · have hk2 : ¬ k = k' := fun h => hk h.symm
      simp only [GoMap.keys] at ih
      simp [GoMap.get, GoMap.keys, hk, hk2, ih]

theorem GoMap.set_of_not_mem {V : Type} (m : GoMap V) (k : GoString) (v : V)
    (h : k ∉ m.keys) : m.set k v = m ++ [(k, v)] := by
  induction m with
  | nil => simp [GoMap.set]
  | cons p r ih =>
    obtain ⟨k', v'⟩ := p
    simp only [GoMap.keys, List.map_cons, List.mem_cons, not_or] at h
    have hk : ¬ k' = k := fun e => h.1 e.symm
    simp only [GoMap.keys] at ih
    simp [GoMap.set, hk, ih h.2]

theorem childFlags_get (forwarder : GoMap (Option FuncRef)) (m : GoMap Bool)
    (children : List GoString) (c : GoString) :
    (childFlags forwarder m children).get c =
      if c ∈ children then some (decide (forwarder.index c = none)) else m.get c := by
  induction children generalizing m with
  | nil => simp [childFlags]
  | cons c0 r ih =>
    have hstep : childFlags forwarder m (c0 :: r) =
        childFlags forwarder (m.set c0 (decide (forwarder.index c0 = none))) r := rfl
    rw [hstep, ih]
    by_cases hr : c ∈ r
    · simp [hr]
    · by_cases hc : c0 = c
      · subst hc
        simp [hr, GoMap.get_set_self]
      · have hc2 : ¬ c = c0 := fun h => hc h.symm
        simp [hr, hc2, GoMap.get_set_ne _ _ _ _ hc]

/-! ## The loops of `exportNode` -/

theorem exportOperations_ok {e s : NodeExporter} {ops : List Operation}
    (h : exportOperations e ops = .ok s) :
    ∃ xs, List.Forall₂ (fun op x => exportOperation OperationExporter.zero op = .ok x) ops xs ∧
      s = { e with Operations := e.Operations ++ xs } := by
  induction ops generalizing e with
  | nil =>
    simp only [exportOperations, pure, Except.pure, Except.ok.injEq] at h
    exact ⟨[], List.Forall₂.nil, by simp [← h]⟩
  | cons op r ih =>
    simp only [exportOperations] at h
    obtain ⟨x, hx, hr⟩ := bind_eq_ok.mp h
    obtain ⟨xs, hxs, hs⟩ := ih hr
    exact ⟨x :: xs, List.Forall₂.cons hx hxs, by simp [hs]⟩

theorem exportChildren_ok (forwarder : GoMap (Option FuncRef)) (e : NodeExporter)
    (m : GoMap Bool) (children : List GoString) (h : e.ChildrenExecOnly = some m) :
    exportChildren forwarder e children = .ok
      { e with Childrens := e.Childrens ++ children,
               ChildrenExecOnly := some (childFlags forwarder m children) } := by
  induction children generalizing e m with
  | nil => simp [exportChildren, childFlags, pure, Except.pure, ← h]
  | cons c r ih =>
    have hstep : childFlags forwarder m (c :: r) =
        childFlags forwarder (m.set c (decide (forwarder.index c = none))) r := rfl
    by_cases hc : forwarder.index c = none
    · simp only [exportChildren, hc, if_true, h, mapSet, bind, Except.bind]
      rw [ih _ (m.set c true) rfl, hstep]
      simp [hc]
    · simp only [exportChildren, hc, if_false, h, mapSet, bind, Except.bind]
      rw [ih _ (m.set c false) rfl, hstep]
      simp [hc]

/-! ## The loops that fill a map of nested records -/

theorem assignAll_some_disjoint {V : Type} (m xs : GoMap V)
    (hnd : xs.keys.Nodup) (hdis : ∀ k, k ∈ xs.keys → k ∉ m.keys) :
    assignAll (some m) xs = some (m ++ xs) := by
  induction xs generalizing m with
  | nil => simp [assignAll]
  | cons p r ih =>
    obtain ⟨k, v⟩ := p
    simp only [GoMap.keys, List.map_cons, List.nodup_cons] at hnd
    have hk : k ∉ m.keys := hdis k (by simp [GoMap.keys])
    simp only [assignAll, Option.getD_some]
    rw [GoMap.set_of_not_mem m k v hk, ih (m ++ [(k, v)])]
    · simp
    · simpa [GoMap.keys] using hnd.2
    · intro k2 hk2
      have h1 : k2 ∉ m.keys := hdis k2 (by
        simp only [GoMap.keys, List.map_cons, List.mem_cons]
        exact Or.inr hk2)
      have h2 : k2 ≠ k := by
        rintro rfl
        exact hnd.1 (by simpa [GoMap.keys] using hk2)
      simp only [GoMap.keys] at h1
      simp [GoMap.keys, h1, h2]

theorem assignAll_none_nodup {V : Type} (xs : GoMap V) (hnd : xs.keys.Nodup)
    (hne : xs ≠ []) : assignAll none xs = some xs := by
  cases xs with
  | nil => exact absurd rfl hne
  | cons p r =>
    obtain ⟨k, v⟩ := p
    simp only [GoMap.keys, List.map_cons, List.nodup_cons] at hnd
    simp only [assignAll, Option.getD_none, GoMap.set]
    rw [assignAll_some_disjoint [(k, v)] r]
    · simp
    · simpa [GoMap.keys] using hnd.2
    · intro k2 hk2
      have h2 : k2 ≠ k := by
        rintro rfl
        exact hnd.1 (by simpa [GoMap.keys] using hk2)
      simp [GoMap.keys, h2]

theorem makeNodes_eq (e : DagExporter) :
    makeNodes e = { e with Nodes := some (e.Nodes.getD []) } := by
  obtain ⟨a, b, c, d, f, g, nodes, i, j⟩ := e
  cases nodes <;> rfl

theorem makeConditionalDags_eq (e : NodeExporter) :
    makeConditionalDags e = { e with ConditionalDags := some (e.ConditionalDags.getD []) } := by
  obtain ⟨a1, a2, a3, a4, a5, a6, a7, a8, a9, a10, a11, a12, a13, dags, a15, a16, a17, a18⟩ := e
  cases dags <;> rfl

theorem exportNodes_cons (e : DagExporter) (nodeId : GoString) (node : Node)
    (rest : List (GoString × Node)) :
    exportNodes e ((nodeId, node) :: rest) =
      (exportNode NodeExporterF.zero node >>= fun exportedNode =>
        mapSet (makeNodes e).Nodes nodeId exportedNode >>= fun m =>
          exportNodes { makeNodes e with Nodes := m } rest) := rfl

theorem exportConditionalDags_cons (e : NodeExporter) (condition : GoString) (sdag : Dag)
    (rest : List (GoString × Dag)) :
    exportConditionalDags e ((condition, sdag) :: rest) =
      (exportDag DagExporter.zero sdag >>= fun exported =>
        mapSet (makeConditionalDags e).ConditionalDags condition exported >>= fun m =>
          exportConditionalDags { makeConditionalDags e with ConditionalDags := m } rest) := rfl

theorem exportNodes_ok {e s : DagExporter} {nodes : List (GoString × Node)}
    (h : exportNodes e nodes = .ok s) :
    ∃ xs : GoMap NodeExporter,
      List.Forall₂ (fun p q => q.1 = p.1 ∧ exportNode NodeExporterF.zero p.2 = .ok q.2)
        nodes xs ∧
      s = { e with Nodes := assignAll e.Nodes xs } := by
  induction nodes generalizing e with
  | nil =>
    have h2 : e = s := by simpa [exportNodes, pure, Except.pure] using h
    exact ⟨[], List.Forall₂.nil, by rw [← h2]; cases e; rfl⟩
  | cons p r ih =>
    obtain ⟨k, n⟩ := p
    rw [exportNodes_cons] at h
    obtain ⟨x, hx, h1⟩ := bind_eq_ok.mp h
    obtain ⟨m, hm, h2⟩ := bind_eq_ok.mp h1
    rw [makeNodes_eq] at hm h2
    simp only [mapSet, Except.ok.injEq] at hm
    subst hm
    obtain ⟨xs, hxs, hs⟩ := ih h2
    exact ⟨(k, x) :: xs, List.Forall₂.cons ⟨rfl, hx⟩ hxs, by simp [hs, assignAll]⟩

theorem exportConditionalDags_ok {e s : NodeExporter} {dags : List (GoString × Dag)}
    (h : exportConditionalDags e dags = .ok s) :
    ∃ xs : GoMap DagExporter,
      List.Forall₂ (fun p q => q.1 = p.1 ∧ exportDag DagExporter.zero p.2 = .ok q.2)
        dags xs ∧
      s = { e with ConditionalDags := assignAll e.ConditionalDags xs } := by
  induction dags generalizing e with
  | nil =>
    have h2 : e = s := by simpa [exportConditionalDags, pure, Except.pure] using h
    exact ⟨[], List.Forall₂.nil, by rw [← h2]; cases e; rfl⟩
  | cons p r ih =>
    obtain ⟨k, d⟩ := p
    rw [exportConditionalDags_cons] at h
    obtain ⟨x, hx, h1⟩ := bind_eq_ok.mp h
    obtain ⟨m, hm, h2⟩ := bind_eq_ok.mp h1
    rw [makeConditionalDags_eq] at hm h2
    simp only [mapSet, Except.ok.injEq] at hm
    subst hm
    obtain ⟨xs, hxs, hs⟩ := ih h2
    exact ⟨(k, x) :: xs, List.Forall₂.cons ⟨rfl, hx⟩ hxs, by simp [hs, assignAll]⟩

theorem exportDag_unfold (e : DagExporter) (dag : Dag) :
    exportDag e dag = exportNodes (copyDagFields e dag) dag.nodes := by
  cases dag; rfl

/-! ## The body of `exportNode` -/

theorem exportNode_do (e : NodeExporter) (node : Node) :
    exportNode e node = (do
      let e := copyNodeFields e node
      let e ← if node.GetCondition ≠ none then
          exportConditionalDags (markCondition e node) node.conditionalDags
        else pure e
      let e ← if node.GetForEach ≠ none then
          match node.subDag with
          | none => throw Fault.nilPointerDereference
          | some subDag => do
            let foreachDag ← exportDag DagExporter.zero subDag
            pure (markForeach e node foreachDag)
        else pure e
      let e := markAggregators e node
      let e ← match node.subDag with
        | some subDag =>
          if node.dynamic = false then do
            let sub ← exportDag DagExporter.zero subDag
            pure (markSubDag e sub)
          else pure e
        | none => pure e
      let e ← exportOperations e node.operations
      exportChildren node.forwarder (makeChildrenExecOnly e) node.children) := by
  obtain ⟨a1, a2, a3, subDag, a5, a6, a7, a8, a9, a10, a11, a12, a13, a14, a15⟩ := node
  cases subDag <;> rfl

theorem exportNode_unfold (e : NodeExporter) (node : Node) :
    exportNode e node =
      ((if node.GetCondition ≠ none then
          exportConditionalDags (markCondition (copyNodeFields e node) node) node.conditionalDags
        else pure (copyNodeFields e node)) >>= fun e1 =>
       (if node.GetForEach ≠ none then
          match node.subDag with
          | none => throw Fault.nilPointerDereference
          | some subDag =>
            exportDag DagExporter.zero subDag >>= fun foreachDag =>
              pure (markForeach e1 node foreachDag)
        else pure e1) >>= fun e2 =>
       (match node.subDag with
        | some subDag =>
          if node.dynamic = false then
            exportDag DagExporter.zero subDag >>= fun sub =>
              pure (markSubDag (markAggregators e2 node) sub)
          else pure (markAggregators e2 node)
        | none => pure (markAggregators e2 node)) >>= fun e3 =>
       exportOperations e3 node.operations >>= fun e4 =>
       exportChildren node.forwarder (makeChildrenExecOnly e4) node.children) := by
  rw [exportNode_do]
  by_cases hc : node.GetCondition = none <;> by_cases hf : node.GetForEach = none <;>
    by_cases hd : node.dynamic = false <;> cases hs : node.subDag <;>
    simp only [hc, hf, hd, ne_eq, not_true_eq_false, not_false_eq_true, if_true, if_false,
      bind_assoc, pure_bind] <;> rfl

/-- The record that a successful `exportNode` returns for a fresh record, step by step:
`e1` after the branch-condition block, `e2` after the loop block, `e3` after the
aggregator flags and the sub-workflow block, `xs` the exported operations. -/
theorem exportNode_ok {node : Node} {s : NodeExporter}
    (h : exportNode NodeExporterF.zero node = .ok s) :
    ∃ (e1 e2 e3 : NodeExporter) (xs : List OperationExporter),
      ((node.GetCondition = none ∧ e1 = copyNodeFields NodeExporterF.zero node) ∨
       (node.GetCondition ≠ none ∧ ∃ cs : GoMap DagExporter,
          List.Forall₂ (fun p q => q.1 = p.1 ∧ exportDag DagExporter.zero p.2 = .ok q.2)
            node.conditionalDags cs ∧
          e1 = { markCondition (copyNodeFields NodeExporterF.zero node) node with
                 ConditionalDags := assignAll none cs })) ∧
      ((node.GetForEach = none ∧ e2 = e1) ∨
       (node.GetForEach ≠ none ∧ ∃ w fd, node.subDag = some w ∧
          exportDag DagExporter.zero w = .ok fd ∧ e2 = markForeach e1 node fd)) ∧
      ((¬ (node.subDag ≠ none ∧ node.dynamic = false) ∧ e3 = markAggregators e2 node) ∨
       (node.dynamic = false ∧ ∃ w sd, node.subDag = some w ∧
          exportDag DagExporter.zero w = .ok sd ∧
          e3 = markSubDag (markAggregators e2 node) sd)) ∧
      List.Forall₂ (fun op x => exportOperation OperationExporter.zero op = .ok x)
        node.operations xs ∧
      s = { e3 with Operations := e3.Operations ++ xs,
                    Childrens := e3.Childrens ++ node.children,
                    ChildrenExecOnly := some (childFlags node.forwarder [] node.children) } := by
  rw [exportNode_unfold] at h
  obtain ⟨e1, h1, h⟩ := bind_eq_ok.mp h
  obtain ⟨e2, h2, h⟩ := bind_eq_ok.mp h
  obtain ⟨e3, h3, h⟩ := bind_eq_ok.mp h
  obtain ⟨e4, h4, h5⟩ := bind_eq_ok.mp h
  obtain ⟨xs, hxs, he4⟩ := exportOperations_ok h4
  rw [exportChildren_ok node.forwarder (makeChildrenExecOnly e4) [] node.children rfl] at h5
  refine ⟨e1, e2, e3, xs, ?_, ?_, ?_, hxs, ?_⟩
  · by_cases hc : node.GetCondition = none
    · left
      rw [if_neg (not_not.mpr hc)] at h1
      exact ⟨hc, by simpa [pure, Except.pure] using h1.symm⟩
    · right
      rw [if_pos hc] at h1
      obtain ⟨cs, hcs, hs⟩ := exportConditionalDags_ok h1
      have hn : (markCondition (copyNodeFields NodeExporterF.zero node) node).ConditionalDags
          = none := by
        unfold markCondition markDynamicExecOnly
        split <;> rfl
      rw [hn] at hs
      exact ⟨hc, cs, hcs, hs⟩
  · by_cases hf : node.GetForEach = none
    · left
      rw [if_neg (not_not.mpr hf)] at h2
      exact ⟨hf, by simpa [pure, Except.pure] using h2.symm⟩
    · right
      rw [if_pos hf] at h2
      cases hsd : node.subDag with
      | none => simp [hsd, throw, throwThe, MonadExceptOf.throw] at h2
      | some w =>
        simp only [hsd] at h2
        obtain ⟨fd, hfd, hp⟩ := bind_eq_ok.mp h2
        exact ⟨hf, w, fd, rfl, hfd, by simpa [pure, Except.pure] using hp.symm⟩
  · cases hsd : node.subDag with
    | none =>
      left
      simp only [hsd] at h3
      exact ⟨by simp, by simpa [pure, Except.pure] using h3.symm⟩
    | some w =>
      simp only [hsd] at h3
      by_cases hd : node.dynamic = false
      · right
        rw [if_pos hd] at h3
        obtain ⟨sd, hsd2, hp⟩ := bind_eq_ok.mp h3
        exact ⟨hd, w, sd, rfl, hsd2, by simpa [pure, Except.pure] using hp.symm⟩
      · left
        rw [if_neg hd] at h3
        exact ⟨by simp [hd], by simpa [pure, Except.pure] using h3.symm⟩
  · have h6 : _ = s := Except.ok.inj h5
    rw [← h6, he4]
    rfl

/-! ## The flags of a node snapshot -/

theorem GoMap.index_eq_none_iff {F : Type} (m : GoMap (Option F)) (k : GoString) :
    m.index k = none ↔ m.get k = none ∨ m.get k = some none := by
  unfold GoMap.index
  cases h : m.get k with
  | none => simp
  | some v => simp

theorem markDynamicExecOnly_eq (e : NodeExporter) (node : Node) :
    markDynamicExecOnly e node =
      { e with DynamicExecOnly :=
          e.DynamicExecOnly || (node.forwarder.index dynamicKey).isNone } := by
  unfold markDynamicExecOnly
  cases h : node.forwarder.index dynamicKey <;> simp

theorem markAggregators_eq (e : NodeExporter) (node : Node) :
    markAggregators e node =
      { e with HasAgregator := e.HasAgregator || node.aggregator.isSome,
               HasSubAggregator := e.HasSubAggregator || node.subAggregator.isSome } := by
  unfold markAggregators
  cases h1 : node.aggregator <;> cases h2 : node.subAggregator <;> simp

/-- The fields of a node snapshot that hold no nested record. -/
theorem exportNode_scalars {node : Node} {s : NodeExporter}
    (h : exportNode NodeExporterF.zero node = .ok s) :
    s.Id = node.Id ∧ s.Index = node.index ∧ s.UniqueId = node.uniqueId ∧
    s.IsDynamic = node.dynamic ∧
    s.IsCondition = node.GetCondition.isSome ∧
    s.IsForeach = node.GetForEach.isSome ∧
    s.HasAgregator = node.aggregator.isSome ∧
    s.HasSubAggregator = node.subAggregator.isSome ∧
    s.HasSubDag = (node.subDag.isSome && !node.dynamic) ∧
    s.InDegree = 0 ∧ s.OutDegree = 0 ∧
    s.DynamicExecOnly = ((node.GetCondition.isSome || node.GetForEach.isSome) &&
      (node.forwarder.index dynamicKey).isNone) ∧
    s.Childrens = node.children ∧
    s.ChildrenExecOnly = some (childFlags node.forwarder [] node.children) := by
  obtain ⟨e1, e2, e3, xs, h1, h2, h3, -, hs⟩ := exportNode_ok h
  clear h
  rcases h1 with ⟨hc, h1⟩ | ⟨hc, cs, -, h1⟩ <;>
  rcases h2 with ⟨hf, h2⟩ | ⟨hf, w, fd, hw, -, h2⟩ <;>
  rcases h3 with ⟨hn, h3⟩ | ⟨hd, w2, sd, hw2, -, h3⟩ <;>
  · subst h1 h2 h3 hs
    simp_all [markAggregators_eq, markDynamicExecOnly_eq, markCondition, markForeach,
      markSubDag, copyNodeFields, NodeExporterF.zero, Option.ne_none_iff_isSome]

/-! ## Properties of the node flags and of `exportOperation` -/

/-- C1, counterexample: a conditional node whose forwarding table has a "dynamic" entry
holding a nil forwarder is exported with `DynamicExecOnly = true`, although the table
has a "dynamic" entry. -/
theorem dynamicExecOnly_entry_counterexample :
    nilDynamicNode.GetCondition ≠ none ∧
    dynamicKey ∈ nilDynamicNode.forwarder.keys ∧
    (exportNode NodeExporterF.zero nilDynamicNode).toOption.map (fun s => s.DynamicExecOnly)
      = some true := by
  decide

/-- C1, as amended: `exportNode` sets `DynamicExecOnly` to true exactly when the node is
conditional or loop-bearing and the lookup `node.forwarder["dynamic"]` is nil, that is,
the key is absent or holds a nil forwarder; for a node that is neither conditional nor
loop-bearing the flag is false whatever the forwarding table contains. -/
theorem exportNode_dynamicExecOnly (node : Node) (s : NodeExporter)
    (h : exportNode NodeExporterF.zero node = .ok s) :
    (s.DynamicExecOnly = true ↔
      (node.GetCondition ≠ none ∨ node.GetForEach ≠ none) ∧
      (node.forwarder.get dynamicKey = none ∨ node.forwarder.get dynamicKey = some none)) ∧
    (node.GetCondition = none → node.GetForEach = none → s.DynamicExecOnly = false) := by
  have hs := (exportNode_scalars h).2.2.2.2.2.2.2.2.2.2.2.1
  rw [← GoMap.index_eq_none_iff, hs]
  constructor
  · simp [Option.ne_none_iff_isSome, Option.isNone_iff_eq_none]
  · intro hc hf
    simp [hc, hf]

/-- C1, witness: the amended statement at the conditional node with a nil "dynamic"
entry. -/
theorem exportNode_dynamicExecOnly_witness :
    exportNode NodeExporterF.zero nilDynamicNode = .ok
      { (NodeExporterF.zero : NodeExporter) with
        Id := go "n", IsCondition := true, DynamicExecOnly := true,
        ChildrenExecOnly := some [] } ∧
    (true = true ↔
      (nilDynamicNode.GetCondition ≠ none ∨ nilDynamicNode.GetForEach ≠ none) ∧
      (nilDynamicNode.forwarder.get dynamicKey = none ∨
        nilDynamicNode.forwarder.get dynamicKey = some none)) :=
  ⟨rfl, (exportNode_dynamicExecOnly nilDynamicNode _ rfl).1⟩

/-- C2, counterexample: for the children A and B and a forwarding table that holds a
forwarder for A and a nil forwarder for B, the flag of B is true although the table has
an entry for B. -/
theorem childrenExecOnly_entry_counterexample :
    go "B" ∈ nilChildEntryNode.children ∧
    go "B" ∈ nilChildEntryNode.forwarder.keys ∧
    (exportNode NodeExporterF.zero nilChildEntryNode).toOption.map
      (fun s => mapGet s.ChildrenExecOnly (go "B")) = some (some true) := by
  decide

/-- C2, as amended: for every child identifier `c` of the node, `ChildrenExecOnly`
contains the key `c`, and its value is true exactly when the lookup `node.forwarder[c]`
is nil, that is, the key is absent or holds a nil forwarder. -/
theorem exportNode_childrenExecOnly (node : Node) (s : NodeExporter)
    (h : exportNode NodeExporterF.zero node = .ok s) (c : GoString)
    (hc : c ∈ node.children) :
    ∃ b, mapGet s.ChildrenExecOnly c = some b ∧
      (b = true ↔ node.forwarder.get c = none ∨ node.forwarder.get c = some none) := by
  have hs := (exportNode_scalars h).2.2.2.2.2.2.2.2.2.2.2.2.2
  refine ⟨decide (node.forwarder.index c = none), ?_, ?_⟩
  · rw [hs]
    simp [mapGet, childFlags_get, hc]
  · rw [← GoMap.index_eq_none_iff]
    simp

/-- C2, witness: the amended statement at the child B of the sample node. -/
theorem exportNode_childrenExecOnly_witness :
    exportNode NodeExporterF.zero nilChildEntryNode = .ok
      { (NodeExporterF.zero : NodeExporter) with
        Id := go "n", Childrens := [go "A", go "B"],
        ChildrenExecOnly := some [(go "A", false), (go "B", true)] } ∧
    go "B" ∈ nilChildEntryNode.children ∧
    ∃ b, mapGet (some [(go "A", false), (go "B", true)]) (go "B") = some b ∧
      (b = true ↔ nilChildEntryNode.forwarder.get (go "B") = none ∨
        nilChildEntryNode.forwarder.get (go "B") = some none) :=
  ⟨rfl, by decide,
   exportNode_childrenExecOnly nilChildEntryNode
     { (NodeExporterF.zero : NodeExporter) with
       Id := go "n", Childrens := [go "A", go "B"],
       ChildrenExecOnly := some [(go "A", false), (go "B", true)] }
     rfl (go "B") (by decide)⟩

/-- C3: the export of a one-node workflow faults with a slice bound out of range when an
operation has a non-empty callback address shorter than 8 bytes, and with a nil
dereference when a node exposes a loop construct and has no loop body. -/
theorem exportDag_faults :
    exportDag DagExporter.zero shortCallbackDag = .error Fault.sliceBoundsOutOfRange ∧
    exportDag DagExporter.zero loopWithoutBodyDag = .error Fault.nilPointerDereference :=
  ⟨rfl, rfl⟩

/-- C4, counterexample: an operation with the function name "resize" and the callback
address "http://x/12345678" is exported with `IsCallback = true` and with the name
"12345678", which is not the function name. -/
theorem function_priority_counterexample :
    functionAndCallback.Function ≠ [] ∧ functionAndCallback.CallbackUrl ≠ [] ∧
    exportOperation OperationExporter.zero functionAndCallback = .ok
      { IsMod := false, IsFunction := true, IsCallback := true, Name := go "12345678",
        HasResponseHandler := false, HasFailureHandler := false } ∧
    go "12345678" ≠ functionAndCallback.Function :=
  ⟨by decide, by decide, rfl, by decide⟩

/-- C4, as amended: for every operation that has both a non-empty function name and a
callback address of at least 8 bytes, `exportOperation` yields `IsFunction = true` and
`IsCallback = true`, and `Name` is the last 8 bytes of the callback address: the
callback rule runs after the function rule and overwrites the name. -/
theorem exportOperation_function_and_callback (op : Operation)
    (hf : op.Function ≠ []) (hc : 8 ≤ op.CallbackUrl.length) :
    ∃ s, exportOperation OperationExporter.zero op = .ok s ∧
      s.IsFunction = true ∧ s.IsCallback = true ∧
      s.Name = op.CallbackUrl.drop (op.CallbackUrl.length - 8) := by
  have hne : op.CallbackUrl ≠ [] := by
    intro h0
    rw [h0] at hc
    simp at hc
  exact ⟨_, exportOperation_zero_ok op (Or.inr hc), by simp [hf], by simp [hne], by simp [hne]⟩

/-- C4, witness: the amended statement at the operation with the function name "resize"
and the callback address "http://x/12345678". -/
theorem exportOperation_function_and_callback_witness :
    functionAndCallback.Function ≠ [] ∧ 8 ≤ functionAndCallback.CallbackUrl.length ∧
    ∃ s, exportOperation OperationExporter.zero functionAndCallback = .ok s ∧
      s.IsFunction = true ∧ s.IsCallback = true ∧
      s.Name = functionAndCallback.CallbackUrl.drop
        (functionAndCallback.CallbackUrl.length - 8) :=
  ⟨by decide, by decide,
   exportOperation_function_and_callback functionAndCallback (by decide) (by decide)⟩

/-- C5, counterexample: the callback address "x/абвгдежз" has 10 characters in 18 bytes,
and its last 8 characters are "абвгдежз"; the exported name is made of its last 8 bytes,
which are the 4 characters "дежз". -/
theorem callback_characters_counterexample :
    8 ≤ cyrillicCallback.length ∧
    (go cyrillicCallback).length = 18 ∧
    lastCharacters 8 cyrillicCallback = "абвгдежз" ∧
    exportOperation OperationExporter.zero (callbackOnly (go cyrillicCallback)) = .ok
      { IsMod := false, IsFunction := false, IsCallback := true, Name := go "дежз",
        HasResponseHandler := false, HasFailureHandler := false } ∧
    go "дежз" ≠ go (lastCharacters 8 cyrillicCallback) :=
  ⟨by decide, by decide, by decide, rfl, by decide⟩

/-- C5, as amended: for every operation with no modifier, an empty function name and a
callback address of at least 8 bytes, `exportOperation` sets `IsCallback = true` and
`Name` to the last 8 bytes of the callback address: `Name` has 8 bytes and the callback
address is some bytes followed by `Name`. -/
theorem exportOperation_callback_name (op : Operation)
    (hm : op.Mod = none) (hf : op.Function = []) (hc : 8 ≤ op.CallbackUrl.length) :
    ∃ s, exportOperation OperationExporter.zero op = .ok s ∧
      s.IsCallback = true ∧
      s.Name = op.CallbackUrl.drop (op.CallbackUrl.length - 8) ∧
      s.Name.length = 8 ∧
      op.CallbackUrl = op.CallbackUrl.take (op.CallbackUrl.length - 8) ++ s.Name ∧
      s.IsMod = false ∧ s.IsFunction = false := by
  have hne : op.CallbackUrl ≠ [] := by
    intro h0
    rw [h0] at hc
    simp at hc
  refine ⟨_, exportOperation_zero_ok op (Or.inr hc), by simp [hne], by simp [hne], ?_, ?_,
    by simp [hm], by simp [hf]⟩
  · simp only [hne, ne_eq, not_false_eq_true, if_true, List.length_drop]
    omega
  · simp [hne]

/-- C5, witness: the callback addresses "12345678" and "http://x/12345678" both give the
name "12345678". -/
theorem exportOperation_callback_name_witness :
    (8 ≤ (callbackOnly (go "12345678")).CallbackUrl.length ∧
      ∃ s, exportOperation OperationExporter.zero (callbackOnly (go "12345678")) = .ok s ∧
        s.IsCallback = true ∧ s.Name = go "12345678") ∧
    (8 ≤ (callbackOnly (go "http://x/12345678")).CallbackUrl.length ∧
      ∃ s, exportOperation OperationExporter.zero (callbackOnly (go "http://x/12345678"))
          = .ok s ∧
        s.IsCallback = true ∧ s.Name = go "12345678") := by
  refine ⟨⟨by decide, ?_⟩, ⟨by decide, ?_⟩⟩
  · obtain ⟨s, h1, h2, h3, -, -⟩ :=
      exportOperation_callback_name (callbackOnly (go "12345678")) rfl rfl (by decide)
    exact ⟨s, h1, h2, by rw [h3]; decide⟩
  · obtain ⟨s, h1, h2, h3, -, -⟩ :=
      exportOperation_callback_name (callbackOnly (go "http://x/12345678")) rfl rfl
        (by decide)
    exact ⟨s, h1, h2, by rw [h3]; decide⟩

/-! ## The body of `exportDag` -/

theorem copyDagFields_frame (e : DagExporter) (dag : Dag) :
    (copyDagFields e dag).Nodes = e.Nodes ∧ (copyDagFields e dag).IsValid = e.IsValid ∧
    (copyDagFields e dag).ValidationError = e.ValidationError := by
  unfold copyDagFields
  cases dag.initialNode <;> cases dag.endNode <;> exact ⟨rfl, rfl, rfl⟩

/-- The record that a successful `exportDag` returns: the scalar fields are copied and
`Nodes` receives one assignment per node, in iteration order. -/
theorem exportDag_ok {e s : DagExporter} {dag : Dag} (h : exportDag e dag = .ok s) :
    ∃ xs : GoMap NodeExporter,
      List.Forall₂ (fun p q => q.1 = p.1 ∧ exportNode NodeExporterF.zero p.2 = .ok q.2)
        dag.nodes xs ∧
      s = { copyDagFields e dag with Nodes := assignAll e.Nodes xs } := by
  rw [exportDag_unfold] at h
  obtain ⟨xs, hxs, hs⟩ := exportNodes_ok h
  rw [(copyDagFields_frame e dag).1] at hs
  exact ⟨xs, hxs, hs⟩

theorem forall₂_keys {A B : Type} (R : A → B → Prop) {l1 : GoMap A} {l2 : GoMap B}
    (h : List.Forall₂ (fun p q => q.1 = p.1 ∧ R p.2 q.2) l1 l2) : l2.keys = l1.keys := by
  induction h with
  | nil => rfl
  | cons hpq _ ih =>
    simp only [GoMap.keys, List.map_cons] at ih ⊢
    rw [hpq.1, ih]

theorem forall₂_get_right {A B : Type} (R : A → B → Prop) {l1 : GoMap A} {l2 : GoMap B}
    (h : List.Forall₂ (fun p q => q.1 = p.1 ∧ R p.2 q.2) l1 l2) (k : GoString) (b : B)
    (hb : l2.get k = some b) : ∃ a, (k, a) ∈ l1 ∧ l1.get k = some a ∧ R a b := by
  induction h with
  | nil => simp [GoMap.get] at hb
  | @cons p q r1 r2 hpq _ ih =>
    obtain ⟨k1, a1⟩ := p
    obtain ⟨k2, b2⟩ := q
    obtain ⟨hk, hr⟩ := hpq
    simp only at hk hr
    subst hk
    by_cases hkk : k2 = k
    · subst hkk
      simp only [GoMap.get, if_true, Option.some.injEq] at hb
      subst hb
      exact ⟨a1, by simp, by simp [GoMap.get], hr⟩
    · simp only [GoMap.get, hkk, if_false] at hb
      obtain ⟨a, ha, hg, hra⟩ := ih hb
      exact ⟨a, by simp [ha], by simp [GoMap.get, hkk, hg], hra⟩

theorem forall₂_get_left {A B : Type} (R : A → B → Prop) {l1 : GoMap A} {l2 : GoMap B}
    (h : List.Forall₂ (fun p q => q.1 = p.1 ∧ R p.2 q.2) l1 l2) (hnd : l1.keys.Nodup)
    (k : GoString) (a : A) (ha : (k, a) ∈ l1) : ∃ b, l2.get k = some b ∧ R a b := by
  induction h with
  | nil => simp at ha
  | @cons p q r1 r2 hpq _ ih =>
    obtain ⟨k1, a1⟩ := p
    obtain ⟨k2, b2⟩ := q
    obtain ⟨hk, hr⟩ := hpq
    simp only at hk hr
    subst hk
    simp only [GoMap.keys, List.map_cons, List.nodup_cons] at hnd
    rcases List.mem_cons.mp ha with heq | hmem
    · obtain ⟨rfl, rfl⟩ := Prod.mk.inj heq
      exact ⟨b2, by simp [GoMap.get], hr⟩
    · have hne : ¬ k2 = k := by
        rintro rfl
        exact hnd.1 (List.mem_map.mpr ⟨(k2, a), hmem, rfl⟩)
      obtain ⟨b, hb, hrb⟩ := ih hnd.2 hmem
      exact ⟨b, by simp [GoMap.get, hne, hb], hrb⟩

/-- The `Nodes` field of the snapshot of a workflow whose node collection has distinct
keys, exported into a record whose `Nodes` is still `nil`. -/
theorem exportDag_nodes {e s : DagExporter} {dag : Dag} (h : exportDag e dag = .ok s)
    (he : e.Nodes = none) (hnd : (GoMap.keys dag.nodes).Nodup) :
    ∃ xs : GoMap NodeExporter,
      List.Forall₂ (fun p q => q.1 = p.1 ∧ exportNode NodeExporterF.zero p.2 = .ok q.2)
        dag.nodes xs ∧
      mapLen s.Nodes = xs.length ∧ ∀ k, mapGet s.Nodes k = xs.get k := by
  obtain ⟨xs, hxs, hs⟩ := exportDag_ok h
  refine ⟨xs, hxs, ?_⟩
  rw [he] at hs
  have hk : (GoMap.keys xs).Nodup := by
    rw [forall₂_keys (fun n x => exportNode NodeExporterF.zero n = .ok x) hxs]
    exact hnd
  cases xs with
  | nil =>
    subst hs
    exact ⟨rfl, fun k => rfl⟩
  | cons p r =>
    rw [assignAll_none_nodup _ hk (by simp)] at hs
    subst hs
    exact ⟨rfl, fun k => rfl⟩

/-- The nested records `ForeachDag` and `SubDag` of a node snapshot. -/
theorem exportNode_nested {node : Node} {s : NodeExporter}
    (h : exportNode NodeExporterF.zero node = .ok s) :
    (node.GetForEach = none → s.ForeachDag = none) ∧
    (node.GetForEach ≠ none → ∃ w fd, node.subDag = some w ∧
      exportDag DagExporter.zero w = .ok fd ∧ s.ForeachDag = some fd) ∧
    (node.subDag = none ∨ node.dynamic = true → s.SubDag = none) ∧
    (node.dynamic = false → ∀ w, node.subDag = some w →
      ∃ sd, exportDag DagExporter.zero w = .ok sd ∧ s.SubDag = some sd) := by
  obtain ⟨e1, e2, e3, xs, h1, h2, h3, -, hs⟩ := exportNode_ok h
  clear h
  have e1f : e1.ForeachDag = none ∧ e1.SubDag = none := by
    rcases h1 with ⟨-, h1⟩ | ⟨-, cs, -, h1⟩ <;> subst h1 <;>
      simp [markDynamicExecOnly_eq, markCondition, copyNodeFields, NodeExporterF.zero]
  have e2s : e2.SubDag = none := by
    rcases h2 with ⟨-, h2⟩ | ⟨-, w, fd, -, -, h2⟩ <;> subst h2 <;>
      simp [markDynamicExecOnly_eq, markForeach, e1f.2]
  have e3f : e3.ForeachDag = e2.ForeachDag := by
    rcases h3 with ⟨-, h3⟩ | ⟨-, w, sd, -, -, h3⟩ <;> subst h3 <;>
      simp [markAggregators_eq, markSubDag]
  have sf : s.ForeachDag = e2.ForeachDag := by rw [hs]; exact e3f
  have ss : s.SubDag = e3.SubDag := by rw [hs]
  refine ⟨?_, ?_, ?_, ?_⟩
  · intro hf
    rcases h2 with ⟨-, h2⟩ | ⟨hf2, -⟩
    · rw [sf, h2, e1f.1]
    · exact absurd hf hf2
  · intro hf
    rcases h2 with ⟨hf2, -⟩ | ⟨-, w, fd, hw, hfd, h2⟩
    · exact absurd hf2 hf
    · refine ⟨w, fd, hw, hfd, ?_⟩
      rw [sf, h2]
      simp [markDynamicExecOnly_eq, markForeach]
  · intro hn
    rcases h3 with ⟨-, h3⟩ | ⟨hd, w, sd, hw, -, -⟩
    · rw [ss, h3]
      simp [markAggregators_eq, e2s]
    · rcases hn with hn | hn
      · rw [hn] at hw
        exact absurd hw (by simp)
      · rw [hn] at hd
        exact absurd hd (by simp)
  · intro hd w hw
    rcases h3 with ⟨hn, -⟩ | ⟨-, w2, sd, hw2, hsd, h3⟩
    · exact absurd ⟨by simp [hw], hd⟩ hn
    · rw [hw] at hw2
      obtain rfl := Option.some.inj hw2
      exact ⟨sd, hsd, by rw [ss, h3]; simp [markSubDag]⟩

/-! ## Properties of the root record, the node mapping and the nested records -/

theorem exportDag_validity_frame {e s : DagExporter} {dag : Dag}
    (h : exportDag e dag = .ok s) :
    s.IsValid = e.IsValid ∧ s.ValidationError = e.ValidationError := by
  obtain ⟨xs, -, hs⟩ := exportDag_ok h
  rw [hs]
  exact ⟨(copyDagFields_frame e dag).2.1, (copyDagFields_frame e dag).2.2⟩

/-- C6: in the root record built by `GetDagDefinition`, `IsValid = true` and
`ValidationError = ""` when the validator returns no error, and `IsValid = false` and
`ValidationError` is the text of the error when it returns one; `exportDag` leaves both
fields of the record it is given unchanged. -/
theorem GetDagDefinition_validity (validate : Dag → Option GoString) (pipeline : Pipeline)
    (s : DagExporter) (h : GetDagDefinition validate pipeline = .ok s) :
    (validate pipeline.Dag = none → s.IsValid = true ∧ s.ValidationError = []) ∧
    (∀ text, validate pipeline.Dag = some text →
      s.IsValid = false ∧ s.ValidationError = text) ∧
    (∀ (e s2 : DagExporter) (dag : Dag), exportDag e dag = .ok s2 →
      s2.IsValid = e.IsValid ∧ s2.ValidationError = e.ValidationError) := by
  unfold GetDagDefinition at h
  refine ⟨?_, ?_, fun e s2 dag h2 => exportDag_validity_frame h2⟩
  · intro hv
    simp only [hv] at h
    exact exportDag_validity_frame h
  · intro text hv
    simp only [hv] at h
    exact exportDag_validity_frame h

/-- C6, witness: a rejected workflow with two nodes. -/
theorem GetDagDefinition_validity_witness :
    GetDagDefinition rejectAll twoNodePipeline = .ok twoNodeRejected ∧
    rejectAll twoNodePipeline.Dag = some (go "no end node") ∧
    twoNodeRejected.IsValid = false ∧
    twoNodeRejected.ValidationError = go "no end node" :=
  ⟨rfl, rfl,
   (GetDagDefinition_validity rejectAll twoNodePipeline twoNodeRejected rfl).2.1 _ rfl⟩

theorem GoMap.mem_of_get {V : Type} (m : GoMap V) (k : GoString) (v : V)
    (h : m.get k = some v) : (k, v) ∈ m := by
  induction m with
  | nil => simp [GoMap.get] at h
  | cons p r ih =>
    obtain ⟨k1, v1⟩ := p
    by_cases hk : k1 = k
    · subst hk
      simp only [GoMap.get, if_true, Option.some.injEq] at h
      subst h
      simp
    · simp only [GoMap.get, hk, if_false] at h
      exact List.mem_cons_of_mem _ (ih h)

theorem GoMap.get_of_mem {V : Type} (m : GoMap V) (hnd : m.keys.Nodup) (k : GoString)
    (v : V) (h : (k, v) ∈ m) : m.get k = some v := by
  induction m with
  | nil => simp at h
  | cons p r ih =>
    obtain ⟨k1, v1⟩ := p
    simp only [GoMap.keys, List.map_cons, List.nodup_cons] at hnd
    rcases List.mem_cons.mp h with heq | hmem
    · obtain ⟨rfl, rfl⟩ := Prod.mk.inj heq
      simp [GoMap.get]
    · have hne : ¬ k1 = k := by
        rintro rfl
        exact hnd.1 (List.mem_map.mpr ⟨(k1, v), hmem, rfl⟩)
      simp only [GoMap.get, hne, if_false]
      exact ih hnd.2 hmem

/-- The `Nodes` mapping of a snapshot, key by key: it has one entry for every entry of
the node collection, under the same key, holding the snapshot of the node stored under
that key. -/
theorem exportDag_nodes_by_key (e s : DagExporter) (dag : Dag) (he : e.Nodes = none)
    (hnd : (GoMap.keys dag.nodes).Nodup) (h : exportDag e dag = .ok s) :
    mapLen s.Nodes = dag.nodes.length ∧
    (∀ k sn, mapGet s.Nodes k = some sn →
      ∃ node, GoMap.get dag.nodes k = some node ∧
        exportNode NodeExporterF.zero node = .ok sn ∧ sn.Id = node.Id ∧
        (node.Id = k → sn.Id = k)) ∧
    (∀ k node, GoMap.get dag.nodes k = some node →
      ∃ sn, mapGet s.Nodes k = some sn ∧
        exportNode NodeExporterF.zero node = .ok sn ∧ sn.Id = node.Id) := by
  obtain ⟨xs, hxs, hlen, hget⟩ := exportDag_nodes h he hnd
  refine ⟨?_, ?_, ?_⟩
  · rw [hlen]
    exact (List.Forall₂.length_eq hxs).symm
  · intro k sn hk
    rw [hget] at hk
    obtain ⟨node, -, hg, hex⟩ :=
      forall₂_get_right (fun n x => exportNode NodeExporterF.zero n = .ok x) hxs k sn hk
    have hid := (exportNode_scalars hex).1
    exact ⟨node, hg, hex, hid, fun hk2 => by rw [hid, hk2]⟩
  · intro k node hk
    obtain ⟨sn, hg, hex⟩ :=
      forall₂_get_left (fun n x => exportNode NodeExporterF.zero n = .ok x) hxs hnd k node
        (GoMap.mem_of_get _ _ _ hk)
    exact ⟨sn, by rw [hget]; exact hg, hex, (exportNode_scalars hex).1⟩

/-- C7: for every workflow whose node collection has N entries, each node stored under
its own identifier (the collection is a Go map keyed by identifier, so its keys are
distinct), the `Nodes` mapping of the snapshot has exactly N entries, and the node
snapshot stored under a key `k` has `Id = k` and is the snapshot of the source node with
that identifier; every source node has its snapshot under its identifier. -/
theorem exportDag_nodes_keyed_by_id (e s : DagExporter) (dag : Dag) (he : e.Nodes = none)
    (hnd : (GoMap.keys dag.nodes).Nodup)
    (hkey : ∀ k node, (k, node) ∈ dag.nodes → node.Id = k)
    (h : exportDag e dag = .ok s) :
    mapLen s.Nodes = dag.nodes.length ∧
    (∀ k sn, mapGet s.Nodes k = some sn →
      sn.Id = k ∧
      ∃ node, GoMap.get dag.nodes k = some node ∧ node.Id = k ∧
        exportNode NodeExporterF.zero node = .ok sn) ∧
    (∀ k node, (k, node) ∈ dag.nodes →
      ∃ sn, mapGet s.Nodes k = some sn ∧ sn.Id = k ∧
        exportNode NodeExporterF.zero node = .ok sn) := by
  obtain ⟨hlen, hright, hleft⟩ := exportDag_nodes_by_key e s dag he hnd h
  refine ⟨hlen, ?_, ?_⟩
  · intro k sn hk
    obtain ⟨node, hg, hex, hid, -⟩ := hright k sn hk
    have hnk := hkey k node (GoMap.mem_of_get _ _ _ hg)
    exact ⟨by rw [hid, hnk], node, hg, hnk, hex⟩
  · intro k node hmem
    have hg : GoMap.get dag.nodes k = some node := GoMap.get_of_mem _ hnd k node hmem
    obtain ⟨sn, hsn, hex, hid⟩ := hleft k node hg
    exact ⟨sn, hsn, by rw [hid, hkey k node hmem], hex⟩

/-- C7, witness: the workflow with the two nodes a and b, each stored under its
identifier, has a snapshot with two entries, and the entry under a has `Id` a. -/
theorem exportDag_nodes_keyed_by_id_witness :
    DagExporter.zero.Nodes = none ∧ (GoMap.keys twoNodeDag.nodes).Nodup ∧
    (∀ k node, (k, node) ∈ twoNodeDag.nodes → node.Id = k) ∧
    exportDag DagExporter.zero twoNodeDag = .ok twoNodeSnapshot ∧
    mapLen twoNodeSnapshot.Nodes = twoNodeDag.nodes.length ∧
    ∀ k sn, mapGet twoNodeSnapshot.Nodes k = some sn → sn.Id = k :=
  have hkey : ∀ k node, (k, node) ∈ twoNodeDag.nodes → node.Id = k := by
    intro k node hmem
    simp only [twoNodeDag, List.mem_cons, Prod.mk.injEq, List.mem_singleton,
      List.not_mem_nil, or_false] at hmem
    rcases hmem with ⟨rfl, rfl⟩ | ⟨rfl, rfl⟩ <;> rfl
  ⟨rfl, by decide, hkey, rfl,
   (exportDag_nodes_keyed_by_id DagExporter.zero twoNodeSnapshot twoNodeDag rfl
      (by decide) hkey rfl).1,
   fun k sn hk =>
     ((exportDag_nodes_keyed_by_id DagExporter.zero twoNodeSnapshot twoNodeDag rfl
        (by decide) hkey rfl).2.1 k sn hk).1⟩

/-- C8: a node with in-degree 2 and out-degree 1 is exported with `InDegree = 0` and
`OutDegree = 0`; `exportNode` never assigns the two fields. -/
theorem exportNode_degrees_not_copied :
    degreeNode.indegree = 2 ∧ degreeNode.outdegree = 1 ∧
    (exportNode NodeExporterF.zero degreeNode).toOption.map
      (fun s => (s.InDegree, s.OutDegree)) = some (0, 0) := by
  decide

/-- C9: for every node that exposes a loop construct and has the loop body `w`, the node
snapshot has `IsForeach = true` and `ForeachDag` is the snapshot `exportDag` returns for
`w` on a fresh record, whose `Nodes` has exactly one entry when `w` has exactly one
node; for every node without a loop construct `IsForeach` is false and `ForeachDag` is
absent. -/
theorem exportNode_foreach (node : Node) (s : NodeExporter)
    (h : exportNode NodeExporterF.zero node = .ok s) :
    (∀ w, node.GetForEach ≠ none → node.subDag = some w →
      s.IsForeach = true ∧
      ∃ fd, exportDag DagExporter.zero w = .ok fd ∧ s.ForeachDag = some fd ∧
        (w.nodes.length = 1 → mapLen fd.Nodes = 1)) ∧
    (node.GetForEach = none → s.IsForeach = false ∧ s.ForeachDag = none) := by
  have hsc := (exportNode_scalars h).2.2.2.2.2.1
  obtain ⟨hn1, hn2, -, -⟩ := exportNode_nested h
  constructor
  · intro w hf hw
    obtain ⟨w2, fd, hw2, hfd, hsf⟩ := hn2 hf
    rw [hw] at hw2
    obtain rfl := Option.some.inj hw2
    refine ⟨by rw [hsc]; exact Option.ne_none_iff_isSome.mp hf, fd, hfd, hsf, ?_⟩
    intro h1
    obtain ⟨xs, hxs, hs⟩ := exportDag_ok hfd
    have hl : xs.length = 1 := by rw [← List.Forall₂.length_eq hxs, h1]
    obtain ⟨p, rfl⟩ := List.length_eq_one.mp hl
    rw [hs]
    rfl
  · intro hf
    exact ⟨by rw [hsc, hf]; rfl, hn1 hf⟩

/-- C9, witness: the loop node around the workflow with one node. -/
theorem exportNode_foreach_witness :
    exportNode NodeExporterF.zero loopNode = .ok loopNodeSnapshot ∧
    loopNode.GetForEach ≠ none ∧ loopNode.subDag = some oneNodeDag ∧
    loopNodeSnapshot.IsForeach = true ∧
    ∃ fd, exportDag DagExporter.zero oneNodeDag = .ok fd ∧
      loopNodeSnapshot.ForeachDag = some fd ∧
      (oneNodeDag.nodes.length = 1 → mapLen fd.Nodes = 1) :=
  ⟨rfl, by decide, rfl,
   (exportNode_foreach loopNode loopNodeSnapshot rfl).1 oneNodeDag (by decide) rfl⟩

/-- C10: `HasSubDag` is true and `SubDag` is present, both at once, exactly when the
node carries a sub-workflow and is not dynamic, and `SubDag` is then the snapshot
`exportDag` returns for that sub-workflow on a fresh record; for every dynamic node
`HasSubDag` is false and `SubDag` is absent, also when a sub-workflow is attached. -/
theorem exportNode_subDag (node : Node) (s : NodeExporter)
    (h : exportNode NodeExporterF.zero node = .ok s) :
    (s.HasSubDag = true ↔ node.subDag ≠ none ∧ node.dynamic = false) ∧
    (s.SubDag ≠ none ↔ node.subDag ≠ none ∧ node.dynamic = false) ∧
    (∀ w, node.subDag = some w → node.dynamic = false →
      ∃ sd, exportDag DagExporter.zero w = .ok sd ∧ s.SubDag = some sd) ∧
    (node.dynamic = true → s.HasSubDag = false ∧ s.SubDag = none) := by
  have hsc := (exportNode_scalars h).2.2.2.2.2.2.2.2.1
  obtain ⟨-, -, hn3, hn4⟩ := exportNode_nested h
  refine ⟨?_, ?_, ?_, ?_⟩
  · rw [hsc]
    simp [Option.ne_none_iff_isSome]
  · constructor
    · intro hne
      by_cases hd : node.dynamic = true
      · exact absurd (hn3 (Or.inr hd)) hne
      · cases hw : node.subDag with
        | none => exact absurd (hn3 (Or.inl hw)) hne
        | some w => exact ⟨by simp, by simpa using hd⟩
    · rintro ⟨hw, hd⟩
      obtain ⟨w, hw2⟩ := Option.ne_none_iff_exists'.mp hw
      obtain ⟨sd, -, hsd⟩ := hn4 hd w hw2
      rw [hsd]
      simp
  · intro w hw hd
    exact hn4 hd w hw
  · intro hd
    exact ⟨by rw [hsc, hd]; simp, hn3 (Or.inr hd)⟩

/-- C10, witness: the dynamic node with an attached workflow has no `SubDag`. -/
theorem exportNode_subDag_witness :
    exportNode NodeExporterF.zero dynamicNode = .ok dynamicNodeSnapshot ∧
    dynamicNode.dynamic = true ∧ dynamicNode.subDag ≠ none ∧
    dynamicNodeSnapshot.HasSubDag = false ∧ dynamicNodeSnapshot.SubDag = none :=
  ⟨rfl, rfl, by simp [dynamicNode],
   (exportNode_subDag dynamicNode dynamicNodeSnapshot rfl).2.2.2 rfl⟩

/-! ## Properties of the operation sequence, the children and the scalar fields -/

theorem exportNode_operations {node : Node} {s : NodeExporter}
    (h : exportNode NodeExporterF.zero node = .ok s) :
    List.Forall₂ (fun op x => exportOperation OperationExporter.zero op = .ok x)
      node.operations s.Operations := by
  obtain ⟨e1, e2, e3, xs, h1, h2, h3, hxs, hs⟩ := exportNode_ok h
  have e1o : e1.Operations = [] := by
    rcases h1 with ⟨-, h1⟩ | ⟨-, cs, -, h1⟩ <;> subst h1 <;>
      simp [markDynamicExecOnly_eq, markCondition, copyNodeFields, NodeExporterF.zero]
  have e2o : e2.Operations = [] := by
    rcases h2 with ⟨-, h2⟩ | ⟨-, w, fd, -, -, h2⟩ <;> subst h2 <;>
      simp [markDynamicExecOnly_eq, markForeach, e1o]
  have e3o : e3.Operations = [] := by
    rcases h3 with ⟨-, h3⟩ | ⟨-, w, sd, -, -, h3⟩ <;> subst h3 <;>
      simp [markAggregators_eq, markSubDag, e2o]
  have hso : s.Operations = xs := by rw [hs]; simp [e3o]
  rw [hso]
  exact hxs

/-- C13: the `Operations` sequence of a node snapshot has the length of the operation
sequence of the node, and its element at position `i` is `exportOperation` applied to
the operation at position `i`, on a fresh record. -/
theorem exportNode_operations_pointwise (node : Node) (s : NodeExporter)
    (h : exportNode NodeExporterF.zero node = .ok s) :
    s.Operations.length = node.operations.length ∧
    ∀ (i : Nat) (op : Operation), node.operations[i]? = some op →
      ∃ x, s.Operations[i]? = some x ∧
        exportOperation OperationExporter.zero op = .ok x := by
  have hf := exportNode_operations h
  refine ⟨(List.Forall₂.length_eq hf).symm, ?_⟩
  generalize node.operations = ops at hf
  generalize s.Operations = xs at hf
  induction hf with
  | nil => intro i op hi; simp at hi
  | cons hpq _ ih =>
    intro i op hi
    cases i with
    | zero =>
      simp only [List.getElem?_cons_zero, Option.some.injEq] at hi
      subst hi
      exact ⟨_, by simp, hpq⟩
    | succ j =>
      simp only [List.getElem?_cons_succ] at hi
      obtain ⟨x, hx, hex⟩ := ih j op hi
      exact ⟨x, by simpa using hx, hex⟩

/-- C13, witness: the node with three operations. -/
theorem exportNode_operations_pointwise_witness :
    exportNode NodeExporterF.zero threeOperationNode = .ok threeOperationSnapshot ∧
    threeOperationSnapshot.Operations.length = threeOperationNode.operations.length :=
  ⟨rfl, (exportNode_operations_pointwise threeOperationNode threeOperationSnapshot rfl).1⟩

/-- C14: `Childrens` is the sequence of the identifiers of the children in edge order,
and `ChildrenExecOnly` is always present, empty for a childless node, with exactly the
identifiers that occur in `Childrens` as keys: it has a value for each of them and for
no other key. -/
theorem exportNode_children (node : Node) (s : NodeExporter)
    (h : exportNode NodeExporterF.zero node = .ok s) :
    s.Childrens = node.children ∧
    ∃ m, s.ChildrenExecOnly = some m ∧
      (∀ k, k ∈ m.keys ↔ k ∈ s.Childrens) ∧
      (∀ k, (∃ b, m.get k = some b) ↔ k ∈ s.Childrens) ∧
      (node.children = [] → m = []) := by
  obtain ⟨hc, hm⟩ := (exportNode_scalars h).2.2.2.2.2.2.2.2.2.2.2.2
  have hget : ∀ k, (∃ b, (childFlags node.forwarder [] node.children).get k = some b) ↔
      k ∈ node.children := by
    intro k
    rw [childFlags_get]
    by_cases hk : k ∈ node.children <;> simp [hk, GoMap.get]
  refine ⟨hc, _, hm, ?_, ?_, ?_⟩
  · intro k
    rw [hc, ← hget k]
    constructor
    · intro hk
      cases hg : (childFlags node.forwarder [] node.children).get k with
      | none => exact absurd hk ((GoMap.get_eq_none_iff _ _).mp hg)
      | some b => exact ⟨b, rfl⟩
    · rintro ⟨b, hb⟩
      by_contra hk
      rw [← GoMap.get_eq_none_iff, hb] at hk
      exact absurd hk (by simp)
  · intro k
    rw [hc]
    exact hget k
  · intro hnil
    rw [hnil]
    rfl

/-- C14, witness: the node with the children A and B. -/
theorem exportNode_children_witness :
    exportNode NodeExporterF.zero nilChildEntryNode = .ok nilChildEntrySnapshot ∧
    nilChildEntrySnapshot.Childrens = nilChildEntryNode.children :=
  ⟨rfl, (exportNode_children nilChildEntryNode nilChildEntrySnapshot rfl).1⟩

/-- C15, counterexample: an operation with a modifier, the function name "resize" and
the callback address "http://x/12345678" is exported with `IsMod`, `IsFunction` and
`IsCallback` all true and with the name "12345678". -/
theorem modifier_exclusive_counterexample :
    modifierFunctionCallback.Mod ≠ none ∧
    exportOperation OperationExporter.zero modifierFunctionCallback = .ok
      { IsMod := true, IsFunction := true, IsCallback := true, Name := go "12345678",
        HasResponseHandler := true, HasFailureHandler := false } :=
  ⟨by decide, rfl⟩

/-- C15, as amended: for every operation with a modifier present, and a callback address
that is empty or has at least 8 bytes, `exportOperation` sets `IsMod = true`; the
function rule and the callback rule are independent of the modifier rule, so
`IsFunction` is true exactly when the function name is non-empty, `IsCallback` is true
exactly when the callback address is non-empty, and `Name` stays empty when both are
empty. -/
theorem exportOperation_modifier (op : Operation) (hm : op.Mod ≠ none)
    (hc : op.CallbackUrl = [] ∨ 8 ≤ op.CallbackUrl.length) :
    ∃ s, exportOperation OperationExporter.zero op = .ok s ∧
      s.IsMod = true ∧
      (s.IsFunction = true ↔ op.Function ≠ []) ∧
      (s.IsCallback = true ↔ op.CallbackUrl ≠ []) ∧
      (op.Function = [] → op.CallbackUrl = [] → s.Name = []) := by
  refine ⟨_, exportOperation_zero_ok op hc, by simp [hm], by simp, by simp, ?_⟩
  intro hf hu
  simp [hf, hu]

/-- C15, witness: the operation with a modifier, a function name and a callback
address. -/
theorem exportOperation_modifier_witness :
    modifierFunctionCallback.Mod ≠ none ∧
    (modifierFunctionCallback.CallbackUrl = [] ∨
      8 ≤ modifierFunctionCallback.CallbackUrl.length) ∧
    ∃ s, exportOperation OperationExporter.zero modifierFunctionCallback = .ok s ∧
      s.IsMod = true ∧
      (s.IsFunction = true ↔ modifierFunctionCallback.Function ≠ []) ∧
      (s.IsCallback = true ↔ modifierFunctionCallback.CallbackUrl ≠ []) ∧
      (modifierFunctionCallback.Function = [] →
        modifierFunctionCallback.CallbackUrl = [] → s.Name = []) :=
  ⟨by decide, by decide,
   exportOperation_modifier modifierFunctionCallback (by decide) (by decide)⟩

/-- C16: `exportDag`, given a record whose `StartNode` and `EndNode` are still empty,
copies the scalar fields of the workflow: `Id`, `HasBranch`, `HasEdge` and
`ExecutionOnlyDag` are the fields of the workflow, `StartNode` is the identifier of the
start node when one is set and empty otherwise, and `EndNode` is the identifier of the
end node when one is set and empty otherwise. -/
theorem exportDag_scalars (e s : DagExporter) (dag : Dag)
    (hstart : e.StartNode = []) (hend : e.EndNode = [])
    (h : exportDag e dag = .ok s) :
    s.Id = dag.Id ∧ s.HasBranch = dag.hasBranch ∧ s.HasEdge = dag.hasEdge ∧
    s.ExecutionOnlyDag = dag.executionFlow ∧
    (∀ id, dag.initialNode = some id → s.StartNode = id) ∧
    (dag.initialNode = none → s.StartNode = []) ∧
    (∀ id, dag.endNode = some id → s.EndNode = id) ∧
    (dag.endNode = none → s.EndNode = []) := by
  obtain ⟨xs, -, hs⟩ := exportDag_ok h
  subst hs
  unfold copyDagFields
  cases hi : dag.initialNode <;> cases hn : dag.endNode <;> simp [hstart, hend]

/-- C16, witness: a workflow with a start node and an end node. -/
theorem exportDag_scalars_witness :
    DagExporter.zero.StartNode = [] ∧ DagExporter.zero.EndNode = [] ∧
    exportDag DagExporter.zero startEndDag = .ok startEndSnapshot ∧
    startEndSnapshot.Id = startEndDag.Id ∧
    startEndSnapshot.HasBranch = startEndDag.hasBranch :=
  ⟨rfl, rfl, rfl,
   (exportDag_scalars DagExporter.zero startEndSnapshot startEndDag rfl rfl rfl).1,
   (exportDag_scalars DagExporter.zero startEndSnapshot startEndDag rfl rfl rfl).2.1⟩

/-- C19: whatever the execution kind of an operation is, `HasResponseHandler` is true
exactly when the operation carries a response handler and `HasFailureHandler` is true
exactly when it carries a failure handler. -/
theorem exportOperation_handlers (op : Operation) (s : OperationExporter)
    (h : exportOperation OperationExporter.zero op = .ok s) :
    (s.HasResponseHandler = true ↔ op.OnResphandler ≠ none) ∧
    (s.HasFailureHandler = true ↔ op.FailureHandler ≠ none) := by
  by_cases hc : op.CallbackUrl = [] ∨ 8 ≤ op.CallbackUrl.length
  · rw [exportOperation_zero_ok op hc] at h
    have hs := Except.ok.inj h
    subst hs
    simp
  · have h0 : op.CallbackUrl ≠ [] := fun h0 => hc (Or.inl h0)
    have h8 : op.CallbackUrl.length < 8 := by
      by_contra h8
      exact hc (Or.inr (by omega))
    rw [exportOperation_short_callback _ op h0 h8] at h
    exact absurd h (by simp)

/-- C19, witness: an operation with a modifier, a function name, a callback address and
a response handler, without a failure handler. -/
theorem exportOperation_handlers_witness :
    exportOperation OperationExporter.zero modifierFunctionCallback = .ok
      { IsMod := true, IsFunction := true, IsCallback := true, Name := go "12345678",
        HasResponseHandler := true, HasFailureHandler := false } ∧
    (true = true ↔ modifierFunctionCallback.OnResphandler ≠ none) ∧
    (false = true ↔ modifierFunctionCallback.FailureHandler ≠ none) :=
  ⟨rfl, exportOperation_handlers modifierFunctionCallback _ rfl⟩

/-- C20: for every non-dynamic node that exposes a loop construct and has a loop body,
the loop body is exported twice: `ForeachDag` and `SubDag` are both present and hold
the same snapshot of `node.subDag`, and `IsForeach` and `HasSubDag` are both true. -/
theorem exportNode_loop_body_twice (node : Node) (s : NodeExporter) (w : Dag)
    (h : exportNode NodeExporterF.zero node = .ok s)
    (hd : node.dynamic = false) (hf : node.GetForEach ≠ none) (hw : node.subDag = some w) :
    ∃ x, exportDag DagExporter.zero w = .ok x ∧
      s.ForeachDag = some x ∧ s.SubDag = some x ∧
      s.IsForeach = true ∧ s.HasSubDag = true := by
  obtain ⟨-, hn2, -, hn4⟩ := exportNode_nested h
  have hsc := exportNode_scalars h
  obtain ⟨w2, fd, hw2, hfd, hsf⟩ := hn2 hf
  rw [hw] at hw2
  obtain rfl := Option.some.inj hw2
  obtain ⟨sd, hsd, hss⟩ := hn4 hd w hw
  rw [hfd] at hsd
  obtain rfl := Except.ok.inj hsd
  refine ⟨fd, hfd, hsf, hss, ?_, ?_⟩
  · rw [hsc.2.2.2.2.2.1]
    exact Option.ne_none_iff_isSome.mp hf
  · rw [hsc.2.2.2.2.2.2.2.2.1, hw, hd]
    rfl

/-- C20, witness: the loop node around the workflow with one node. -/
theorem exportNode_loop_body_twice_witness :
    exportNode NodeExporterF.zero loopNode = .ok loopNodeSnapshot ∧
    loopNode.dynamic = false ∧ loopNode.GetForEach ≠ none ∧
    loopNode.subDag = some oneNodeDag ∧
    ∃ x, exportDag DagExporter.zero oneNodeDag = .ok x ∧
      loopNodeSnapshot.ForeachDag = some x ∧ loopNodeSnapshot.SubDag = some x ∧
      loopNodeSnapshot.IsForeach = true ∧ loopNodeSnapshot.HasSubDag = true :=
  ⟨rfl, rfl, by decide, rfl,
   exportNode_loop_body_twice loopNode loopNodeSnapshot oneNodeDag rfl rfl (by decide) rfl⟩

/-! ## Properties of the conditional workflows -/

theorem assignAll_none_get {V : Type} (xs : GoMap V) (hnd : xs.keys.Nodup) :
    mapLen (assignAll none xs) = xs.length ∧ ∀ k, mapGet (assignAll none xs) k = xs.get k := by
  cases xs with
  | nil => exact ⟨rfl, fun k => rfl⟩
  | cons p r =>
    rw [assignAll_none_nodup _ hnd (by simp)]
    exact ⟨rfl, fun k => rfl⟩

/-- The field `ConditionalDags` of a node snapshot. -/
theorem exportNode_conditional {node : Node} {s : NodeExporter}
    (h : exportNode NodeExporterF.zero node = .ok s) :
    (node.GetCondition = none → s.ConditionalDags = none) ∧
    (node.GetCondition ≠ none → ∃ cs : GoMap DagExporter,
      List.Forall₂ (fun p q => q.1 = p.1 ∧ exportDag DagExporter.zero p.2 = .ok q.2)
        node.conditionalDags cs ∧
      s.ConditionalDags = assignAll none cs) := by
  obtain ⟨e1, e2, e3, xs, h1, h2, h3, -, hs⟩ := exportNode_ok h
  clear h
  have e2c : e2.ConditionalDags = e1.ConditionalDags := by
    rcases h2 with ⟨-, h2⟩ | ⟨-, w, fd, -, -, h2⟩ <;> subst h2 <;>
      simp [markDynamicExecOnly_eq, markForeach]
  have e3c : e3.ConditionalDags = e2.ConditionalDags := by
    rcases h3 with ⟨-, h3⟩ | ⟨-, w, sd, -, -, h3⟩ <;> subst h3 <;>
      simp [markAggregators_eq, markSubDag]
  have sc : s.ConditionalDags = e1.ConditionalDags := by rw [hs]; exact e3c.trans e2c
  constructor
  · intro hc
    rcases h1 with ⟨-, h1⟩ | ⟨hc2, -⟩
    · rw [sc, h1]
      rfl
    · exact absurd hc hc2
  · intro hc
    rcases h1 with ⟨hc2, -⟩ | ⟨-, cs, hcs, h1⟩
    · exact absurd hc2 hc
    · exact ⟨cs, hcs, by rw [sc, h1]⟩

/-- C11: for every node that exposes a branch-condition construct, `IsCondition` is true
and `ConditionalDags` has exactly the condition labels of `node.conditionalDags` as
keys, each mapped to the snapshot that `exportDag` returns for the workflow of that
label on a fresh record; for every node without a branch-condition construct
`IsCondition` is false and `ConditionalDags` is absent. The labels of a Go map are
distinct. -/
theorem exportNode_conditionalDags (node : Node) (s : NodeExporter)
    (hnd : (GoMap.keys node.conditionalDags).Nodup)
    (h : exportNode NodeExporterF.zero node = .ok s) :
    (node.GetCondition ≠ none →
      s.IsCondition = true ∧
      (∀ k, (∃ x, mapGet s.ConditionalDags k = some x) ↔
        k ∈ GoMap.keys node.conditionalDags) ∧
      (∀ k d, GoMap.get node.conditionalDags k = some d →
        ∃ x, exportDag DagExporter.zero d = .ok x ∧
          mapGet s.ConditionalDags k = some x)) ∧
    (node.GetCondition = none → s.IsCondition = false ∧ s.ConditionalDags = none) := by
  have hsc := (exportNode_scalars h).2.2.2.2.1
  obtain ⟨hn1, hn2⟩ := exportNode_conditional h
  constructor
  · intro hc
    obtain ⟨cs, hcs, hs⟩ := hn2 hc
    have hkeys := forall₂_keys (fun d x => exportDag DagExporter.zero d = .ok x) hcs
    have hget := (assignAll_none_get cs (by rw [hkeys]; exact hnd)).2
    refine ⟨by rw [hsc]; exact Option.ne_none_iff_isSome.mp hc, ?_, ?_⟩
    · intro k
      rw [hs, hget, ← hkeys]
      constructor
      · rintro ⟨x, hx⟩
        by_contra hk
        rw [← GoMap.get_eq_none_iff, hx] at hk
        exact absurd hk (by simp)
      · intro hk
        cases hg : cs.get k with
        | none => exact absurd hk ((GoMap.get_eq_none_iff _ _).mp hg)
        | some x => exact ⟨x, rfl⟩
    · intro k d hd
      obtain ⟨x, hx, hex⟩ :=
        forall₂_get_left (fun d x => exportDag DagExporter.zero d = .ok x) hcs hnd k d
          (GoMap.mem_of_get _ _ _ hd)
      exact ⟨x, hex, by rw [hs, hget]; exact hx⟩
  · intro hc
    exact ⟨by rw [hsc, hc]; rfl, hn1 hc⟩

/-- C11, witness: the conditional node with the two branches yes and no. -/
theorem exportNode_conditionalDags_witness :
    (GoMap.keys branchNode.conditionalDags).Nodup ∧
    exportNode NodeExporterF.zero branchNode = .ok branchNodeSnapshot ∧
    branchNode.GetCondition ≠ none ∧
    branchNodeSnapshot.IsCondition = true ∧
    ∀ k d, GoMap.get branchNode.conditionalDags k = some d →
      ∃ x, exportDag DagExporter.zero d = .ok x ∧
        mapGet branchNodeSnapshot.ConditionalDags k = some x :=
  ⟨by decide, rfl, by decide,
   ((exportNode_conditionalDags branchNode branchNodeSnapshot (by decide) rfl).1
      (by decide)).1,
   ((exportNode_conditionalDags branchNode branchNodeSnapshot (by decide) rfl).1
      (by decide)).2.2⟩

/-! ## Independence of the iteration order -/

theorem GoMap.get_perm {V : Type} (m1 m2 : GoMap V) (hnd : m1.keys.Nodup)
    (hp : m2.Perm m1) (k : GoString) : m2.get k = m1.get k := by
  have hk : m2.keys.Perm m1.keys := hp.map Prod.fst
  have hnd2 : m2.keys.Nodup := hk.nodup_iff.mpr hnd
  cases hg : m1.get k with
  | none =>
    rw [GoMap.get_eq_none_iff] at hg ⊢
    exact fun hmem => hg (hk.mem_iff.mp hmem)
  | some v =>
    exact GoMap.get_of_mem m2 hnd2 k v (hp.mem_iff.mpr (GoMap.mem_of_get m1 k v hg))

theorem exportNodes_of_forall₂ (e : DagExporter) {nodes : List (GoString × Node)}
    {xs : GoMap NodeExporter}
    (h : List.Forall₂ (fun p q => q.1 = p.1 ∧ exportNode NodeExporterF.zero p.2 = .ok q.2)
      nodes xs) :
    exportNodes e nodes = .ok { e with Nodes := assignAll e.Nodes xs } := by
  induction h generalizing e with
  | nil =>
    cases e
    rfl
  | @cons p q r1 r2 hpq _ ih =>
    obtain ⟨k1, n1⟩ := p
    obtain ⟨k2, x2⟩ := q
    obtain ⟨hk, hx⟩ := hpq
    simp only at hk hx
    subst hk
    rw [exportNodes_cons, hx, makeNodes_eq]
    simp only [mapSet, bind, Except.bind]
    rw [ih]
    rfl

theorem exportConditionalDags_of_forall₂ (e : NodeExporter) {dags : List (GoString × Dag)}
    {xs : GoMap DagExporter}
    (h : List.Forall₂ (fun p q => q.1 = p.1 ∧ exportDag DagExporter.zero p.2 = .ok q.2)
      dags xs) :
    exportConditionalDags e dags = .ok { e with ConditionalDags := assignAll e.ConditionalDags xs } := by
  induction h generalizing e with
  | nil => rfl
  | @cons p q r1 r2 hpq _ ih =>
    obtain ⟨k1, d1⟩ := p
    obtain ⟨k2, x2⟩ := q
    obtain ⟨hk, hx⟩ := hpq
    simp only at hk hx
    subst hk
    rw [exportConditionalDags_cons, hx, makeConditionalDags_eq]
    simp only [mapSet, bind, Except.bind]
    rw [ih]
    rfl

theorem exportDag_of_forall₂ (e : DagExporter) (dag : Dag) {xs : GoMap NodeExporter}
    (h : List.Forall₂ (fun p q => q.1 = p.1 ∧ exportNode NodeExporterF.zero p.2 = .ok q.2)
      dag.nodes xs) :
    exportDag e dag = .ok { copyDagFields e dag with Nodes := assignAll e.Nodes xs } := by
  rw [exportDag_unfold, exportNodes_of_forall₂ _ h, (copyDagFields_frame e dag).1]

/-- The `Nodes` mapping does not depend on the order in which `dag.nodes` is iterated. -/
theorem exportDag_nodes_order (e s1 : DagExporter) (dag : Dag)
    (nodes2 : List (GoString × Node)) (he : e.Nodes = none)
    (hnd : (GoMap.keys dag.nodes).Nodup) (hp : nodes2.Perm dag.nodes)
    (h : exportDag e dag = .ok s1) :
    ∃ s2, exportDag e { dag with nodes := nodes2 } = .ok s2 ∧
      s2 = { s1 with Nodes := s2.Nodes } ∧
      mapLen s2.Nodes = mapLen s1.Nodes ∧ ∀ k, mapGet s2.Nodes k = mapGet s1.Nodes k := by
  obtain ⟨xs1, hxs1, hs1⟩ := exportDag_ok h
  obtain ⟨xs2, hxs2, hperm⟩ := List.perm_comp_forall₂ hp hxs1
  have hk1 : (GoMap.keys xs1).Nodup := by
    rw [forall₂_keys (fun n x => exportNode NodeExporterF.zero n = .ok x) hxs1]
    exact hnd
  have hk2 : (GoMap.keys xs2).Nodup :=
    (List.Perm.nodup_iff (hperm.map Prod.fst)).mpr hk1
  have h2 := exportDag_of_forall₂ e { dag with nodes := nodes2 } hxs2
  refine ⟨_, h2, ?_, ?_, ?_⟩
  · rw [hs1]
    rfl
  · rw [hs1, he]
    simp only [(assignAll_none_get xs1 hk1).1, (assignAll_none_get xs2 hk2).1]
    exact hperm.length_eq
  · intro k
    rw [hs1, he]
    simp only [(assignAll_none_get xs1 hk1).2, (assignAll_none_get xs2 hk2).2]
    exact GoMap.get_perm xs1 xs2 hk1 hperm k

theorem exportNode_split (e : NodeExporter) (node : Node) :
    exportNode e node =
      ((if node.GetCondition ≠ none then
          exportConditionalDags (markCondition (copyNodeFields e node) node) node.conditionalDags
        else pure (copyNodeFields e node)) >>= exportNodeTail node) := by
  rw [exportNode_unfold]
  rfl

theorem exportOperations_frame {e s : NodeExporter} {ops : List Operation}
    (c : Option (GoMap DagExporter)) (h : exportOperations e ops = .ok s) :
    exportOperations { e with ConditionalDags := c } ops =
      .ok { s with ConditionalDags := c } := by
  induction ops generalizing e with
  | nil =>
    simp only [exportOperations, pure, Except.pure, Except.ok.injEq] at h ⊢
    rw [h]
  | cons op r ih =>
    simp only [exportOperations] at h ⊢
    obtain ⟨x, hx, hr⟩ := bind_eq_ok.mp h
    rw [hx]
    exact ih hr

/-- The statements after the branch-condition block leave `ConditionalDags` as it is
and do not read it. -/
theorem exportNodeTail_frame {node : Node} {e1 s : NodeExporter}
    (c : Option (GoMap DagExporter)) (h : exportNodeTail node e1 = .ok s) :
    exportNodeTail node { e1 with ConditionalDags := c } =
      .ok { s with ConditionalDags := c } := by
  unfold exportNodeTail at h ⊢
  obtain ⟨e2, h2, h⟩ := bind_eq_ok.mp h
  obtain ⟨e3, h3, h⟩ := bind_eq_ok.mp h
  obtain ⟨e4, h4, h5⟩ := bind_eq_ok.mp h
  have g2 : (if node.GetForEach ≠ none then
      match node.subDag with
      | none => throw Fault.nilPointerDereference
      | some subDag =>
        exportDag DagExporter.zero subDag >>= fun foreachDag =>
          pure (markForeach { e1 with ConditionalDags := c } node foreachDag)
    else pure { e1 with ConditionalDags := c }) =
      (.ok { e2 with ConditionalDags := c } : Except Fault NodeExporter) := by
    by_cases hf : node.GetForEach = none
    · rw [if_neg (not_not.mpr hf)] at h2 ⊢
      have : e1 = e2 := by simpa [pure, Except.pure] using h2
      rw [this]
      rfl
    · rw [if_pos hf] at h2 ⊢
      cases hsd : node.subDag with
      | none => simp [hsd, throw, throwThe, MonadExceptOf.throw] at h2
      | some w =>
        simp only [hsd] at h2 ⊢
        obtain ⟨fd, hfd, hp⟩ := bind_eq_ok.mp h2
        have : markForeach e1 node fd = e2 := by simpa [pure, Except.pure] using hp
        rw [hfd, ← this]
        simp [markForeach, markDynamicExecOnly_eq, pure, Except.pure, bind, Except.bind]
  have g3 : (match node.subDag with
      | some subDag =>
        if node.dynamic = false then
          exportDag DagExporter.zero subDag >>= fun sub =>
            pure (markSubDag (markAggregators { e2 with ConditionalDags := c } node) sub)
        else pure (markAggregators { e2 with ConditionalDags := c } node)
      | none => pure (markAggregators { e2 with ConditionalDags := c } node)) =
      (.ok { e3 with ConditionalDags := c } : Except Fault NodeExporter) := by
    cases hsd : node.subDag with
    | none =>
      simp only [hsd] at h3 ⊢
      have : markAggregators e2 node = e3 := by simpa [pure, Except.pure] using h3
      rw [← this]
      simp [markAggregators_eq, pure, Except.pure]
    | some w =>
      simp only [hsd] at h3 ⊢
      by_cases hd : node.dynamic = false
      · rw [if_pos hd] at h3 ⊢
        obtain ⟨sd, hsd2, hp⟩ := bind_eq_ok.mp h3
        have : markSubDag (markAggregators e2 node) sd = e3 := by
          simpa [pure, Except.pure] using hp
        rw [hsd2, ← this]
        simp [markSubDag, markAggregators_eq, pure, Except.pure, bind, Except.bind]
      · rw [if_neg hd] at h3 ⊢
        have : markAggregators e2 node = e3 := by simpa [pure, Except.pure] using h3
        rw [← this]
        simp [markAggregators_eq, pure, Except.pure]
  have g4 := exportOperations_frame c h4
  rw [exportChildren_ok node.forwarder (makeChildrenExecOnly e4) [] node.children rfl] at h5
  have h6 := Except.ok.inj h5
  refine bind_eq_ok.mpr ⟨_, g2, bind_eq_ok.mpr ⟨_, g3, bind_eq_ok.mpr ⟨_, g4, ?_⟩⟩⟩
  rw [exportChildren_ok node.forwarder _ [] node.children rfl, ← h6]
  rfl

/-- The `ConditionalDags` mapping does not depend on the order in which
`node.conditionalDags` is iterated. -/
theorem exportNode_conditional_order (node : Node) (s1 : NodeExporter)
    (dags2 : List (GoString × Dag)) (hnd : (GoMap.keys node.conditionalDags).Nodup)
    (hp : dags2.Perm node.conditionalDags)
    (h : exportNode NodeExporterF.zero node = .ok s1) :
    ∃ s2, exportNode NodeExporterF.zero { node with conditionalDags := dags2 } = .ok s2 ∧
      s2 = { s1 with ConditionalDags := s2.ConditionalDags } ∧
      mapLen s2.ConditionalDags = mapLen s1.ConditionalDags ∧
      ∀ k, mapGet s2.ConditionalDags k = mapGet s1.ConditionalDags k := by
  have htail : ∀ e1, exportNodeTail { node with conditionalDags := dags2 } e1 =
      exportNodeTail node e1 := fun e1 => rfl
  rw [exportNode_split] at h ⊢
  obtain ⟨e1, h1, ht⟩ := bind_eq_ok.mp h
  by_cases hc : node.GetCondition = none
  · have hc2 : NodeF.GetCondition { node with conditionalDags := dags2 } = none := hc
    rw [if_neg (not_not.mpr hc)] at h1
    rw [if_neg (not_not.mpr hc2)]
    refine ⟨s1, ?_, ?_, rfl, fun k => rfl⟩
    · rw [← ht, ← htail e1]
      have : copyNodeFields NodeExporterF.zero node = e1 := by
        simpa [pure, Except.pure] using h1
      rw [← this]
      rfl
    · rfl
  · have hc2 : NodeF.GetCondition { node with conditionalDags := dags2 } ≠ none := hc
    rw [if_pos hc] at h1
    rw [if_pos hc2]
    obtain ⟨cs1, hcs1, he1⟩ := exportConditionalDags_ok h1
    obtain ⟨cs2, hcs2, hperm⟩ := List.perm_comp_forall₂ hp hcs1
    have hk1 : (GoMap.keys cs1).Nodup := by
      rw [forall₂_keys (fun d x => exportDag DagExporter.zero d = .ok x) hcs1]
      exact hnd
    have hk2 : (GoMap.keys cs2).Nodup :=
      (List.Perm.nodup_iff (hperm.map Prod.fst)).mpr hk1
    have hn : (markCondition (copyNodeFields NodeExporterF.zero node) node).ConditionalDags
        = none := by
      unfold markCondition markDynamicExecOnly
      split <;> rfl
    rw [hn] at he1
    have h2 := exportConditionalDags_of_forall₂
      (markCondition (copyNodeFields NodeExporterF.zero node) node) hcs2
    rw [hn] at h2
    have hfr := exportNodeTail_frame (assignAll none cs2) ht
    have hs1c : s1.ConditionalDags = assignAll none cs1 := by
      have hself := exportNodeTail_frame e1.ConditionalDags ht
      have heq : exportNodeTail node e1 = .ok { s1 with ConditionalDags := e1.ConditionalDags } :=
        hself
      rw [ht] at heq
      have h3 := congrArg NodeExporterF.ConditionalDags (Except.ok.inj heq)
      rw [h3, he1]
    refine ⟨{ s1 with ConditionalDags := assignAll none cs2 }, ?_, rfl, ?_, ?_⟩
    · refine bind_eq_ok.mpr ⟨_, h2, ?_⟩
      rw [htail, ← hfr, he1]
    · rw [hs1c]
      simp only [(assignAll_none_get cs1 hk1).1, (assignAll_none_get cs2 hk2).1]
      exact hperm.length_eq
    · intro k
      rw [hs1c]
      simp only [(assignAll_none_get cs1 hk1).2, (assignAll_none_get cs2 hk2).2]
      exact GoMap.get_perm cs1 cs2 hk1 hperm k

/-! ## The containment structure of a workflow -/

theorem dagWeight_eq (dag : Dag) : dagWeight dag = 1 + nodesWeight dag.nodes := by
  cases dag
  rfl

theorem nodeWeight_eq (node : Node) :
    nodeWeight node =
      (match node.subDag with
        | none => 0
        | some d => dagWeight d) + dagsWeight node.conditionalDags := by
  obtain ⟨a1, a2, a3, subDag, a5, a6, a7, a8, a9, a10, a11, a12, a13, a14, a15⟩ := node
  cases subDag <;> rfl

theorem nodesWeight_mem {nodes : List (GoString × Node)} {k : GoString} {node : Node}
    (h : (k, node) ∈ nodes) : nodeWeight node ≤ nodesWeight nodes := by
  induction nodes with
  | nil => simp at h
  | cons p r ih =>
    obtain ⟨k1, n1⟩ := p
    have hc : nodesWeight ((k1, n1) :: r) = nodeWeight n1 + nodesWeight r := rfl
    rcases List.mem_cons.mp h with heq | hmem
    · obtain ⟨rfl, rfl⟩ := Prod.mk.inj heq
      omega
    · have := ih hmem
      omega

theorem dagsWeight_mem {dags : List (GoString × Dag)} {k : GoString} {d : Dag}
    (h : (k, d) ∈ dags) : dagWeight d ≤ dagsWeight dags := by
  induction dags with
  | nil => simp at h
  | cons p r ih =>
    obtain ⟨k1, d1⟩ := p
    have hc : dagsWeight ((k1, d1) :: r) = dagWeight d1 + dagsWeight r := rfl
    rcases List.mem_cons.mp h with heq | hmem
    · obtain ⟨rfl, rfl⟩ := Prod.mk.inj heq
      omega
    · have := ih hmem
      omega

theorem nodeWeight_subDag {node : Node} {w : Dag} (h : node.subDag = some w) :
    dagWeight w ≤ nodeWeight node := by
  rw [nodeWeight_eq, h]
  simp

theorem nodeWeight_conditionalDags {node : Node} {k : GoString} {d : Dag}
    (h : (k, d) ∈ node.conditionalDags) : dagWeight d ≤ nodeWeight node := by
  rw [nodeWeight_eq]
  have := dagsWeight_mem h
  omega

theorem forall₂_mem_left {A B : Type} (R : A → B → Prop) {l1 : List A} {l2 : List B}
    (h : List.Forall₂ R l1 l2) (a : A) (ha : a ∈ l1) : ∃ b, b ∈ l2 ∧ R a b := by
  induction h with
  | nil => simp at ha
  | @cons a1 b1 r1 r2 hab _ ih =>
    rcases List.mem_cons.mp ha with rfl | hmem
    · exact ⟨b1, by simp, hab⟩
    · obtain ⟨b, hb, hr⟩ := ih hmem
      exact ⟨b, List.mem_cons_of_mem _ hb, hr⟩

theorem forall₂_mem_right {A B : Type} (R : A → B → Prop) {l1 : List A} {l2 : List B}
    (h : List.Forall₂ R l1 l2) (b : B) (hb : b ∈ l2) : ∃ a, a ∈ l1 ∧ R a b := by
  induction h with
  | nil => simp at hb
  | @cons a1 b1 r1 r2 hab _ ih =>
    rcases List.mem_cons.mp hb with rfl | hmem
    · exact ⟨a1, by simp, hab⟩
    · obtain ⟨a, ha, hr⟩ := ih hmem
      exact ⟨a, List.mem_cons_of_mem _ ha, hr⟩

/-! ## The nested workflow snapshots -/

theorem nestedDags_eq (s : DagExporter) :
    nestedDags s =
      match s.Nodes with
      | none => []
      | some m => nestedDagsOfNodes m := by
  obtain ⟨a1, a2, a3, a4, a5, a6, nodes, a8, a9⟩ := s
  cases nodes <;> rfl

theorem nestedDagsOfNode_eq (n : NodeExporter) :
    nestedDagsOfNode n =
      (match n.SubDag with
        | none => []
        | some d => d :: nestedDags d) ++
      (match n.ForeachDag with
        | none => []
        | some d => d :: nestedDags d) ++
      (match n.ConditionalDags with
        | none => []
        | some m => nestedDagsOfDags m) := by
  obtain ⟨a1, a2, a3, a4, a5, a6, a7, a8, a9, a10, a11, sd, fd, cd, a15, a16, a17, a18⟩ := n
  cases sd <;> cases fd <;> cases cd <;> rfl

theorem mem_nestedDagsOfNodes {m : List (GoString × NodeExporter)} {x : DagExporter} :
    x ∈ nestedDagsOfNodes m ↔ ∃ p, p ∈ m ∧ x ∈ nestedDagsOfNode p.2 := by
  induction m with
  | nil => simp [nestedDagsOfNodes]
  | cons p r ih =>
    obtain ⟨k, n⟩ := p
    have hc : nestedDagsOfNodes ((k, n) :: r) = nestedDagsOfNode n ++ nestedDagsOfNodes r :=
      rfl
    rw [hc, List.mem_append, ih]
    constructor
    · rintro (h | ⟨p, hp, hx⟩)
      · exact ⟨(k, n), by simp, h⟩
      · exact ⟨p, List.mem_cons_of_mem _ hp, hx⟩
    · rintro ⟨p, hp, hx⟩
      rcases List.mem_cons.mp hp with rfl | hmem
      · exact Or.inl hx
      · exact Or.inr ⟨p, hmem, hx⟩

theorem mem_nestedDagsOfDags {m : List (GoString × DagExporter)} {x : DagExporter} :
    x ∈ nestedDagsOfDags m ↔ ∃ p, p ∈ m ∧ (x = p.2 ∨ x ∈ nestedDags p.2) := by
  induction m with
  | nil => simp [nestedDagsOfDags]
  | cons p r ih =>
    obtain ⟨k, d⟩ := p
    have hc : nestedDagsOfDags ((k, d) :: r) = (d :: nestedDags d) ++ nestedDagsOfDags r :=
      rfl
    rw [hc, List.mem_append, ih, List.mem_cons]
    constructor
    · rintro (h | ⟨p, hp, hx⟩)
      · exact ⟨(k, d), by simp, h⟩
      · exact ⟨p, List.mem_cons_of_mem _ hp, hx⟩
    · rintro ⟨p, hp, hx⟩
      rcases List.mem_cons.mp hp with rfl | hmem
      · exact Or.inl hx
      · exact Or.inr ⟨p, hmem, hx⟩

theorem GoMap.mem_set {V : Type} (m : GoMap V) (k : GoString) (v : V) (p : GoString × V)
    (h : p ∈ m.set k v) : p ∈ m ∨ p = (k, v) := by
  induction m with
  | nil =>
    simp only [GoMap.set, List.mem_singleton] at h
    exact Or.inr h
  | cons q r ih =>
    obtain ⟨k1, v1⟩ := q
    by_cases hk : k1 = k
    · subst hk
      simp only [GoMap.set, if_true, List.mem_cons] at h
      rcases h with h | h
      · exact Or.inr h
      · exact Or.inl (List.mem_cons_of_mem _ h)
    · simp only [GoMap.set, hk, if_false, List.mem_cons] at h
      rcases h with h | h
      · exact Or.inl (by simp [h])
      · rcases ih h with h2 | h2
        · exact Or.inl (List.mem_cons_of_mem _ h2)
        · exact Or.inr h2

theorem assignAll_mem {V : Type} (om : Option (GoMap V)) (xs m : GoMap V)
    (h : assignAll om xs = some m) (p : GoString × V) (hp : p ∈ m) :
    p ∈ om.getD [] ∨ p ∈ xs := by
  induction xs generalizing om with
  | nil =>
    simp only [assignAll] at h
    rw [h]
    exact Or.inl hp
  | cons q r ih =>
    obtain ⟨k, v⟩ := q
    simp only [assignAll] at h
    rcases ih _ h with h2 | h2
    · simp only [Option.getD_some] at h2
      rcases GoMap.mem_set _ _ _ _ h2 with h3 | h3
      · exact Or.inl h3
      · exact Or.inr (by simp [h3])
    · exact Or.inr (List.mem_cons_of_mem _ h2)

/-- The nested workflow snapshots of a node snapshot are unvalidated when the snapshots
of the workflows nested in the node are. -/
theorem exportNode_nested_unvalidated (N : Nat)
    (ih : ∀ w, dagWeight w ≤ N → ∀ s, exportDag DagExporter.zero w = .ok s →
      ∀ x, x = s ∨ x ∈ nestedDags s → x.IsValid = false ∧ x.ValidationError = [])
    (node : Node) (hN : nodeWeight node ≤ N) (n : NodeExporter)
    (h : exportNode NodeExporterF.zero node = .ok n) (x : DagExporter)
    (hx : x ∈ nestedDagsOfNode n) : x.IsValid = false ∧ x.ValidationError = [] := by
  obtain ⟨hn1, hn2, hn3, hn4⟩ := exportNode_nested h
  obtain ⟨hc1, hc2⟩ := exportNode_conditional h
  rw [nestedDagsOfNode_eq, List.mem_append, List.mem_append] at hx
  rcases hx with (hx | hx) | hx
  · cases hsd : n.SubDag with
    | none => simp [hsd] at hx
    | some sd =>
      simp only [hsd, List.mem_cons] at hx
      cases hw : node.subDag with
      | none => rw [hn3 (Or.inl hw)] at hsd; exact absurd hsd (by simp)
      | some w =>
        by_cases hd : node.dynamic = false
        · obtain ⟨sd2, hsd2, hs2⟩ := hn4 hd w hw
          rw [hsd] at hs2
          obtain rfl := Option.some.inj hs2
          exact ih w (le_trans (nodeWeight_subDag hw) hN) sd hsd2 x hx
        · rw [hn3 (Or.inr (by simpa using hd))] at hsd
          exact absurd hsd (by simp)
  · cases hfd : n.ForeachDag with
    | none => simp [hfd] at hx
    | some fd =>
      simp only [hfd, List.mem_cons] at hx
      by_cases hf : node.GetForEach = none
      · rw [hn1 hf] at hfd
        exact absurd hfd (by simp)
      · obtain ⟨w, fd2, hw, hfd2, hs2⟩ := hn2 hf
        rw [hfd] at hs2
        obtain rfl := Option.some.inj hs2
        exact ih w (le_trans (nodeWeight_subDag hw) hN) fd hfd2 x hx
  · cases hcd : n.ConditionalDags with
    | none => simp [hcd] at hx
    | some m =>
      simp only [hcd] at hx
      obtain ⟨p, hp, hxp⟩ := mem_nestedDagsOfDags.mp hx
      by_cases hc : node.GetCondition = none
      · rw [hc1 hc] at hcd
        exact absurd hcd (by simp)
      · obtain ⟨cs, hcs, hs2⟩ := hc2 hc
        rw [hcd] at hs2
        rcases assignAll_mem none cs m hs2.symm p hp with h0 | h0
        · simp at h0
        · obtain ⟨q, hq, -, hex⟩ := forall₂_mem_right _ hcs p h0
          exact ih q.2 (le_trans (nodeWeight_conditionalDags hq) hN) p.2 hex x hxp

theorem exportDag_nested_unvalidated_aux (N : Nat) :
    ∀ dag, dagWeight dag ≤ N → ∀ e s, e.Nodes = none → exportDag e dag = .ok s →
      ∀ x, x ∈ nestedDags s → x.IsValid = false ∧ x.ValidationError = [] := by
  induction N with
  | zero =>
    intro dag hw
    rw [dagWeight_eq] at hw
    omega
  | succ N ih =>
    intro dag hw e s he h x hx
    obtain ⟨xs, hxs, hs⟩ := exportDag_ok h
    rw [he] at hs
    rw [nestedDags_eq, hs] at hx
    cases hm : assignAll none xs with
    | none => simp [hm] at hx
    | some m =>
      simp only [hm] at hx
      obtain ⟨p, hp, hxp⟩ := mem_nestedDagsOfNodes.mp hx
      rcases assignAll_mem none xs m hm p hp with h0 | h0
      · simp at h0
      · obtain ⟨q, hq, -, hex⟩ := forall₂_mem_right _ hxs p h0
        have hqw : nodeWeight q.2 ≤ N := by
          have h1 := nodesWeight_mem hq
          rw [dagWeight_eq] at hw
          omega
        refine exportNode_nested_unvalidated N ?_ q.2 hqw p.2 hex x hxp
        intro w hwN s2 hs2 y hy
        rcases hy with rfl | hy
        · exact exportDag_validity_frame hs2
        · exact ih w hwN DagExporter.zero s2 rfl hs2 y hy

/-- C12: validity is reported at the root only. In the tree built by `GetDagDefinition`
every nested workflow snapshot, that is every `SubDag`, every `ForeachDag` and every
value of a `ConditionalDags`, at any depth, has `IsValid = false` and
`ValidationError = ""`; so has every workflow snapshot nested in the result of
`exportDag` on a record whose `Nodes` is still nil. -/
theorem GetDagDefinition_nested_unvalidated (validate : Dag → Option GoString)
    (pipeline : Pipeline) (s : DagExporter)
    (h : GetDagDefinition validate pipeline = .ok s) :
    (∀ x, x ∈ nestedDags s → x.IsValid = false ∧ x.ValidationError = []) ∧
    (∀ (e s2 : DagExporter) (dag : Dag), e.Nodes = none → exportDag e dag = .ok s2 →
      ∀ x, x ∈ nestedDags s2 → x.IsValid = false ∧ x.ValidationError = []) := by
  constructor
  · unfold GetDagDefinition at h
    cases hv : validate pipeline.Dag with
    | none =>
      simp only [hv] at h
      exact exportDag_nested_unvalidated_aux _ pipeline.Dag (le_refl _) _ s rfl h
    | some text =>
      simp only [hv] at h
      exact exportDag_nested_unvalidated_aux _ pipeline.Dag (le_refl _) _ s rfl h
  · intro e s2 dag he h2
    exact exportDag_nested_unvalidated_aux _ dag (le_refl _) e s2 he h2

/-- C12, witness: an accepted workflow around the conditional node with two branches;
the root is valid, the two nested workflow snapshots are not marked. -/
theorem GetDagDefinition_nested_unvalidated_witness :
    GetDagDefinition acceptAll { Dag := branchDag } = .ok branchDagAccepted ∧
    branchDagAccepted.IsValid = true ∧
    nestedDags branchDagAccepted = [oneNodeDagSnapshot, DagExporter.zero] ∧
    ∀ x, x ∈ nestedDags branchDagAccepted → x.IsValid = false ∧ x.ValidationError = [] :=
  ⟨rfl, rfl, rfl,
   (GetDagDefinition_nested_unvalidated acceptAll { Dag := branchDag } branchDagAccepted
      rfl).1⟩

/-! ## Termination of the recursion -/

theorem liftFault_bind {α β : Type} (x : Except Fault α) (f : α → Except Fault β) :
    liftFault (x >>= f) = liftFault x >>= fun a => liftFault (f a) := by
  cases x <;> rfl

theorem exportConditionalDagsWith_eq (recDag : DagExporter → Dag → Except Stop DagExporter)
    (dags : List (GoString × Dag))
    (hrec : ∀ p, p ∈ dags → recDag DagExporter.zero p.2 =
      liftFault (exportDag DagExporter.zero p.2)) (e : NodeExporter) :
    exportConditionalDagsWith recDag e dags = liftFault (exportConditionalDags e dags) := by
  induction dags generalizing e with
  | nil => rfl
  | cons p r ih =>
    obtain ⟨k, d⟩ := p
    have hd := hrec (k, d) (by simp)
    simp only at hd
    rw [exportConditionalDags_cons, liftFault_bind]
    simp only [exportConditionalDagsWith, hd]
    congr 1
    funext x
    rw [liftFault_bind]
    congr 1
    funext m
    exact ih (fun p hp => hrec p (List.mem_cons_of_mem _ hp)) _

theorem exportNodeWith_eq (recDag : DagExporter → Dag → Except Stop DagExporter)
    (node : Node)
    (hsub : ∀ w, node.subDag = some w → recDag DagExporter.zero w =
      liftFault (exportDag DagExporter.zero w))
    (hcond : ∀ p, p ∈ node.conditionalDags → recDag DagExporter.zero p.2 =
      liftFault (exportDag DagExporter.zero p.2)) (e : NodeExporter) :
    exportNodeWith recDag e node = liftFault (exportNode e node) := by
  rw [exportNode_unfold]
  unfold exportNodeWith
  simp only [liftFault_bind]
  have h1 : (if node.GetCondition ≠ none then
        exportConditionalDagsWith recDag (markCondition (copyNodeFields e node) node)
          node.conditionalDags
      else pure (copyNodeFields e node)) =
      liftFault (if node.GetCondition ≠ none then
        exportConditionalDags (markCondition (copyNodeFields e node) node)
          node.conditionalDags
      else pure (copyNodeFields e node)) := by
    by_cases hc : node.GetCondition = none
    · rw [if_neg (not_not.mpr hc), if_neg (not_not.mpr hc)]
      rfl
    · rw [if_pos hc, if_pos hc]
      exact exportConditionalDagsWith_eq recDag _ hcond _
  rw [h1]
  congr 1
  funext e1
  have h2 : (if node.GetForEach ≠ none then
        match node.subDag with
        | none => throw (Stop.fault Fault.nilPointerDereference)
        | some subDag => do
          let foreachDag ← recDag DagExporter.zero subDag
          pure (markForeach e1 node foreachDag)
      else pure e1) =
      liftFault (if node.GetForEach ≠ none then
        match node.subDag with
        | none => throw Fault.nilPointerDereference
        | some subDag =>
          exportDag DagExporter.zero subDag >>= fun foreachDag =>
            pure (markForeach e1 node foreachDag)
      else pure e1) := by
    by_cases hf : node.GetForEach = none
    · rw [if_neg (not_not.mpr hf), if_neg (not_not.mpr hf)]
      rfl
    · rw [if_pos hf, if_pos hf]
      cases hw : node.subDag with
      | none => rfl
      | some w =>
        simp only [hsub w hw, liftFault_bind]
        rfl
  rw [h2]
  congr 1
  funext e2
  have h3 : (match node.subDag with
      | some subDag =>
        if node.dynamic = false then do
          let sub ← recDag DagExporter.zero subDag
          pure (markSubDag (markAggregators e2 node) sub)
        else pure (markAggregators e2 node)
      | none => pure (markAggregators e2 node)) =
      liftFault (match node.subDag with
      | some subDag =>
        if node.dynamic = false then
          exportDag DagExporter.zero subDag >>= fun sub =>
            pure (markSubDag (markAggregators e2 node) sub)
        else pure (markAggregators e2 node)
      | none => pure (markAggregators e2 node)) := by
    cases hw : node.subDag with
    | none => rfl
    | some w =>
      by_cases hd : node.dynamic = false
      · simp only [hd, if_true, hsub w hw, liftFault_bind]
        rfl
      · simp only [hd, if_false]
        rfl
  rw [h3]

theorem exportNodesWith_eq (recDag : DagExporter → Dag → Except Stop DagExporter)
    (nodes : List (GoString × Node))
    (hrec : ∀ p, p ∈ nodes → exportNodeWith recDag NodeExporterF.zero p.2 =
      liftFault (exportNode NodeExporterF.zero p.2)) (e : DagExporter) :
    exportNodesWith recDag e nodes = liftFault (exportNodes e nodes) := by
  induction nodes generalizing e with
  | nil => rfl
  | cons p r ih =>
    obtain ⟨k, n⟩ := p
    have hn := hrec (k, n) (by simp)
    simp only at hn
    rw [exportNodes_cons, liftFault_bind]
    simp only [exportNodesWith, hn]
    congr 1
    funext x
    rw [liftFault_bind]
    congr 1
    funext m
    exact ih (fun p hp => hrec p (List.mem_cons_of_mem _ hp)) _

theorem exportDagFuel_eq (fuel : Nat) :
    ∀ dag, dagWeight dag ≤ fuel → ∀ e,
      exportDagFuel fuel e dag = liftFault (exportDag e dag) := by
  induction fuel with
  | zero =>
    intro dag hw
    rw [dagWeight_eq] at hw
    omega
  | succ fuel ih =>
    intro dag hw e
    rw [exportDag_unfold]
    have hstep : exportDagFuel (fuel + 1) e dag =
        exportNodesWith (exportDagFuel fuel) (copyDagFields e dag) dag.nodes := rfl
    rw [hstep]
    apply exportNodesWith_eq
    intro p hp
    have hpw : nodeWeight p.2 ≤ fuel := by
      have h1 := nodesWeight_mem (show (p.1, p.2) ∈ dag.nodes from hp)
      rw [dagWeight_eq] at hw
      omega
    apply exportNodeWith_eq
    · intro w hw2
      exact ih w (le_trans (nodeWeight_subDag hw2) hpw) _
    · intro q hq
      exact ih q.2 (le_trans (nodeWeight_conditionalDags (show (q.1, q.2) ∈ _ from hq)) hpw) _

theorem exportConditionalDagsWith_congr
    (rec1 rec2 : DagExporter → Dag → Except Stop DagExporter) (dags : List (GoString × Dag))
    (hrec : ∀ p, p ∈ dags → rec1 DagExporter.zero p.2 = rec2 DagExporter.zero p.2)
    (e : NodeExporter) :
    exportConditionalDagsWith rec1 e dags = exportConditionalDagsWith rec2 e dags := by
  induction dags generalizing e with
  | nil => rfl
  | cons p r ih =>
    obtain ⟨k, d⟩ := p
    have hd := hrec (k, d) (by simp)
    simp only at hd
    simp only [exportConditionalDagsWith, hd]
    congr 1
    funext x
    congr 1
    funext m
    exact ih (fun p hp => hrec p (List.mem_cons_of_mem _ hp)) _

theorem exportNodeWith_congr (rec1 rec2 : DagExporter → Dag → Except Stop DagExporter)
    (node : Node)
    (hsub : ∀ w, node.subDag = some w → rec1 DagExporter.zero w = rec2 DagExporter.zero w)
    (hcond : ∀ p, p ∈ node.conditionalDags →
      rec1 DagExporter.zero p.2 = rec2 DagExporter.zero p.2) (e : NodeExporter) :
    exportNodeWith rec1 e node = exportNodeWith rec2 e node := by
  unfold exportNodeWith
  cases hw : node.subDag with
  | none => simp only [exportConditionalDagsWith_congr rec1 rec2 _ hcond]
  | some w => simp only [exportConditionalDagsWith_congr rec1 rec2 _ hcond, hsub w hw]

theorem exportNodesWith_congr (rec1 rec2 : DagExporter → Dag → Except Stop DagExporter)
    (nodes : List (GoString × Node))
    (hrec : ∀ p, p ∈ nodes → exportNodeWith rec1 NodeExporterF.zero p.2 =
      exportNodeWith rec2 NodeExporterF.zero p.2) (e : DagExporter) :
    exportNodesWith rec1 e nodes = exportNodesWith rec2 e nodes := by
  induction nodes generalizing e with
  | nil => rfl
  | cons p r ih =>
    obtain ⟨k, n⟩ := p
    have hn := hrec (k, n) (by simp)
    simp only at hn
    simp only [exportNodesWith, hn]
    congr 1
    funext x
    congr 1
    funext m
    exact ih (fun p hp => hrec p (List.mem_cons_of_mem _ hp)) _

theorem directlyNested_weight {d dag : Dag} (h : directlyNested d dag) :
    dagWeight d < dagWeight dag := by
  obtain ⟨k, node, hmem, hn⟩ := h
  have h1 := nodesWeight_mem hmem
  rw [dagWeight_eq dag]
  rcases hn with hsub | ⟨c, hc⟩
  · have h2 := nodeWeight_subDag hsub
    omega
  · have h2 := nodeWeight_conditionalDags hc
    omega

/-- C18: the recursion of `exportDag` through `exportNode` terminates on every workflow,
and each recursive call is made on a nested workflow that is strictly smaller. The body
of `exportDag` calls `exportDag` only on the workflows nested directly in `dag`, each on
a fresh record: run with two functions in place of the recursive call that agree on
those workflows, it gives the same result; and a workflow nested directly in `dag` holds
strictly fewer workflows than `dag`. So, run with fuel, where every call of `exportDag`
takes one unit and the nested calls get what is left, the export of `dag` never runs out
of fuel once the fuel is at least the number of workflows in its containment tree, and
it returns the result of `exportDag`, a snapshot or a panic of the program. -/
theorem exportDagFuel_terminates (dag : Dag) (fuel : Nat) (h : dagWeight dag ≤ fuel)
    (e : DagExporter) :
    exportDagFuel fuel e dag = liftFault (exportDag e dag) ∧
    exportDagFuel fuel e dag ≠ .error Stop.outOfFuel ∧
    (∀ d, directlyNested d dag → dagWeight d < dagWeight dag) ∧
    (∀ rec1 rec2 : DagExporter → Dag → Except Stop DagExporter,
      (∀ d, directlyNested d dag → rec1 DagExporter.zero d = rec2 DagExporter.zero d) →
      exportNodesWith rec1 (copyDagFields e dag) dag.nodes =
        exportNodesWith rec2 (copyDagFields e dag) dag.nodes) := by
  have heq := exportDagFuel_eq fuel dag h e
  refine ⟨heq, ?_, fun d hd => directlyNested_weight hd, ?_⟩
  · rw [heq]
    cases exportDag e dag with
    | ok s => simp [liftFault]
    | error f => simp [liftFault]
  · intro rec1 rec2 hrec
    apply exportNodesWith_congr
    intro p hp
    apply exportNodeWith_congr
    · intro w hw
      exact hrec w ⟨p.1, p.2, hp, Or.inl hw⟩
    · intro q hq
      exact hrec q.2 ⟨p.1, p.2, hp, Or.inr ⟨q.1, hq⟩⟩

/-- C18, witness: the workflow whose only node is the loop node around the workflow with
one node holds two workflows; the loop body is nested directly in it and holds one. With
fuel 2 its export returns the snapshot, with fuel 1 the call on the loop body has no
fuel left. -/
theorem exportDagFuel_terminates_witness :
    dagWeight loopDag ≤ 2 ∧
    exportDagFuel 2 DagExporter.zero loopDag = liftFault (exportDag DagExporter.zero loopDag) ∧
    exportDagFuel 2 DagExporter.zero loopDag ≠ .error Stop.outOfFuel ∧
    exportDag DagExporter.zero loopDag = .ok
      { DagExporter.zero with
        Id := go "d"
        Nodes := some [(go "loop", loopNodeSnapshot)] } ∧
    exportDagFuel 1 DagExporter.zero loopDag = .error Stop.outOfFuel ∧
    directlyNested oneNodeDag loopDag ∧
    dagWeight oneNodeDag < dagWeight loopDag :=
  have hn : directlyNested oneNodeDag loopDag :=
    ⟨go "loop", loopNode, List.mem_singleton.mpr rfl, Or.inl rfl⟩
  ⟨by decide,
   (exportDagFuel_terminates loopDag 2 (by decide) DagExporter.zero).1,
   (exportDagFuel_terminates loopDag 2 (by decide) DagExporter.zero).2.1,
   rfl, rfl, hn,
   (exportDagFuel_terminates loopDag 2 (by decide) DagExporter.zero).2.2.1 oneNodeDag hn⟩

/-! ## Independence of the iteration order at every depth -/

theorem sameDag_iff (d1 d2 : Dag) :
    sameDag d1 d2 ↔
      d2 = { d1 with nodes := d2.nodes } ∧ (GoMap.keys d1.nodes).Nodup ∧
      ∃ l, d2.nodes.Perm l ∧ sameNodes d1.nodes l := by
  cases d1
  exact Iff.rfl

theorem sameNode_iff (n1 n2 : Node) :
    sameNode n1 n2 ↔
      n2 = { n1 with subDag := n2.subDag, conditionalDags := n2.conditionalDags } ∧
      (match n1.subDag with
        | none => n2.subDag = none
        | some w => ∃ w2, n2.subDag = some w2 ∧ sameDag w w2) ∧
      (GoMap.keys n1.conditionalDags).Nodup ∧
      ∃ l, n2.conditionalDags.Perm l ∧ sameDags n1.conditionalDags l := by
  obtain ⟨a1, a2, a3, subDag, a5, a6, a7, a8, a9, a10, a11, a12, a13, a14, a15⟩ := n1
  cases subDag <;> exact Iff.rfl

theorem sameNodes_cons (k : GoString) (n : Node) (r l : List (GoString × Node)) :
    sameNodes ((k, n) :: r) l ↔
      ∃ n2 r2, l = (k, n2) :: r2 ∧ sameNode n n2 ∧ sameNodes r r2 := Iff.rfl

theorem sameDags_cons (k : GoString) (d : Dag) (r l : List (GoString × Dag)) :
    sameDags ((k, d) :: r) l ↔
      ∃ d2 r2, l = (k, d2) :: r2 ∧ sameDag d d2 ∧ sameDags r r2 := Iff.rfl

theorem sameSnapshot_iff (s1 s2 : DagExporter) :
    sameSnapshot s1 s2 ↔
      s2 = { s1 with Nodes := s2.Nodes } ∧
      (match s1.Nodes with
        | none => s2.Nodes = none
        | some m => (GoMap.keys m).Nodup ∧
          ∃ m2 l, s2.Nodes = some m2 ∧ m2.Perm l ∧ sameNodeSnapshots m l) := by
  obtain ⟨a1, a2, a3, a4, a5, a6, nodes, a8, a9⟩ := s1
  cases nodes <;> exact Iff.rfl

theorem sameNodeSnapshot_iff (x1 x2 : NodeExporter) :
    sameNodeSnapshot x1 x2 ↔
      x2 = { x1 with SubDag := x2.SubDag, ForeachDag := x2.ForeachDag,
                     ConditionalDags := x2.ConditionalDags } ∧
      (match x1.SubDag with
        | none => x2.SubDag = none
        | some d => ∃ d2, x2.SubDag = some d2 ∧ sameSnapshot d d2) ∧
      (match x1.ForeachDag with
        | none => x2.ForeachDag = none
        | some d => ∃ d2, x2.ForeachDag = some d2 ∧ sameSnapshot d d2) ∧
      (match x1.ConditionalDags with
        | none => x2.ConditionalDags = none
        | some m => (GoMap.keys m).Nodup ∧
          ∃ m2 l, x2.ConditionalDags = some m2 ∧ m2.Perm l ∧ sameSnapshots m l) := by
  obtain ⟨a1, a2, a3, a4, a5, a6, a7, a8, a9, a10, a11, sd, fd, cd, a15, a16, a17, a18⟩ := x1
  cases sd <;> cases fd <;> cases cd <;> exact Iff.rfl

theorem sameNodeSnapshots_cons (k : GoString) (x : NodeExporter)
    (r l : List (GoString × NodeExporter)) :
    sameNodeSnapshots ((k, x) :: r) l ↔
      ∃ x2 r2, l = (k, x2) :: r2 ∧ sameNodeSnapshot x x2 ∧ sameNodeSnapshots r r2 := Iff.rfl

theorem sameSnapshots_cons (k : GoString) (d : DagExporter)
    (r l : List (GoString × DagExporter)) :
    sameSnapshots ((k, d) :: r) l ↔
      ∃ d2 r2, l = (k, d2) :: r2 ∧ sameSnapshot d d2 ∧ sameSnapshots r r2 := Iff.rfl

/-- A relation that determines its right side relates a list to at most one list. -/
theorem forall₂_unique {A B : Type} (R : A → B → Prop)
    (hR : ∀ a b1 b2, R a b1 → R a b2 → b1 = b2) {l : List A} {l1 l2 : List B}
    (h1 : List.Forall₂ R l l1) (h2 : List.Forall₂ R l l2) : l1 = l2 := by
  induction h1 generalizing l2 with
  | nil => cases h2; rfl
  | cons hab _ ih =>
    cases h2 with
    | cons hab2 hr2 => rw [hR _ _ _ hab hab2, ih hr2]

theorem forall₂_exists {A B : Type} (R : A → B → Prop) (l : List A)
    (h : ∀ a, a ∈ l → ∃ b, R a b) : ∃ l2, List.Forall₂ R l l2 := by
  induction l with
  | nil => exact ⟨[], List.Forall₂.nil⟩
  | cons a r ih =>
    obtain ⟨b, hb⟩ := h a (by simp)
    obtain ⟨l2, hl2⟩ := ih (fun a ha => h a (List.mem_cons_of_mem _ ha))
    exact ⟨b :: l2, List.Forall₂.cons hb hl2⟩

theorem exportOperations_of_forall₂ (e : NodeExporter) {ops : List Operation}
    {xs : List OperationExporter}
    (h : List.Forall₂ (fun op x => exportOperation OperationExporter.zero op = .ok x) ops xs) :
    exportOperations e ops = .ok { e with Operations := e.Operations ++ xs } := by
  induction h generalizing e with
  | nil => simp [exportOperations, pure, Except.pure]
  | cons hx _ ih =>
    simp only [exportOperations, hx, bind, Except.bind]
    rw [ih]
    simp

/-- The export of a node returns a snapshot as soon as the exports of its operations and
of the workflows that it passes to `exportDag` do. -/
theorem exportNode_exists (node : Node)
    (hc : node.GetCondition ≠ none → ∃ cs : GoMap DagExporter,
      List.Forall₂ (fun p q => q.1 = p.1 ∧ exportDag DagExporter.zero p.2 = .ok q.2)
        node.conditionalDags cs)
    (hf : node.GetForEach ≠ none → ∃ w fd, node.subDag = some w ∧
      exportDag DagExporter.zero w = .ok fd)
    (hs : node.dynamic = false → ∀ w, node.subDag = some w →
      ∃ sd, exportDag DagExporter.zero w = .ok sd)
    (ho : ∃ xs, List.Forall₂
      (fun op x => exportOperation OperationExporter.zero op = .ok x) node.operations xs) :
    ∃ s, exportNode NodeExporterF.zero node = .ok s := by
  rw [exportNode_unfold]
  have h1 : ∃ e1, (if node.GetCondition ≠ none then
        exportConditionalDags (markCondition (copyNodeFields NodeExporterF.zero node) node)
          node.conditionalDags
      else pure (copyNodeFields NodeExporterF.zero node)) = .ok e1 := by
    by_cases hcn : node.GetCondition = none
    · rw [if_neg (not_not.mpr hcn)]
      exact ⟨_, rfl⟩
    · rw [if_pos hcn]
      obtain ⟨cs, hcs⟩ := hc hcn
      exact ⟨_, exportConditionalDags_of_forall₂ _ hcs⟩
  obtain ⟨e1, h1⟩ := h1
  have h2 : ∃ e2, (if node.GetForEach ≠ none then
        match node.subDag with
        | none => throw Fault.nilPointerDereference
        | some subDag =>
          exportDag DagExporter.zero subDag >>= fun foreachDag =>
            pure (markForeach e1 node foreachDag)
      else pure e1) = (.ok e2 : Except Fault NodeExporter) := by
    by_cases hfn : node.GetForEach = none
    · rw [if_neg (not_not.mpr hfn)]
      exact ⟨_, rfl⟩
    · rw [if_pos hfn]
      obtain ⟨w, fd, hw, hfd⟩ := hf hfn
      simp only [hw, hfd]
      exact ⟨_, rfl⟩
  obtain ⟨e2, h2⟩ := h2
  have h3 : ∃ e3, (match node.subDag with
      | some subDag =>
        if node.dynamic = false then
          exportDag DagExporter.zero subDag >>= fun sub =>
            pure (markSubDag (markAggregators e2 node) sub)
        else pure (markAggregators e2 node)
      | none => pure (markAggregators e2 node)) =
      (.ok e3 : Except Fault NodeExporter) := by
    cases hw : node.subDag with
    | none => exact ⟨_, rfl⟩
    | some w =>
      by_cases hd : node.dynamic = false
      · obtain ⟨sd, hsd⟩ := hs hd w hw
        simp only [hd, if_true, hsd]
        exact ⟨_, rfl⟩
      · simp only [hd, if_false]
        exact ⟨_, rfl⟩
  obtain ⟨e3, h3⟩ := h3
  obtain ⟨xs, hxs⟩ := ho
  have h4 := exportOperations_of_forall₂ e3 hxs
  exact ⟨_, bind_eq_ok.mpr ⟨e1, h1, bind_eq_ok.mpr ⟨e2, h2, bind_eq_ok.mpr ⟨e3, h3,
    bind_eq_ok.mpr ⟨_, h4, exportChildren_ok node.forwarder _ [] node.children rfl⟩⟩⟩⟩⟩

theorem sameDags_export (N : Nat)
    (ih : ∀ d1, dagWeight d1 ≤ N → ∀ d2 s1, sameDag d1 d2 →
      exportDag DagExporter.zero d1 = .ok s1 →
      ∃ s2, exportDag DagExporter.zero d2 = .ok s2 ∧ sameSnapshot s1 s2) :
    ∀ (dags1 l : List (GoString × Dag)) (cs1 : GoMap DagExporter),
      (∀ p, p ∈ dags1 → dagWeight p.2 ≤ N) → sameDags dags1 l →
      List.Forall₂ (fun p q => q.1 = p.1 ∧ exportDag DagExporter.zero p.2 = .ok q.2)
        dags1 cs1 →
      ∃ csl : GoMap DagExporter,
        List.Forall₂ (fun p q => q.1 = p.1 ∧ exportDag DagExporter.zero p.2 = .ok q.2)
          l csl ∧
        sameSnapshots cs1 csl := by
  intro dags1
  induction dags1 with
  | nil =>
    intro l cs1 _ hl hcs
    have hl2 : l = [] := hl
    subst hl2
    cases hcs
    exact ⟨[], List.Forall₂.nil, rfl⟩
  | cons p r ihr =>
    intro l cs1 hw hl hcs
    obtain ⟨k, d⟩ := p
    obtain ⟨d2, r2, rfl, hd, hr⟩ := (sameDags_cons k d r l).mp hl
    cases hcs with
    | @cons _ q _ cr hq hcr =>
      obtain ⟨k2, x⟩ := q
      obtain ⟨hk, hx⟩ := hq
      simp only at hk hx
      subst hk
      obtain ⟨x2, hx2, hsame⟩ := ih d (hw (k2, d) (by simp)) d2 x hd hx
      obtain ⟨csr, hcsr, hsr⟩ :=
        ihr r2 cr (fun p hp => hw p (List.mem_cons_of_mem _ hp)) hr hcr
      exact ⟨(k2, x2) :: csr, List.Forall₂.cons ⟨rfl, hx2⟩ hcsr,
        (sameSnapshots_cons k2 x cr _).mpr ⟨x2, csr, rfl, hsame, hsr⟩⟩

theorem sameDags_keys {dags l : List (GoString × Dag)} (h : sameDags dags l) :
    GoMap.keys l = GoMap.keys dags := by
  induction dags generalizing l with
  | nil =>
    have hl : l = [] := h
    rw [hl]
  | cons p r ih =>
    obtain ⟨k, d⟩ := p
    obtain ⟨d2, r2, rfl, -, hr⟩ := (sameDags_cons k d r l).mp h
    have := ih hr
    simp only [GoMap.keys, List.map_cons] at this ⊢
    rw [this]

theorem sameNodes_keys {nodes l : List (GoString × Node)} (h : sameNodes nodes l) :
    GoMap.keys l = GoMap.keys nodes := by
  induction nodes generalizing l with
  | nil =>
    have hl : l = [] := h
    rw [hl]
  | cons p r ih =>
    obtain ⟨k, n⟩ := p
    obtain ⟨n2, r2, rfl, -, hr⟩ := (sameNodes_cons k n r l).mp h
    have := ih hr
    simp only [GoMap.keys, List.map_cons] at this ⊢
    rw [this]

theorem exportDag_pair_unique (p : GoString × Dag) (q1 q2 : GoString × DagExporter)
    (h1 : q1.1 = p.1 ∧ exportDag DagExporter.zero p.2 = .ok q1.2)
    (h2 : q2.1 = p.1 ∧ exportDag DagExporter.zero p.2 = .ok q2.2) : q1 = q2 := by
  obtain ⟨k1, x1⟩ := q1
  obtain ⟨k2, x2⟩ := q2
  simp only at h1 h2
  have hx : x1 = x2 := Except.ok.inj (h1.2.symm.trans h2.2)
  rw [h1.1, h2.1, hx]

theorem exportNode_pair_unique (p : GoString × Node) (q1 q2 : GoString × NodeExporter)
    (h1 : q1.1 = p.1 ∧ exportNode NodeExporterF.zero p.2 = .ok q1.2)
    (h2 : q2.1 = p.1 ∧ exportNode NodeExporterF.zero p.2 = .ok q2.2) : q1 = q2 := by
  obtain ⟨k1, x1⟩ := q1
  obtain ⟨k2, x2⟩ := q2
  simp only at h1 h2
  have hx : x1 = x2 := Except.ok.inj (h1.2.symm.trans h2.2)
  rw [h1.1, h2.1, hx]

/-- Two node snapshots with equal fields outside the nested records. -/
theorem nodeExporter_eq_with (x1 x2 : NodeExporter)
    (h1 : x2.Id = x1.Id) (h2 : x2.Index = x1.Index) (h3 : x2.UniqueId = x1.UniqueId)
    (h4 : x2.IsDynamic = x1.IsDynamic) (h5 : x2.IsCondition = x1.IsCondition)
    (h6 : x2.IsForeach = x1.IsForeach) (h7 : x2.HasAgregator = x1.HasAgregator)
    (h8 : x2.HasSubAggregator = x1.HasSubAggregator) (h9 : x2.HasSubDag = x1.HasSubDag)
    (h10 : x2.InDegree = x1.InDegree) (h11 : x2.OutDegree = x1.OutDegree)
    (h12 : x2.DynamicExecOnly = x1.DynamicExecOnly) (h13 : x2.Operations = x1.Operations)
    (h14 : x2.Childrens = x1.Childrens) (h15 : x2.ChildrenExecOnly = x1.ChildrenExecOnly) :
    x2 = { x1 with SubDag := x2.SubDag, ForeachDag := x2.ForeachDag,
                   ConditionalDags := x2.ConditionalDags } := by
  obtain ⟨a1, a2, a3, a4, a5, a6, a7, a8, a9, a10, a11, a12, a13, a14, a15, a16, a17, a18⟩ := x1
  obtain ⟨b1, b2, b3, b4, b5, b6, b7, b8, b9, b10, b11, b12, b13, b14, b15, b16, b17, b18⟩ := x2
  simp only at h1 h2 h3 h4 h5 h6 h7 h8 h9 h10 h11 h12 h13 h14 h15
  subst h1 h2 h3 h4 h5 h6 h7 h8 h9 h10 h11 h12 h13 h14 h15
  rfl

/-- Two map fields filled from lists with the same distinct keys, one a permutation of a
list related to the other, are both nil or both maps related up to the order. -/
theorem assignAll_same {V : Type} (Rel : GoMap V → GoMap V → Prop) (cs1 csl cs2 : GoMap V)
    (hnd : (GoMap.keys cs1).Nodup) (hkeys : GoMap.keys csl = GoMap.keys cs1)
    (hperm : cs2.Perm csl) (hrel : Rel cs1 csl) :
    (assignAll none cs1 = none → assignAll none cs2 = none) ∧
    (∀ m, assignAll none cs1 = some m → (GoMap.keys m).Nodup ∧
      ∃ m2 l, assignAll none cs2 = some m2 ∧ m2.Perm l ∧ Rel m l) := by
  cases cs1 with
  | nil =>
    have hl : csl = [] := by
      cases csl with
      | nil => rfl
      | cons p r => simp [GoMap.keys] at hkeys
    subst hl
    have h2 : cs2 = [] := List.Perm.eq_nil hperm
    subst h2
    exact ⟨fun _ => rfl, fun m hm => absurd hm (by simp [assignAll])⟩
  | cons p r =>
    have hne : csl ≠ [] := by
      intro h0
      rw [h0] at hkeys
      simp [GoMap.keys] at hkeys
    have hne2 : cs2 ≠ [] := by
      intro h0
      rw [h0] at hperm
      exact hne (List.Perm.eq_nil hperm.symm)
    have hnd2 : (GoMap.keys cs2).Nodup := by
      have hk : (GoMap.keys cs2).Perm (GoMap.keys csl) := hperm.map Prod.fst
      rw [hkeys] at hk
      exact hk.nodup_iff.mpr hnd
    rw [assignAll_none_nodup _ hnd (by simp), assignAll_none_nodup _ hnd2 hne2]
    refine ⟨fun h0 => absurd h0 (by simp), fun m hm => ?_⟩
    obtain rfl := Option.some.inj hm
    exact ⟨hnd, cs2, csl, rfl, hperm, hrel⟩

theorem sameNode_export (N : Nat)
    (ih : ∀ d1, dagWeight d1 ≤ N → ∀ d2 s1, sameDag d1 d2 →
      exportDag DagExporter.zero d1 = .ok s1 →
      ∃ s2, exportDag DagExporter.zero d2 = .ok s2 ∧ sameSnapshot s1 s2)
    (n1 n2 : Node) (hw : nodeWeight n1 ≤ N) (hs : sameNode n1 n2) (x1 : NodeExporter)
    (h1 : exportNode NodeExporterF.zero n1 = .ok x1) :
    ∃ x2, exportNode NodeExporterF.zero n2 = .ok x2 ∧ sameNodeSnapshot x1 x2 := by
  obtain ⟨hn2, hsub, hnd, l, hperm, hdags⟩ := (sameNode_iff n1 n2).mp hs
  have hcond : n2.GetCondition = n1.GetCondition := (congrArg NodeF.GetCondition hn2).trans rfl
  have hfor : n2.GetForEach = n1.GetForEach := (congrArg NodeF.GetForEach hn2).trans rfl
  have hdyn : n2.dynamic = n1.dynamic := (congrArg NodeF.dynamic hn2).trans rfl
  have hops : n2.operations = n1.operations := (congrArg NodeF.operations hn2).trans rfl
  have hId : n2.Id = n1.Id := (congrArg NodeF.Id hn2).trans rfl
  have hidx : n2.index = n1.index := (congrArg NodeF.index hn2).trans rfl
  have huid : n2.uniqueId = n1.uniqueId := (congrArg NodeF.uniqueId hn2).trans rfl
  have hagg : n2.aggregator = n1.aggregator := (congrArg NodeF.aggregator hn2).trans rfl
  have hsagg : n2.subAggregator = n1.subAggregator := (congrArg NodeF.subAggregator hn2).trans rfl
  have hfw : n2.forwarder = n1.forwarder := (congrArg NodeF.forwarder hn2).trans rfl
  have hch : n2.children = n1.children := (congrArg NodeF.children hn2).trans rfl
  have hsome : n2.subDag.isSome = n1.subDag.isSome := by
    cases hw1 : n1.subDag with
    | none =>
      simp only [hw1] at hsub
      rw [hsub]
    | some w1 =>
      simp only [hw1] at hsub
      obtain ⟨w2, hw2, -⟩ := hsub
      rw [hw2]
      rfl
  -- the sub-workflow of `n2` exports whenever the one of `n1` does
  have hsubx : ∀ w1 x, n1.subDag = some w1 → exportDag DagExporter.zero w1 = .ok x →
      ∃ w2 x2, n2.subDag = some w2 ∧ exportDag DagExporter.zero w2 = .ok x2 ∧
        sameSnapshot x x2 := by
    intro w1 x hw1 hx
    simp only [hw1] at hsub
    obtain ⟨w2, hw2, hsame⟩ := hsub
    obtain ⟨x2, hx2, hsx⟩ := ih w1 (le_trans (nodeWeight_subDag hw1) hw) w2 x hsame hx
    exact ⟨w2, x2, hw2, hx2, hsx⟩
  have hsc1 := exportNode_scalars h1
  obtain ⟨nf1, nf2, ns1, ns2⟩ := exportNode_nested h1
  obtain ⟨c1a, c1b⟩ := exportNode_conditional h1
  have ops1 := exportNode_operations h1
  -- the conditional workflows of `n2` export whenever the ones of `n1` do
  have hcx : ∀ cs1 : GoMap DagExporter,
      List.Forall₂ (fun p q => q.1 = p.1 ∧ exportDag DagExporter.zero p.2 = .ok q.2)
        n1.conditionalDags cs1 →
      ∃ csl cs2 : GoMap DagExporter,
        List.Forall₂ (fun p q => q.1 = p.1 ∧ exportDag DagExporter.zero p.2 = .ok q.2)
          n2.conditionalDags cs2 ∧
        cs2.Perm csl ∧ GoMap.keys csl = GoMap.keys cs1 ∧ sameSnapshots cs1 csl := by
    intro cs1 hcs1
    obtain ⟨csl, hcsl, hrel⟩ := sameDags_export N ih n1.conditionalDags l cs1
      (fun p hp => le_trans (nodeWeight_conditionalDags (show (p.1, p.2) ∈ _ from hp)) hw)
      hdags hcs1
    obtain ⟨cs2, hcs2, hp2⟩ := List.perm_comp_forall₂ hperm hcsl
    refine ⟨csl, cs2, hcs2, hp2, ?_, hrel⟩
    rw [forall₂_keys (fun d x => exportDag DagExporter.zero d = .ok x) hcsl,
      forall₂_keys (fun d x => exportDag DagExporter.zero d = .ok x) hcs1]
    exact sameDags_keys hdags
  -- the export of `n2` returns a snapshot
  have hex : ∃ x2, exportNode NodeExporterF.zero n2 = .ok x2 := by
    apply exportNode_exists
    · intro hc
      rw [hcond] at hc
      obtain ⟨cs1, hcs1, -⟩ := c1b hc
      obtain ⟨csl, cs2, hcs2, -, -, -⟩ := hcx cs1 hcs1
      exact ⟨cs2, hcs2⟩
    · intro hf
      rw [hfor] at hf
      obtain ⟨w1, fd1, hw1, hfd1, -⟩ := nf2 hf
      obtain ⟨w2, x2, hw2, hx2, -⟩ := hsubx w1 fd1 hw1 hfd1
      exact ⟨w2, x2, hw2, hx2⟩
    · intro hd w2 hw2
      rw [hdyn] at hd
      cases hw1 : n1.subDag with
      | none =>
        simp only [hw1] at hsub
        rw [hsub] at hw2
        exact absurd hw2 (by simp)
      | some w1 =>
        obtain ⟨sd1, hsd1, -⟩ := ns2 hd w1 hw1
        obtain ⟨w2b, x2, hw2b, hx2, -⟩ := hsubx w1 sd1 hw1 hsd1
        rw [hw2] at hw2b
        obtain rfl := Option.some.inj hw2b
        exact ⟨x2, hx2⟩
    · exact ⟨x1.Operations, by rw [hops]; exact ops1⟩
  obtain ⟨x2, h2⟩ := hex
  refine ⟨x2, h2, ?_⟩
  have hsc2 := exportNode_scalars h2
  obtain ⟨mf1, mf2, ms1, ms2⟩ := exportNode_nested h2
  obtain ⟨c2a, c2b⟩ := exportNode_conditional h2
  have ops2 := exportNode_operations h2
  rw [hops] at ops2
  have hopsx : x2.Operations = x1.Operations :=
    forall₂_unique _ (fun a b1 b2 hb1 hb2 => Except.ok.inj (hb1.symm.trans hb2)) ops2 ops1
  rw [hcond, hfor, hdyn, hId, hidx, huid, hagg, hsagg, hfw, hch, hsome] at hsc2
  obtain ⟨p1, p2, p3, p4, p5, p6, p7, p8, p9, p10, p11, p12, p13, p14⟩ := hsc1
  obtain ⟨q1, q2, q3, q4, q5, q6, q7, q8, q9, q10, q11, q12, q13, q14⟩ := hsc2
  rw [sameNodeSnapshot_iff]
  refine ⟨?_, ?_, ?_, ?_⟩
  · exact nodeExporter_eq_with x1 x2 (q1.trans p1.symm) (q2.trans p2.symm)
      (q3.trans p3.symm) (q4.trans p4.symm) (q5.trans p5.symm) (q6.trans p6.symm)
      (q7.trans p7.symm) (q8.trans p8.symm) (q9.trans p9.symm) (q10.trans p10.symm)
      (q11.trans p11.symm) (q12.trans p12.symm) hopsx (q13.trans p13.symm)
      (q14.trans p14.symm)
  · cases hx1 : x1.SubDag with
    | none =>
      simp only
      apply ms1
      cases hw1 : n1.subDag with
      | none =>
        simp only [hw1] at hsub
        exact Or.inl hsub
      | some w1 =>
        right
        rw [hdyn]
        by_contra hd
        have hd2 : n1.dynamic = false := by simpa using hd
        obtain ⟨sd1, -, hs1⟩ := ns2 hd2 w1 hw1
        rw [hx1] at hs1
        exact absurd hs1 (by simp)
    | some sd1 =>
      simp only
      cases hw1 : n1.subDag with
      | none =>
        rw [ns1 (Or.inl hw1)] at hx1
        exact absurd hx1 (by simp)
      | some w1 =>
        by_cases hd : n1.dynamic = false
        · obtain ⟨sd, hsd, hs1⟩ := ns2 hd w1 hw1
          rw [hx1] at hs1
          obtain rfl := Option.some.inj hs1
          obtain ⟨w2, y2, hw2, hy2, hsame⟩ := hsubx w1 sd1 hw1 hsd
          obtain ⟨sd2, hsd2, hs2⟩ := ms2 (hdyn.trans hd) w2 hw2
          rw [hy2] at hsd2
          obtain rfl := Except.ok.inj hsd2
          exact ⟨y2, hs2, hsame⟩
        · rw [ns1 (Or.inr (by simpa using hd))] at hx1
          exact absurd hx1 (by simp)
  · cases hx1 : x1.ForeachDag with
    | none =>
      simp only
      apply mf1
      rw [hfor]
      by_contra hf
      obtain ⟨w1, fd1, -, -, hs1⟩ := nf2 hf
      rw [hx1] at hs1
      exact absurd hs1 (by simp)
    | some fd1 =>
      simp only
      by_cases hf : n1.GetForEach = none
      · rw [nf1 hf] at hx1
        exact absurd hx1 (by simp)
      · obtain ⟨w1, fd, hw1, hfd, hs1⟩ := nf2 hf
        rw [hx1] at hs1
        obtain rfl := Option.some.inj hs1
        obtain ⟨w2, y2, hw2, hy2, hsame⟩ := hsubx w1 fd1 hw1 hfd
        obtain ⟨w2b, fd2, hw2b, hfd2, hs2⟩ := mf2 (by rw [hfor]; exact hf)
        rw [hw2] at hw2b
        obtain rfl := Option.some.inj hw2b
        rw [hy2] at hfd2
        obtain rfl := Except.ok.inj hfd2
        exact ⟨y2, hs2, hsame⟩
  · by_cases hc : n1.GetCondition = none
    · rw [c1a hc]
      simp only
      exact c2a (hcond.trans hc)
    · obtain ⟨cs1, hcs1, hs1⟩ := c1b hc
      obtain ⟨cs2b, hcs2b, hs2⟩ := c2b (by rw [hcond]; exact hc)
      obtain ⟨csl, cs2, hcs2, hp2, hkeys, hrel⟩ := hcx cs1 hcs1
      have hcs : cs2b = cs2 :=
        forall₂_unique _ (fun p q1 q2 hq1 hq2 => exportDag_pair_unique p q1 q2 hq1 hq2)
          hcs2b hcs2
      subst hcs
      have hnd1 : (GoMap.keys cs1).Nodup := by
        rw [forall₂_keys (fun d x => exportDag DagExporter.zero d = .ok x) hcs1]
        exact hnd
      obtain ⟨k1, k2⟩ := assignAll_same sameSnapshots cs1 csl cs2b hnd1 hkeys hp2 hrel
      rw [hs2]
      cases hA : x1.ConditionalDags with
      | none =>
        simp only
        exact k1 (hs1.symm.trans hA)
      | some m =>
        simp only
        exact k2 m (hs1.symm.trans hA)

theorem sameNodes_export (N : Nat)
    (ih : ∀ d1, dagWeight d1 ≤ N → ∀ d2 s1, sameDag d1 d2 →
      exportDag DagExporter.zero d1 = .ok s1 →
      ∃ s2, exportDag DagExporter.zero d2 = .ok s2 ∧ sameSnapshot s1 s2) :
    ∀ (nodes1 l : List (GoString × Node)) (xs1 : GoMap NodeExporter),
      (∀ p, p ∈ nodes1 → nodeWeight p.2 ≤ N) → sameNodes nodes1 l →
      List.Forall₂ (fun p q => q.1 = p.1 ∧ exportNode NodeExporterF.zero p.2 = .ok q.2)
        nodes1 xs1 →
      ∃ xsl : GoMap NodeExporter,
        List.Forall₂ (fun p q => q.1 = p.1 ∧ exportNode NodeExporterF.zero p.2 = .ok q.2)
          l xsl ∧
        sameNodeSnapshots xs1 xsl := by
  intro nodes1
  induction nodes1 with
  | nil =>
    intro l xs1 _ hl hxs
    have hl2 : l = [] := hl
    subst hl2
    cases hxs
    exact ⟨[], List.Forall₂.nil, rfl⟩
  | cons p r ihr =>
    intro l xs1 hw hl hxs
    obtain ⟨k, n⟩ := p
    obtain ⟨n2, r2, rfl, hn, hr⟩ := (sameNodes_cons k n r l).mp hl
    cases hxs with
    | @cons _ q _ xr hq hxr =>
      obtain ⟨k2, x⟩ := q
      obtain ⟨hk, hx⟩ := hq
      simp only at hk hx
      subst hk
      obtain ⟨x2, hx2, hsame⟩ := sameNode_export N ih n n2 (hw (k2, n) (by simp)) hn x hx
      obtain ⟨xsr, hxsr, hsr⟩ :=
        ihr r2 xr (fun p hp => hw p (List.mem_cons_of_mem _ hp)) hr hxr
      exact ⟨(k2, x2) :: xsr, List.Forall₂.cons ⟨rfl, hx2⟩ hxsr,
        (sameNodeSnapshots_cons k2 x xr _).mpr ⟨x2, xsr, rfl, hsame, hsr⟩⟩

/-- One level of the induction: the exports of two enumerations of a workflow of weight at
most `N + 1` are related when those of the workflows of weight at most `N` are. -/
theorem sameDag_export_step (N : Nat)
    (ih : ∀ d1, dagWeight d1 ≤ N → ∀ d2 s1, sameDag d1 d2 →
      exportDag DagExporter.zero d1 = .ok s1 →
      ∃ s2, exportDag DagExporter.zero d2 = .ok s2 ∧ sameSnapshot s1 s2)
    (d1 d2 : Dag) (e s1 : DagExporter) (hw : dagWeight d1 ≤ N + 1) (he : e.Nodes = none)
    (hs : sameDag d1 d2) (h1 : exportDag e d1 = .ok s1) :
    ∃ s2, exportDag e d2 = .ok s2 ∧ sameSnapshot s1 s2 := by
  obtain ⟨hd2, hnd, l, hperm, hnodes⟩ := (sameDag_iff d1 d2).mp hs
  obtain ⟨xs1, hxs1, hs1⟩ := exportDag_ok h1
  rw [dagWeight_eq] at hw
  obtain ⟨xsl, hxsl, hrel⟩ := sameNodes_export N ih d1.nodes l xs1
    (fun p hp => by
      have := nodesWeight_mem (show (p.1, p.2) ∈ d1.nodes from hp)
      omega)
    hnodes hxs1
  obtain ⟨xs2, hxs2, hp2⟩ := List.perm_comp_forall₂ hperm hxsl
  have h2 := exportDag_of_forall₂ e d2 hxs2
  refine ⟨_, h2, ?_⟩
  have hcopy : copyDagFields e d2 = copyDagFields e d1 := by
    rw [hd2]
    rfl
  have hkeys : GoMap.keys xsl = GoMap.keys xs1 := by
    rw [forall₂_keys (fun n x => exportNode NodeExporterF.zero n = .ok x) hxsl,
      forall₂_keys (fun n x => exportNode NodeExporterF.zero n = .ok x) hxs1]
    exact sameNodes_keys hnodes
  have hnd1 : (GoMap.keys xs1).Nodup := by
    rw [forall₂_keys (fun n x => exportNode NodeExporterF.zero n = .ok x) hxs1]
    exact hnd
  obtain ⟨k1, k2⟩ := assignAll_same sameNodeSnapshots xs1 xsl xs2 hnd1 hkeys hp2 hrel
  rw [hs1, hcopy, he, sameSnapshot_iff]
  refine ⟨rfl, ?_⟩
  cases hA : assignAll none xs1 with
  | none =>
    simp only
    exact k1 hA
  | some m =>
    simp only
    exact k2 m hA

theorem sameDag_export_zero (N : Nat) :
    ∀ d1, dagWeight d1 ≤ N → ∀ d2 s1, sameDag d1 d2 →
      exportDag DagExporter.zero d1 = .ok s1 →
      ∃ s2, exportDag DagExporter.zero d2 = .ok s2 ∧ sameSnapshot s1 s2 := by
  induction N with
  | zero =>
    intro d1 hw
    rw [dagWeight_eq] at hw
    omega
  | succ N ih =>
    intro d1 hw d2 s1 hs h1
    exact sameDag_export_step N ih d1 d2 DagExporter.zero s1 hw rfl hs h1

/-- The export of a workflow and of any other enumeration of it, at every depth, are the
same snapshot up to the order of the entries of its mappings. -/
theorem sameDag_export (d1 d2 : Dag) (e s1 : DagExporter) (he : e.Nodes = none)
    (hs : sameDag d1 d2) (h1 : exportDag e d1 = .ok s1) :
    ∃ s2, exportDag e d2 = .ok s2 ∧ sameSnapshot s1 s2 :=
  sameDag_export_step (dagWeight d1) (sameDag_export_zero (dagWeight d1)) d1 d2 e s1
    (Nat.le_succ _) he hs h1

theorem sameNodeSnapshots_forall₂ {m l : List (GoString × NodeExporter)}
    (h : sameNodeSnapshots m l) :
    List.Forall₂ (fun p q => q.1 = p.1 ∧ sameNodeSnapshot p.2 q.2) m l := by
  induction m generalizing l with
  | nil =>
    have hl : l = [] := h
    rw [hl]
    exact List.Forall₂.nil
  | cons p r ih =>
    obtain ⟨k, x⟩ := p
    obtain ⟨x2, r2, rfl, hx, hr⟩ := (sameNodeSnapshots_cons k x r l).mp h
    exact List.Forall₂.cons ⟨rfl, hx⟩ (ih hr)

theorem sameSnapshots_forall₂ {m l : List (GoString × DagExporter)}
    (h : sameSnapshots m l) :
    List.Forall₂ (fun p q => q.1 = p.1 ∧ sameSnapshot p.2 q.2) m l := by
  induction m generalizing l with
  | nil =>
    have hl : l = [] := h
    rw [hl]
    exact List.Forall₂.nil
  | cons p r ih =>
    obtain ⟨k, x⟩ := p
    obtain ⟨x2, r2, rfl, hx, hr⟩ := (sameSnapshots_cons k x r l).mp h
    exact List.Forall₂.cons ⟨rfl, hx⟩ (ih hr)

/-- A map that is a permutation of a list related entry by entry to a map with distinct
keys has as many entries as that map and related values under every key. -/
theorem perm_forall₂_get {V : Type} (R : V → V → Prop) (m l m2 : GoMap V)
    (hnd : (GoMap.keys m).Nodup) (hp : m2.Perm l)
    (hf : List.Forall₂ (fun p q => q.1 = p.1 ∧ R p.2 q.2) m l) :
    m2.length = m.length ∧
    (∀ k, GoMap.get m k = none → GoMap.get m2 k = none) ∧
    (∀ k x1, GoMap.get m k = some x1 → ∃ x2, GoMap.get m2 k = some x2 ∧ R x1 x2) := by
  have hkeys : GoMap.keys l = GoMap.keys m := forall₂_keys R hf
  have hndl : (GoMap.keys l).Nodup := by
    rw [hkeys]
    exact hnd
  have hget : ∀ k, GoMap.get m2 k = GoMap.get l k := fun k => GoMap.get_perm l m2 hndl hp k
  refine ⟨by rw [hp.length_eq, hf.length_eq], ?_, ?_⟩
  · intro k hk
    rw [hget, GoMap.get_eq_none_iff, hkeys, ← GoMap.get_eq_none_iff]
    exact hk
  · intro k x1 hk
    obtain ⟨x2, hx2, hr⟩ := forall₂_get_left R hf hnd k x1 (GoMap.mem_of_get m k x1 hk)
    exact ⟨x2, by rw [hget]; exact hx2, hr⟩

/-- Two workflow snapshots that are the same up to the order of their entries have as many
entries in `Nodes` and, under every key, node snapshots that are the same up to that
order. -/
theorem sameSnapshot_nodes {s1 s2 : DagExporter} (h : sameSnapshot s1 s2) :
    mapLen s2.Nodes = mapLen s1.Nodes ∧
    (∀ k, mapGet s1.Nodes k = none → mapGet s2.Nodes k = none) ∧
    (∀ k x1, mapGet s1.Nodes k = some x1 →
      ∃ x2, mapGet s2.Nodes k = some x2 ∧ sameNodeSnapshot x1 x2) := by
  obtain ⟨-, hn⟩ := (sameSnapshot_iff s1 s2).mp h
  cases h1 : s1.Nodes with
  | none =>
    simp only [h1] at hn
    rw [hn]
    exact ⟨rfl, fun _ hk => hk, fun k x1 hk => absurd hk (by simp [mapGet])⟩
  | some m =>
    simp only [h1] at hn
    obtain ⟨hnd, m2, l, h2, hp, hrel⟩ := hn
    rw [h2]
    exact perm_forall₂_get sameNodeSnapshot m l m2 hnd hp (sameNodeSnapshots_forall₂ hrel)

/-- Two node snapshots that are the same up to the order of their entries have as many
entries in `ConditionalDags` and, under every key, workflow snapshots that are the same up
to that order. -/
theorem sameNodeSnapshot_conditional {x1 x2 : NodeExporter} (h : sameNodeSnapshot x1 x2) :
    mapLen x2.ConditionalDags = mapLen x1.ConditionalDags ∧
    (∀ k, mapGet x1.ConditionalDags k = none → mapGet x2.ConditionalDags k = none) ∧
    (∀ k d1, mapGet x1.ConditionalDags k = some d1 →
      ∃ d2, mapGet x2.ConditionalDags k = some d2 ∧ sameSnapshot d1 d2) := by
  obtain ⟨-, -, -, hn⟩ := (sameNodeSnapshot_iff x1 x2).mp h
  cases h1 : x1.ConditionalDags with
  | none =>
    simp only [h1] at hn
    rw [hn]
    exact ⟨rfl, fun _ hk => hk, fun k x1 hk => absurd hk (by simp [mapGet])⟩
  | some m =>
    simp only [h1] at hn
    obtain ⟨hnd, m2, l, h2, hp, hrel⟩ := hn
    rw [h2]
    exact perm_forall₂_get sameSnapshot m l m2 hnd hp (sameSnapshots_forall₂ hrel)

theorem sameNode_plain (id : GoString) :
    sameNode { emptyNode with Id := id } { emptyNode with Id := id } :=
  (sameNode_iff _ _).mpr ⟨rfl, rfl, List.nodup_nil, [], List.Perm.refl _, rfl⟩

theorem sameDag_emptyDag : sameDag emptyDag emptyDag :=
  (sameDag_iff _ _).mpr ⟨rfl, List.nodup_nil, [], List.Perm.refl _, rfl⟩

theorem sameDag_twoNodeDag : sameDag twoNodeDag twoNodeDagSwapped :=
  (sameDag_iff _ _).mpr ⟨rfl, by decide, twoNodeDag.nodes, List.Perm.swap _ _ _,
    (sameNodes_cons _ _ _ _).mpr ⟨_, _, rfl, sameNode_plain (go "a"),
      (sameNodes_cons _ _ _ _).mpr ⟨_, _, rfl, sameNode_plain (go "b"), rfl⟩⟩⟩

theorem sameNode_deepBranchNode : sameNode deepBranchNode deepBranchNodeReordered :=
  (sameNode_iff _ _).mpr ⟨rfl, rfl, by decide,
    [(go "yes", twoNodeDagSwapped), (go "no", emptyDag)], List.Perm.swap _ _ _,
    (sameDags_cons _ _ _ _).mpr ⟨_, _, rfl, sameDag_twoNodeDag,
      (sameDags_cons _ _ _ _).mpr ⟨_, _, rfl, sameDag_emptyDag, rfl⟩⟩⟩

theorem sameDag_deepDag : sameDag deepDag deepDagReordered :=
  (sameDag_iff _ _).mpr ⟨rfl, by decide,
    [(go "if", deepBranchNodeReordered), (go "z", { emptyNode with Id := go "z" })],
    List.Perm.swap _ _ _,
    (sameNodes_cons _ _ _ _).mpr ⟨_, _, rfl, sameNode_deepBranchNode,
      (sameNodes_cons _ _ _ _).mpr ⟨_, _, rfl, sameNode_plain (go "z"), rfl⟩⟩⟩

/-- C17: the snapshot does not depend on the order in which a node collection or a
conditional-workflow map is iterated, at any depth of the workflow. When `d2` is the
workflow `d1` with its node collection and every nested node collection and
conditional-workflow map enumerated in another order (`sameDag`, keys distinct), and
`exportDag` on a record with a nil `Nodes` returns a snapshot for `d1`, it returns one for
`d2`, and the two are the same snapshot up to the order of the entries of their mappings
(`sameSnapshot`): every scalar field is equal, `Nodes` has as many entries, a key absent
from one is absent from the other, and the node snapshots under one key are the same up
to that order. Likewise `exportNode` on two enumerations of a node gives node snapshots
whose `ConditionalDags` have as many entries, the same keys and, under every key,
workflow snapshots that are the same up to that order. -/
theorem exportDag_order_irrelevant :
    (∀ (d1 d2 : Dag) (e s1 : DagExporter), e.Nodes = none → sameDag d1 d2 →
      exportDag e d1 = .ok s1 →
      ∃ s2, exportDag e d2 = .ok s2 ∧ sameSnapshot s1 s2 ∧
        mapLen s2.Nodes = mapLen s1.Nodes ∧
        (∀ k, mapGet s1.Nodes k = none → mapGet s2.Nodes k = none) ∧
        (∀ k x1, mapGet s1.Nodes k = some x1 →
          ∃ x2, mapGet s2.Nodes k = some x2 ∧ sameNodeSnapshot x1 x2)) ∧
    (∀ (n1 n2 : Node) (x1 : NodeExporter), sameNode n1 n2 →
      exportNode NodeExporterF.zero n1 = .ok x1 →
      ∃ x2, exportNode NodeExporterF.zero n2 = .ok x2 ∧ sameNodeSnapshot x1 x2 ∧
        mapLen x2.ConditionalDags = mapLen x1.ConditionalDags ∧
        (∀ k, mapGet x1.ConditionalDags k = none → mapGet x2.ConditionalDags k = none) ∧
        (∀ k c1, mapGet x1.ConditionalDags k = some c1 →
          ∃ c2, mapGet x2.ConditionalDags k = some c2 ∧ sameSnapshot c1 c2)) := by
  constructor
  · intro d1 d2 e s1 he hs h1
    obtain ⟨s2, h2, hsame⟩ := sameDag_export d1 d2 e s1 he hs h1
    exact ⟨s2, h2, hsame, sameSnapshot_nodes hsame⟩
  · intro n1 n2 x1 hs h1
    obtain ⟨x2, h2, hsame⟩ := sameNode_export (nodeWeight n1)
      (sameDag_export_zero (nodeWeight n1)) n1 n2 (Nat.le_refl _) hs x1 h1
    exact ⟨x2, h2, hsame, sameNodeSnapshot_conditional hsame⟩

/-- The workflow `deepDag` and its enumeration `deepDagReordered`, which differs in the
order of the root nodes, of the branches of the conditional node and of the nodes of the
branch yes, give the snapshots `deepSnapshot` and `deepSnapshotReordered`, which are the
same up to the order of their entries; so do the two enumerations of the conditional
node. -/
theorem exportDag_order_irrelevant_witness :
    (sameDag deepDag deepDagReordered ∧
      exportDag DagExporter.zero deepDag = .ok deepSnapshot ∧
      exportDag DagExporter.zero deepDagReordered = .ok deepSnapshotReordered ∧
      ∃ s2, exportDag DagExporter.zero deepDagReordered = .ok s2 ∧
        sameSnapshot deepSnapshot s2 ∧
        mapLen s2.Nodes = mapLen deepSnapshot.Nodes ∧
        (∀ k, mapGet deepSnapshot.Nodes k = none → mapGet s2.Nodes k = none) ∧
        (∀ k x1, mapGet deepSnapshot.Nodes k = some x1 →
          ∃ x2, mapGet s2.Nodes k = some x2 ∧ sameNodeSnapshot x1 x2)) ∧
    (sameNode deepBranchNode deepBranchNodeReordered ∧
      exportNode NodeExporterF.zero deepBranchNode = .ok deepBranchSnapshot ∧
      exportNode NodeExporterF.zero deepBranchNodeReordered =
        .ok deepBranchSnapshotReordered ∧
      ∃ x2, exportNode NodeExporterF.zero deepBranchNodeReordered = .ok x2 ∧
        sameNodeSnapshot deepBranchSnapshot x2 ∧
        mapLen x2.ConditionalDags = mapLen deepBranchSnapshot.ConditionalDags ∧
        (∀ k, mapGet deepBranchSnapshot.ConditionalDags k = none →
          mapGet x2.ConditionalDags k = none) ∧
        (∀ k c1, mapGet deepBranchSnapshot.ConditionalDags k = some c1 →
          ∃ c2, mapGet x2.ConditionalDags k = some c2 ∧ sameSnapshot c1 c2)) :=
  ⟨⟨sameDag_deepDag, rfl, rfl,
    exportDag_order_irrelevant.1 deepDag deepDagReordered DagExporter.zero deepSnapshot rfl
      sameDag_deepDag rfl⟩,
   ⟨sameNode_deepBranchNode, rfl, rfl,
    exportDag_order_irrelevant.2 deepBranchNode deepBranchNodeReordered deepBranchSnapshot
      sameNode_deepBranchNode rfl⟩⟩

end Sdk
